import Mathlib

/-!
# SLO ("Still Looks OK") image codec: encoder and decoder of `slo.h`

A shallow embedding of `SLO_encode` and `SLO_decode` and of the helpers they
use, followed by theorems about framing, the argument guards, channel coercion,
the lossy round trip, chunk alignment, the output capacity, chunk selection, the
index and truncated input.

Conventions of the embedding.
* Bytes (`unsigned char`) and `unsigned int` values are natural numbers; where the
  C code truncates to eight bits the embedding writes `% 256` (or `u8`).
* `signed char` values are integers, produced by `s8`.
* The 64-entry index array is a function from slot number to pixel.
* A buffer that is written front to back through a cursor (`bytes[p++] = x`,
  `pixels[px_pos + k] = x`) is the list of the bytes written, in order.
* `NULL` arguments and failing allocations are outside the embedding: the
  functions are modelled for non-null arguments and a successful `malloc`.
-/

namespace Slo


set_option autoImplicit false

/-! ## Data model -/

/-- Image descriptor `SLO_desc`. -/
structure SLO_desc where
  width : Nat
  height : Nat
  channels : Nat
  colorspace : Nat
deriving DecidableEq

/-- Pixel `SLO_rgba_t`; the union member `v` is the four bytes taken together, so
`a.v == b.v` is equality of the structure. -/
structure SLO_rgba_t where
  r : Nat
  g : Nat
  b : Nat
  a : Nat
deriving DecidableEq

def SLO_OP_INDEX : Nat := 0x00
def SLO_OP_DIFF : Nat := 0x40
def SLO_OP_LUMA : Nat := 0x80
def SLO_OP_RUN : Nat := 0xc0
def SLO_OP_RGB : Nat := 0xfe
def SLO_OP_RGBA : Nat := 0xff
def SLO_MASK_2 : Nat := 0xc0

/-- The macro `SLO_COLOR_HASH`, computed in `int`. -/
def SLO_COLOR_HASH (C : SLO_rgba_t) : Nat := C.r * 3 + C.g * 5 + C.b * 7 + C.a * 11

/-- The macro `SLO_MAGIC`: the characters s, l, o, f packed big-endian. -/
def SLO_MAGIC : Nat := ((0x73 <<< 24) ||| (0x6c <<< 16)) ||| (0x6f <<< 8) ||| 0x66

def SLO_HEADER_SIZE : Nat := 14

def SLO_PIXELS_MAX : Nat := 400000000

def SLO_padding : List Nat := [0, 0, 0, 0, 0, 0, 0, 1]

/-- Conversion of an `int` to `unsigned char`. -/
def u8 (x : Int) : Nat := (x % 256).toNat

/-- Conversion of an `int` to `signed char` (two's complement wraparound). -/
def s8 (x : Int) : Int := (x + 128) % 256 - 128

/-- Assignment `index[i] = v`. -/
def setIndex (index : Nat → SLO_rgba_t) (i : Nat) (v : SLO_rgba_t) : Nat → SLO_rgba_t :=
  fun j => if j = i then v else index j

/-- The all-zero pixel. -/
def zeroPixel : SLO_rgba_t := { r := 0, g := 0, b := 0, a := 0 }

/-- The zero-initialised index array (`SLO_ZEROARR`). -/
def zeroIndex : Nat → SLO_rgba_t := fun _ => zeroPixel

/-- The starting pixel `{0, 0, 0, 255}` of encoder and decoder. -/
def startPixel : SLO_rgba_t := { r := 0, g := 0, b := 0, a := 255 }

/-! ## Header helpers -/

/-- The four bytes written by `SLO_write_32`. -/
def SLO_write_32 (v : Nat) : List Nat :=
  [(0xff000000 &&& v) >>> 24, (0x00ff0000 &&& v) >>> 16, (0x0000ff00 &&& v) >>> 8,
    0x000000ff &&& v]

/-- The value read by `SLO_read_32` from `bytes` at offset `p`. -/
def SLO_read_32 (bytes : List Nat) (p : Nat) : Nat :=
  let a := bytes.getD p 0
  let b := bytes.getD (p + 1) 0
  let c := bytes.getD (p + 2) 0
  let d := bytes.getD (p + 3) 0
  (((a <<< 24) ||| (b <<< 16)) ||| (c <<< 8)) ||| d

/-! ## Encoder -/

/-- The encoder's loop variables `run`, `px`, `px_prev` and `index`. -/
structure EncState where
  run : Nat
  px : SLO_rgba_t
  px_prev : SLO_rgba_t
  index : Nat → SLO_rgba_t

/-- The bytes written for a pixel that is not an index hit (after
`index[index_pos] = px`): a DIFF, LUMA, RGB or RGBA chunk. -/
def encDelta (px px_prev : SLO_rgba_t) : List Nat :=
  if px.a = px_prev.a then
    let vr : Int := s8 ((px.r : Int) - (px_prev.r : Int))
    let vg : Int := s8 ((px.g : Int) - (px_prev.g : Int))
    let vb : Int := s8 ((px.b : Int) - (px_prev.b : Int))
    let vg_r : Int := s8 (vr - vg)
    let vg_b : Int := s8 (vb - vg)
    if vr > -3 ∧ vr < 2 ∧ vg > -3 ∧ vg < 2 ∧ vb > -3 ∧ vb < 2 then
      [((SLO_OP_DIFF ||| ((vr + 2).toNat <<< 4)) ||| ((vg + 2).toNat <<< 2)) ||| (vb + 2).toNat]
    else if vg_r > -9 ∧ vg_r < 8 ∧ vg > -33 ∧ vg < 32 ∧ vg_b > -9 ∧ vg_b < 8 then
      [SLO_OP_LUMA ||| (vg + 32).toNat, ((vg_r + 8).toNat <<< 4) ||| (vg_b + 8).toNat]
    else
      [SLO_OP_RGB, px.r, px.g, px.b]
  else
    [SLO_OP_RGBA, px.r, px.g, px.b, px.a]

/-- What one pass through the encoder's loop body yields: the new loop variables,
the byte written by a RUN statement (`bytes[p++] = SLO_OP_RUN | (run - 1)`), if
any, and after it the bytes written for the pixel itself (an INDEX, DIFF, LUMA,
RGB or RGBA chunk), if any. -/
structure EncStep where
  state : EncState
  runBytes : List Nat
  pxBytes : List Nat

/-- The head of the encoder's loop body: `px` after reading the pixel at offset
`px_pos` (red, green and blue shifted right by one; alpha only when
`channels == 4`). -/
def encPixel (pixels : List Nat) (channels px_pos : Nat) (px : SLO_rgba_t) : SLO_rgba_t :=
  let px1 : SLO_rgba_t :=
    { r := pixels.getD (px_pos + 0) 0 >>> 1,
      g := pixels.getD (px_pos + 1) 0 >>> 1,
      b := pixels.getD (px_pos + 2) 0 >>> 1,
      a := px.a }
  if channels = 4 then { px1 with a := pixels.getD (px_pos + 3) 0 } else px1

/-- The rest of the encoder's loop body, from `if (px.v == px_prev.v)` to
`px_prev = px`; `last` is the value of the test `px_pos == px_end+1`. -/
def encChunk (last : Bool) (px : SLO_rgba_t) (s : EncState) : EncStep :=
  if px = s.px_prev then
    let run := s.run + 1
    if run = 62 ∨ last = true then
      { state := { run := 0, px := px, px_prev := px, index := s.index },
        runBytes := [SLO_OP_RUN ||| (run - 1)], pxBytes := [] }
    else
      { state := { run := run, px := px, px_prev := px, index := s.index },
        runBytes := [], pxBytes := [] }
  else
    let flush : List Nat := if s.run > 1 then [SLO_OP_RUN ||| (s.run - 1)] else []
    let run : Nat := if s.run > 1 then 0 else s.run
    let index_pos := SLO_COLOR_HASH px % 64
    if s.index index_pos = px ∨ (s.index index_pos).a = px.a * 2 ∨
        (s.index index_pos).a = s.px_prev.a * 8 then
      { state := { run := run, px := px, px_prev := px, index := s.index },
        runBytes := flush, pxBytes := [SLO_OP_INDEX ||| index_pos] }
    else
      { state := { run := run, px := px, px_prev := px, index := setIndex s.index index_pos px },
        runBytes := flush, pxBytes := encDelta px s.px_prev }

/-- One pass through the body of the encoder's `for` loop at offset `px_pos`. -/
def encIter (pixels : List Nat) (channels px_end px_pos : Nat) (s : EncState) : EncStep :=
  encChunk (decide (px_pos = px_end + 1)) (encPixel pixels channels px_pos s.px) s

/-- The encoder's `for (px_pos = 0; px_pos < px_len; px_pos += channels)` loop,
started at `px_pos` in state `s`: the bytes it writes. The first argument
bounds the number of passes; `px_len` passes always suffice. -/
def encLoop (pixels : List Nat) (channels px_len px_end : Nat) :
    Nat → Nat → EncState → List Nat
  | 0, _, _ => []
  | fuel + 1, px_pos, s =>
    if px_pos < px_len then
      let r := encIter pixels channels px_end px_pos s
      r.runBytes ++ r.pxBytes ++
        encLoop pixels channels px_len px_end fuel (px_pos + channels) r.state
    else []

/-- The argument check at the top of `SLO_encode` (pointers apart). -/
def encRejects (desc : SLO_desc) : Prop :=
  desc.width = 0 ∨ desc.height = 0 ∨ desc.channels < 3 ∨ desc.channels > 4 ∨
    desc.colorspace > 1 ∨ desc.height ≥ SLO_PIXELS_MAX / desc.width

instance (desc : SLO_desc) : Decidable (encRejects desc) := by
  unfold encRejects; infer_instance

/-- The allocation size `max_size` of `SLO_encode`. -/
def encMaxSize (desc : SLO_desc) : Nat :=
  desc.width * desc.height * (desc.channels + 1) + SLO_HEADER_SIZE + SLO_padding.length

/-- The 14 header bytes written by `SLO_encode`. -/
def encHeader (desc : SLO_desc) : List Nat :=
  SLO_write_32 SLO_MAGIC ++ SLO_write_32 desc.width ++ SLO_write_32 desc.height ++
    [desc.channels, desc.colorspace]

/-- The encoder's loop variables before the first pixel. -/
def encInit : EncState :=
  { run := 0, px := startPixel, px_prev := startPixel, index := zeroIndex }

/-- `SLO_encode`: `none` for the `NULL` return, otherwise the `*out_len` bytes of
the returned buffer. -/
def SLO_encode (pixels : List Nat) (desc : SLO_desc) : Option (List Nat) :=
  if encRejects desc then none
  else
    let px_len := desc.width * desc.height * desc.channels
    let px_end := px_len - desc.channels
    let channels := desc.channels
    some (encHeader desc ++ encLoop pixels channels px_len px_end px_len 0 encInit ++ SLO_padding)

/-! ## Decoder -/

/-- The decoder's loop variables `p`, `run`, `px` and `index`. -/
structure DecState where
  p : Nat
  run : Nat
  px : SLO_rgba_t
  index : Nat → SLO_rgba_t

/-- The statement `index[SLO_COLOR_HASH(px) % 64] = px` closing a chunk read. -/
def decStore (p run : Nat) (px : SLO_rgba_t) (index : Nat → SLO_rgba_t) : DecState :=
  { p := p, run := run, px := px, index := setIndex index (SLO_COLOR_HASH px % 64) px }

/-- The chunk-reading part of the decoder's loop body. -/
def decRead (bytes : List Nat) (chunks_len : Int) (s : DecState) : DecState :=
  if s.run > 0 then { s with run := s.run - 1 }
  else if (s.p : Int) < chunks_len then
    let b1 := bytes.getD s.p 0
    let p := s.p + 1
    if b1 = SLO_OP_RGB then
      decStore (p + 3) s.run
        { s.px with r := bytes.getD p 0, g := bytes.getD (p + 1) 0, b := bytes.getD (p + 2) 0 }
        s.index
    else if b1 = SLO_OP_RGBA then
      decStore (p + 4) s.run
        { r := bytes.getD p 0, g := bytes.getD (p + 1) 0, b := bytes.getD (p + 2) 0,
          a := bytes.getD (p + 3) 0 }
        s.index
    else if b1 &&& SLO_MASK_2 = SLO_OP_INDEX then
      decStore p s.run (s.index b1) s.index
    else if b1 &&& SLO_MASK_2 = SLO_OP_DIFF then
      decStore p s.run
        { s.px with
          r := u8 ((s.px.r : Int) + ((((b1 >>> 4) &&& 0x03 : Nat) : Int) - (2 : Int))),
          g := u8 ((s.px.g : Int) + ((((b1 >>> 2) &&& 0x03 : Nat) : Int) - (2 : Int))),
          b := u8 ((s.px.b : Int) + (((b1 &&& 0x03 : Nat) : Int) - (2 : Int))) }
        s.index
    else if b1 &&& SLO_MASK_2 = SLO_OP_LUMA then
      let b2 := bytes.getD p 0
      let vg : Int := ((b1 &&& 0x3f : Nat) : Int) - (32 : Int)
      decStore (p + 1) s.run
        { s.px with
          r := u8 ((s.px.r : Int) + (vg - (8 : Int) + (((b2 >>> 4) &&& 0x0f : Nat) : Int))),
          g := u8 ((s.px.g : Int) + vg),
          b := u8 ((s.px.b : Int) + (vg - (8 : Int) + ((b2 &&& 0x0f : Nat) : Int))) }
        s.index
    else if b1 &&& SLO_MASK_2 = SLO_OP_RUN then
      decStore p (b1 &&& 0x3f) s.px s.index
    else
      decStore p s.run s.px s.index
  else s

/-- The bytes stored into `pixels` at the end of the decoder's loop body. -/
def decEmit (channels : Nat) (px : SLO_rgba_t) : List Nat :=
  [(px.r <<< 1) % 256, (px.g <<< 1) % 256, (px.b <<< 1) % 256] ++
    (if channels = 4 then [px.a] else [])

/-- The decoder's `for (px_pos = 0; px_pos < px_len; px_pos += channels)` loop,
started at `px_pos` in state `s`: the bytes it stores into `pixels`. The first
argument bounds the number of passes; `px_len` passes always suffice. -/
def decLoop (bytes : List Nat) (chunks_len : Int) (channels px_len : Nat) :
    Nat → Nat → DecState → List Nat
  | 0, _, _ => []
  | fuel + 1, px_pos, s =>
    if px_pos < px_len then
      let s1 := decRead bytes chunks_len s
      decEmit channels s1.px ++ decLoop bytes chunks_len channels px_len fuel (px_pos + channels) s1
    else []

/-- The decoder's loop variables before the first pixel (`p` is 14 after the
header has been read). -/
def decInit : DecState :=
  { p := SLO_HEADER_SIZE, run := 0, px := startPixel, index := zeroIndex }

/-- The descriptor read from the header by `SLO_decode`. -/
def decHeader (bytes : List Nat) : SLO_desc :=
  { width := SLO_read_32 bytes 4, height := SLO_read_32 bytes 8,
    channels := bytes.getD 12 0, colorspace := bytes.getD 13 0 }

/-- `SLO_decode`: `none` for the `NULL` return, otherwise the descriptor filled
from the header and the `px_len` bytes of the returned pixel buffer. -/
def SLO_decode (bytes : List Nat) (size : Int) (channels : Int) :
    Option (SLO_desc × List Nat) :=
  if (channels ≠ 0 ∧ channels ≠ 3 ∧ channels ≠ 4) ∨
      size < (SLO_HEADER_SIZE : Int) + (SLO_padding.length : Int) then none
  else
    let header_magic := SLO_read_32 bytes 0
    let desc := decHeader bytes
    if desc.width = 0 ∨ desc.height = 0 ∨ desc.channels < 3 ∨ desc.channels > 4 ∨
        desc.colorspace > 1 ∨ header_magic ≠ SLO_MAGIC ∨
        desc.height ≥ SLO_PIXELS_MAX / desc.width then none
    else
      let channels : Nat := if channels = 0 then desc.channels else channels.toNat
      let px_len := desc.width * desc.height * channels
      let chunks_len : Int := size - (SLO_padding.length : Int)
      some (desc, decLoop bytes chunks_len channels px_len px_len 0 decInit)

/-! ## Auxiliary definitions for the statements and proofs

None of these is part of `slo.h`; each is tied to the embedding above by a
lemma below. -/

/-- The loop variables of the encoder after `k` further passes, started at offset
`px_pos` in state `s`. -/
def encStateFrom (pixels : List Nat) (channels px_end : Nat) : Nat → Nat → EncState → EncState
  | 0, _, s => s
  | k + 1, px_pos, s =>
    encStateFrom pixels channels px_end k (px_pos + channels)
      (encIter pixels channels px_end px_pos s).state

/-- The pixels of a 3-channel buffer as the encoder sees them: colour bytes
shifted right by one, alpha 255. -/
def quantPixels3 : List Nat → List SLO_rgba_t
  | r :: g :: b :: rest =>
    { r := r >>> 1, g := g >>> 1, b := b >>> 1, a := 255 } :: quantPixels3 rest
  | _ => []

/-- The pixels of a 4-channel buffer as the encoder sees them: colour bytes
shifted right by one, alpha as given. -/
def quantPixels4 : List Nat → List SLO_rgba_t
  | r :: g :: b :: a :: rest =>
    { r := r >>> 1, g := g >>> 1, b := b >>> 1, a := a } :: quantPixels4 rest
  | _ => []

/-- The pixel sequence the encoder sees for a buffer of `channels` channels. -/
def quantPixels (channels : Nat) (pixels : List Nat) : List SLO_rgba_t :=
  if channels = 4 then quantPixels4 pixels else quantPixels3 pixels

/-- A 4-channel buffer with the low bit of every colour byte cleared and every
alpha byte kept. -/
def lossy4 : List Nat → List Nat
  | r :: g :: b :: a :: rest =>
    ((r >>> 1) <<< 1) :: ((g >>> 1) <<< 1) :: ((b >>> 1) <<< 1) :: a :: lossy4 rest
  | _ => []

/-- The image `Q` of the lossy round trip: every colour byte `x` replaced by
`(x >> 1) << 1`, alpha bytes (4-channel buffers) unchanged. -/
def lossyImage (channels : Nat) (pixels : List Nat) : List Nat :=
  if channels = 4 then lossy4 pixels else pixels.map (fun x => (x >>> 1) <<< 1)

/-- A 4-channel buffer with every fourth byte removed. -/
def dropAlpha : List Nat → List Nat
  | r :: g :: b :: _ :: rest => r :: g :: b :: dropAlpha rest
  | _ => []

/-- The bytes the encoder's loop writes for the pixel sequence `qs` from state
`s`, the test `px_pos == px_end+1` being false in every pass. -/
def encList : List SLO_rgba_t → EncState → List Nat
  | [], _ => []
  | q :: qs, s =>
    (encChunk false q s).runBytes ++ (encChunk false q s).pxBytes ++
      encList qs (encChunk false q s).state

/-- The encoder's loop variables after the pixel sequence `qs`. -/
def encFinal : List SLO_rgba_t → EncState → EncState
  | [], s => s
  | q :: qs, s => encFinal qs (encChunk false q s).state

/-- The encoder never meets a pixel that differs from `px_prev` while its run
counter is exactly 1. -/
def encNoStale : List SLO_rgba_t → EncState → Prop
  | [], _ => True
  | q :: qs, s => (s.run = 1 → q = s.px_prev) ∧ encNoStale qs (encChunk false q s).state

instance instDecidableEncNoStale :
    ∀ (qs : List SLO_rgba_t) (s : EncState), Decidable (encNoStale qs s)
  | [], _ => isTrue trivial
  | q :: qs, s =>
    let _ : Decidable (encNoStale qs (encChunk false q s).state) :=
      instDecidableEncNoStale qs (encChunk false q s).state
    inferInstanceAs
      (Decidable ((s.run = 1 → q = s.px_prev) ∧ encNoStale qs (encChunk false q s).state))

/-- The decoder's loop variables after `n` passes from state `s`. -/
def decStateN (bytes : List Nat) (chunks_len : Int) : Nat → DecState → DecState
  | 0, s => s
  | n + 1, s => decStateN bytes chunks_len n (decRead bytes chunks_len s)

/-- The value of `px` at the end of each of `n` passes of the decoder's loop. -/
def decPxs (bytes : List Nat) (chunks_len : Int) : Nat → DecState → List SLO_rgba_t
  | 0, _ => []
  | n + 1, s =>
    (decRead bytes chunks_len s).px :: decPxs bytes chunks_len n (decRead bytes chunks_len s)

/-- In each of `n` passes the decoder either continues a run or reads a chunk
that starts before `chunks_len`. -/
def decFed (bytes : List Nat) (chunks_len : Int) : Nat → DecState → Prop
  | 0, _ => True
  | n + 1, s =>
    (0 < s.run ∨ (s.p : Int) < chunks_len) ∧ decFed bytes chunks_len n (decRead bytes chunks_len s)

/-- The pixels represented by the chunks that one pass of the encoder writes:
a flushed run repeats `px_prev`, a pixel chunk stands for the pixel. -/
def stepCovered (q : SLO_rgba_t) (s : EncState) : List SLO_rgba_t :=
  if q = s.px_prev then
    (if s.run + 1 = 62 then List.replicate 62 s.px_prev else [])
  else
    (if s.run > 1 then List.replicate s.run s.px_prev else []) ++ [q]

/-- The pixels represented by the chunks written for the sequence `qs`. -/
def covered : List SLO_rgba_t → EncState → List SLO_rgba_t
  | [], _ => []
  | q :: qs, s => stepCovered q s ++ covered qs (encChunk false q s).state

/-- A pixel whose fields are bytes and whose alpha is at least 128, so that neither
`px.a * 2` nor `px.a * 8` (computed in `int`) can equal a byte. -/
def PixelOK (q : SLO_rgba_t) : Prop :=
  q.r < 256 ∧ q.g < 256 ∧ q.b < 256 ∧ 128 ≤ q.a ∧ q.a < 256

/-- The relation kept between the encoder's and the decoder's loop variables on
images whose pixels are all `PixelOK`: the decoder's pixel is the encoder's
previous pixel, and every index slot the encoder has filled holds the same pixel
in the decoder. -/
def Synced (E : EncState) (D : DecState) : Prop :=
  D.px = E.px_prev ∧ PixelOK E.px_prev ∧ (∀ i, (E.index i).a < 256) ∧
    (∀ i, E.index i = zeroPixel ∨ D.index i = E.index i) ∧
    (E.index (SLO_COLOR_HASH E.px_prev % 64) = E.px_prev ∨
      E.index (SLO_COLOR_HASH E.px_prev % 64) = zeroPixel)

/-! ## Auxiliary definitions for chunk sizes and chunk selection -/

/-- The size of a chunk as the chunk grammar gives it by the first byte:
`0xFF` 5 bytes, `0xFE` 4 bytes, tag `10` 2 bytes, every other first byte 1. -/
def chunkSize (b1 : Nat) : Nat :=
  if b1 = 0xff then 5 else if b1 = 0xfe then 4 else if b1 &&& 0xc0 = 0x80 then 2 else 1

/-- The chunks the decoder reads in `n` passes from state `s`: for every pass that
enters the branch `else if (p < chunks_len)`, the read cursor `p` before the pass
and after it. -/
def decChunks (bytes : List Nat) (chunks_len : Int) : Nat → DecState → List (Nat × Nat)
  | 0, _ => []
  | n + 1, s =>
    (if s.run > 0 then []
      else if (s.p : Int) < chunks_len then [(s.p, (decRead bytes chunks_len s).p)]
      else []) ++
      decChunks bytes chunks_len n (decRead bytes chunks_len s)

/-- The chunk for a pixel that is not an index hit, as the chunk selection rule
words it: DIFF when alpha is unchanged and the three deltas lie in `[-2, 1]`;
otherwise LUMA when alpha is unchanged, `dg` lies in `[-32, 31]` and `dr - dg`,
`db - dg` lie in `[-8, 7]`; otherwise RGB when alpha is unchanged; otherwise
RGBA. The deltas are the signed 8-bit wraparound differences `px - prev`. -/
def ruleChunk (px prev : SLO_rgba_t) : List Nat :=
  let dr : Int := s8 ((px.r : Int) - (prev.r : Int))
  let dg : Int := s8 ((px.g : Int) - (prev.g : Int))
  let db : Int := s8 ((px.b : Int) - (prev.b : Int))
  if px.a = prev.a ∧ (-2 ≤ dr ∧ dr ≤ 1) ∧ (-2 ≤ dg ∧ dg ≤ 1) ∧ (-2 ≤ db ∧ db ≤ 1) then
    [0x40 ||| ((dr + 2).toNat <<< 4) ||| ((dg + 2).toNat <<< 2) ||| (db + 2).toNat]
  else if px.a = prev.a ∧ (-32 ≤ dg ∧ dg ≤ 31) ∧ (-8 ≤ dr - dg ∧ dr - dg ≤ 7) ∧
      (-8 ≤ db - dg ∧ db - dg ≤ 7) then
    [0x80 ||| (dg + 32).toNat, ((dr - dg + 8).toNat <<< 4) ||| (db - dg + 8).toNat]
  else if px.a = prev.a then [0xfe, px.r, px.g, px.b]
  else [0xff, px.r, px.g, px.b, px.a]

/-- The offsets of the input bytes that one pass of the decoder's loop reads
(each `bytes[p++]` of the pass), in the order they are read. -/
def decReadOffsets (bytes : List Nat) (chunks_len : Int) (s : DecState) : List Nat :=
  if s.run > 0 then []
  else if (s.p : Int) < chunks_len then
    let b1 := bytes.getD s.p 0
    if b1 = SLO_OP_RGB then [s.p, s.p + 1, s.p + 2, s.p + 3]
    else if b1 = SLO_OP_RGBA then [s.p, s.p + 1, s.p + 2, s.p + 3, s.p + 4]
    else if b1 &&& SLO_MASK_2 = SLO_OP_INDEX then [s.p]
    else if b1 &&& SLO_MASK_2 = SLO_OP_DIFF then [s.p]
    else if b1 &&& SLO_MASK_2 = SLO_OP_LUMA then [s.p, s.p + 1]
    else [s.p]
  else []

/-- The slots of the index array that one pass of the decoder's loop accesses:
`index[b1]` read for an INDEX chunk, and `index[SLO_COLOR_HASH(px) % 64]` written
after any chunk. -/
def decIndexSlots (bytes : List Nat) (chunks_len : Int) (s : DecState) : List Nat :=
  if s.run > 0 then []
  else if (s.p : Int) < chunks_len then
    let b1 := bytes.getD s.p 0
    (if b1 = SLO_OP_RGB then []
      else if b1 = SLO_OP_RGBA then []
      else if b1 &&& SLO_MASK_2 = SLO_OP_INDEX then [b1]
      else []) ++
      [SLO_COLOR_HASH (decRead bytes chunks_len s).px % 64]
  else []

/-- Starting from the pixel `p`, the colour `(r, g, b)` of every pixel of the
sequence differs from that of the pixel before it. -/
def colourChanges : SLO_rgba_t → List SLO_rgba_t → Prop
  | _, [] => True
  | p, q :: qs => ¬ (q.r = p.r ∧ q.g = p.g ∧ q.b = p.b) ∧ colourChanges q qs

instance instDecidableColourChanges :
    ∀ (p : SLO_rgba_t) (qs : List SLO_rgba_t), Decidable (colourChanges p qs)
  | _, [] => isTrue trivial
  | p, q :: qs =>
    let _ : Decidable (colourChanges q qs) := instDecidableColourChanges q qs
    inferInstanceAs
      (Decidable (¬ (q.r = p.r ∧ q.g = p.g ∧ q.b = p.b) ∧ colourChanges q qs))

/-- The encoder never chooses INDEX for a pixel through an alpha predicate alone:
whenever a pixel differs from `px_prev` and `index[h].a == px.a * 2` or
`index[h].a == px_prev.a * 8` holds, `index[h] == px` holds as well. -/
def encIndexExact : List SLO_rgba_t → EncState → Prop
  | [], _ => True
  | q :: qs, s =>
    (q ≠ s.px_prev →
      ((s.index (SLO_COLOR_HASH q % 64)).a = q.a * 2 ∨
        (s.index (SLO_COLOR_HASH q % 64)).a = s.px_prev.a * 8) →
      s.index (SLO_COLOR_HASH q % 64) = q) ∧
    encIndexExact qs (encChunk false q s).state

instance instDecidableEncIndexExact :
    ∀ (qs : List SLO_rgba_t) (s : EncState), Decidable (encIndexExact qs s)
  | [], _ => isTrue trivial
  | q :: qs, s =>
    let _ : Decidable (encIndexExact qs (encChunk false q s).state) :=
      instDecidableEncIndexExact qs (encChunk false q s).state
    inferInstanceAs
      (Decidable ((q ≠ s.px_prev →
        ((s.index (SLO_COLOR_HASH q % 64)).a = q.a * 2 ∨
          (s.index (SLO_COLOR_HASH q % 64)).a = s.px_prev.a * 8) →
        s.index (SLO_COLOR_HASH q % 64) = q) ∧
        encIndexExact qs (encChunk false q s).state))

/-- The relation kept between the encoder's and the decoder's loop variables when
no pixel is chosen for INDEX through an alpha predicate alone: the decoder's pixel
is the encoder's previous pixel, and the two index arrays hold the same pixels,
except that the slot of the starting pixel may still be empty in the encoder
(which stores no pixel of a run) after the decoder has filled it. -/
def SyncedExact (E : EncState) (D : DecState) : Prop :=
  D.px = E.px_prev ∧ (E.px_prev.r < 256 ∧ E.px_prev.g < 256 ∧ E.px_prev.b < 256) ∧
    (∀ i, D.index i = E.index i ∨
      (i = SLO_COLOR_HASH startPixel % 64 ∧ E.index i = zeroPixel)) ∧
    (E.index (SLO_COLOR_HASH E.px_prev % 64) = E.px_prev ∨
      (E.px_prev = startPixel ∧ E.index (SLO_COLOR_HASH startPixel % 64) = zeroPixel))

/-! ## Header arithmetic -/

theorem maskShift (v k : Nat) : (((2 ^ 8 - 1) <<< k) &&& v) >>> k = v / 2 ^ k % 256 := by
  apply Nat.eq_of_testBit_eq
  intro i
  have e : (256 : Nat) = 2 ^ 8 := by norm_num
  rw [e, ← Nat.shiftRight_eq_div_pow]
  simp only [Nat.testBit_shiftRight, Nat.testBit_and, Nat.testBit_shiftLeft,
    Nat.testBit_mod_two_pow, Nat.testBit_two_pow_sub_one]
  by_cases hi : i < 8 <;> simp [hi]

theorem write_32_bytes (v : Nat) :
    SLO_write_32 v = [v / 2 ^ 24 % 256, v / 2 ^ 16 % 256, v / 2 ^ 8 % 256, v % 256] := by
  have h3 := maskShift v 24
  have h2 := maskShift v 16
  have h1 := maskShift v 8
  have h0 := maskShift v 0
  simp only [Nat.shiftRight_zero, pow_zero, Nat.div_one] at h0
  unfold SLO_write_32
  norm_num at h3 h2 h1 h0 ⊢
  exact ⟨h3, h2, h1, h0⟩

theorem pack32 (a b c d : Nat) (hb : b < 256) (hc : c < 256) (hd : d < 256) :
    (((a <<< 24) ||| (b <<< 16)) ||| (c <<< 8)) ||| d
      = a * 2 ^ 24 + b * 2 ^ 16 + c * 2 ^ 8 + d := by
  rw [Nat.shiftLeft_eq, Nat.shiftLeft_eq, Nat.shiftLeft_eq]
  have h1 : a * 2 ^ 24 ||| b * 2 ^ 16 = a * 2 ^ 24 + b * 2 ^ 16 := by
    have := Nat.mul_add_lt_is_or (i := 24) (b := b * 2 ^ 16) (by omega) a
    rw [Nat.mul_comm] at this; exact this.symm
  rw [h1]
  have h2 : (a * 2 ^ 24 + b * 2 ^ 16) ||| c * 2 ^ 8 = a * 2 ^ 24 + b * 2 ^ 16 + c * 2 ^ 8 := by
    have := Nat.mul_add_lt_is_or (i := 16) (b := c * 2 ^ 8) (by omega) (a * 2 ^ 8 + b)
    have e : a * 2 ^ 24 + b * 2 ^ 16 = 2 ^ 16 * (a * 2 ^ 8 + b) := by ring
    rw [e, ← this]
  rw [h2]
  have := Nat.mul_add_lt_is_or (i := 8) (b := d) (by omega) (a * 2 ^ 16 + b * 2 ^ 8 + c)
  have e : a * 2 ^ 24 + b * 2 ^ 16 + c * 2 ^ 8 = 2 ^ 8 * (a * 2 ^ 16 + b * 2 ^ 8 + c) := by ring
  rw [e, ← this]

theorem magic_val : SLO_MAGIC = 0x73 * 2 ^ 24 + 0x6c * 2 ^ 16 + 0x6f * 2 ^ 8 + 0x66 := by decide

theorem read_32_val (bytes : List Nat) (p : Nat)
    (h1 : bytes.getD (p + 1) 0 < 256) (h2 : bytes.getD (p + 2) 0 < 256)
    (h3 : bytes.getD (p + 3) 0 < 256) :
    SLO_read_32 bytes p = bytes.getD p 0 * 2 ^ 24 + bytes.getD (p + 1) 0 * 2 ^ 16
      + bytes.getD (p + 2) 0 * 2 ^ 8 + bytes.getD (p + 3) 0 := by
  unfold SLO_read_32
  exact pack32 _ _ _ _ h1 h2 h3

theorem read_32_cons (x : Nat) (l : List Nat) (p : Nat) :
    SLO_read_32 (x :: l) (p + 1) = SLO_read_32 l p := by
  simp [SLO_read_32, List.getD_cons_succ, Nat.add_right_comm]

theorem read_32_write_32 (v : Nat) (hv : v < 2 ^ 32) (post : List Nat) :
    SLO_read_32 (SLO_write_32 v ++ post) 0 = v := by
  rw [read_32_val]
  all_goals simp [write_32_bytes]
  all_goals omega

theorem encHeader_eq (desc : SLO_desc) : ∃ a b c d e f g h : Nat,
    SLO_write_32 desc.width = [a, b, c, d] ∧ SLO_write_32 desc.height = [e, f, g, h] ∧ 
    encHeader desc = [0x73, 0x6c, 0x6f, 0x66, a, b, c, d, e, f, g, h,
      desc.channels, desc.colorspace] := by
  refine ⟨_, _, _, _, _, _, _, _, rfl, rfl, ?_⟩
  have : SLO_write_32 SLO_MAGIC = [0x73, 0x6c, 0x6f, 0x66] := by decide
  simp [encHeader, this]
  simp [SLO_write_32]

theorem read_magic (desc : SLO_desc) (rest : List Nat) :
    SLO_read_32 (encHeader desc ++ rest) 0 = SLO_MAGIC := by
  have h := read_32_write_32 SLO_MAGIC (by decide)
    (SLO_write_32 desc.width ++ SLO_write_32 desc.height ++
      [desc.channels, desc.colorspace] ++ rest)
  simpa [encHeader, List.append_assoc] using h

theorem decHeader_encHeader (desc : SLO_desc) (hw : desc.width < 2 ^ 32)
    (hh : desc.height < 2 ^ 32) (rest : List Nat) :
    decHeader (encHeader desc ++ rest) = desc := by
  obtain ⟨a, b, c, d, e, f, g, h, hw4, hh4, hdr⟩ := encHeader_eq desc
  have rw4 := read_32_write_32 desc.width hw
    (e :: f :: g :: h :: desc.channels :: desc.colorspace :: rest)
  have rh4 := read_32_write_32 desc.height hh (desc.channels :: desc.colorspace :: rest)
  rw [hw4] at rw4
  rw [hh4] at rh4
  rw [hdr]
  simp only [decHeader, List.cons_append, List.nil_append, read_32_cons] at rw4 rh4 ⊢
  rw [rw4, rh4]
  simp

theorem encHeader_length (desc : SLO_desc) : (encHeader desc).length = 14 := by
  simp [encHeader, SLO_write_32]

theorem encode_eq_some (pixels : List Nat) (desc : SLO_desc) (out : List Nat)
    (h : SLO_encode pixels desc = some out) :
    ¬ encRejects desc ∧
      out = encHeader desc ++
        encLoop pixels desc.channels (desc.width * desc.height * desc.channels)
          (desc.width * desc.height * desc.channels - desc.channels)
          (desc.width * desc.height * desc.channels) 0 encInit ++ SLO_padding := by
  unfold SLO_encode at h
  by_cases hr : encRejects desc
  · simp [hr] at h
  · simp only [hr, if_false, Option.some.injEq] at h
    exact ⟨hr, h.symm⟩

theorem accepted_bounds (desc : SLO_desc) (h : ¬ encRejects desc) :
    1 ≤ desc.width ∧ 1 ≤ desc.height ∧ (desc.channels = 3 ∨ desc.channels = 4) ∧
      desc.colorspace ≤ 1 ∧ desc.height < 400000000 / desc.width ∧
      desc.width ≤ 400000000 ∧ desc.width * desc.height < 400000000 ∧
      desc.height < 400000000 := by
  unfold encRejects SLO_PIXELS_MAX at h
  simp only [not_or, not_lt, not_le, ge_iff_le] at h
  obtain ⟨h1, h2, h3, h4, h5, h6⟩ := h
  have hw : 0 < desc.width := Nat.pos_of_ne_zero h1
  have hq : 0 < 400000000 / desc.width := by omega
  have hle : desc.width ≤ 400000000 := by
    by_contra hc
    have : 400000000 / desc.width = 0 := Nat.div_eq_of_lt (by omega)
    omega
  have hmul : desc.width * desc.height < 400000000 := by
    have h7 : desc.height + 1 ≤ 400000000 / desc.width := h6
    have h8 := (Nat.le_div_iff_mul_le hw).1 h7
    nlinarith
  have hdiv := Nat.div_le_self 400000000 desc.width
  refine ⟨by omega, by omega, by omega, by omega, h6, hle, hmul, by omega⟩

/-- C2. Header round trip: whenever `SLO_encode` accepts a descriptor, `SLO_decode`
of its output succeeds for each requested channel count 0, 3 and 4 and returns
exactly the encoder's descriptor (so `channels` is the input channel count, not
the requested one). -/
theorem header_round_trip (pixels : List Nat) (desc : SLO_desc) (out : List Nat)
    (channels : Int) (henc : SLO_encode pixels desc = some out)
    (hch : channels = 0 ∨ channels = 3 ∨ channels = 4) :
    ∃ px, SLO_decode out (out.length : Int) channels = some (desc, px) := by
  obtain ⟨hacc, hout⟩ := encode_eq_some pixels desc out henc
  obtain ⟨h1, h2, h3, h4, h5, h6, h7, h8⟩ := accepted_bounds desc hacc
  have hlen : 22 ≤ out.length := by
    rw [hout]; simp [encHeader_length, SLO_padding]; omega
  have hhdr : decHeader out = desc := by
    rw [hout, List.append_assoc]
    exact decHeader_encHeader desc (by omega) (by omega) _
  have hmagic : SLO_read_32 out 0 = SLO_MAGIC := by
    rw [hout, List.append_assoc]
    exact read_magic desc _
  unfold SLO_decode
  have g1 : ¬ ((channels ≠ 0 ∧ channels ≠ 3 ∧ channels ≠ 4) ∨
      (out.length : Int) < (SLO_HEADER_SIZE : Int) + (SLO_padding.length : Int)) := by
    simp only [SLO_HEADER_SIZE, SLO_padding, List.length_cons, List.length_nil]
    omega
  rw [if_neg g1]
  simp only [hhdr, hmagic]
  have g2 : ¬ (desc.width = 0 ∨ desc.height = 0 ∨ desc.channels < 3 ∨ desc.channels > 4 ∨
        desc.colorspace > 1 ∨ SLO_MAGIC ≠ SLO_MAGIC ∨
        desc.height ≥ SLO_PIXELS_MAX / desc.width) := by
    simp only [SLO_PIXELS_MAX]
    omega
  rw [if_neg g2]
  exact ⟨_, rfl⟩

theorem header_round_trip_witness :
    ∃ px, SLO_decode [115, 108, 111, 102, 0, 0, 0, 1, 0, 0, 0, 1, 4, 0, 254, 127, 0, 0,
        0, 0, 0, 0, 0, 0, 0, 1] 26 3
      = some ({ width := 1, height := 1, channels := 4, colorspace := 0 }, px) :=
  header_round_trip [255, 0, 0, 255]
    { width := 1, height := 1, channels := 4, colorspace := 0 } _ 3 (by decide)
    (by decide)

/-- C3. Framing: an accepted encoding has at least 22 bytes, starts with the 14
header bytes (magic `slof`, width and height big-endian, channels, colorspace)
and ends with the eight bytes `00 00 00 00 00 00 00 01`. -/
theorem encode_framing (pixels : List Nat) (desc : SLO_desc) (out : List Nat)
    (henc : SLO_encode pixels desc = some out) :
    22 ≤ out.length ∧
      out.take 14 =
        [0x73, 0x6C, 0x6F, 0x66,
          desc.width / 2 ^ 24 % 256, desc.width / 2 ^ 16 % 256, desc.width / 2 ^ 8 % 256,
          desc.width % 256,
          desc.height / 2 ^ 24 % 256, desc.height / 2 ^ 16 % 256, desc.height / 2 ^ 8 % 256,
          desc.height % 256,
          desc.channels, desc.colorspace] ∧
      out.drop (out.length - 8) = [0, 0, 0, 0, 0, 0, 0, 1] := by
  obtain ⟨-, hout⟩ := encode_eq_some pixels desc out henc
  have hlen : (encHeader desc).length = 14 := encHeader_length desc
  refine ⟨?_, ?_, ?_⟩
  · rw [hout]; simp [hlen, SLO_padding]; omega
  · rw [hout, List.append_assoc, List.take_append_of_le_length (by omega)]
    rw [List.take_of_length_le (by omega)]
    have : SLO_write_32 SLO_MAGIC = [0x73, 0x6c, 0x6f, 0x66] := by decide
    simp [encHeader, this, write_32_bytes]
  · rw [hout]
    have : ∀ l : List Nat, (l ++ SLO_padding).drop ((l ++ SLO_padding).length - 8) = SLO_padding := by
      intro l
      rw [List.drop_append_eq_append_drop]
      simp [SLO_padding]
    rw [this]; rfl

theorem encode_framing_witness :
    22 ≤ [115, 108, 111, 102, 0, 0, 0, 1, 0, 0, 0, 1, 4, 0, 254, 127, 0, 0,
        0, 0, 0, 0, 0, 0, 0, 1].length :=
  (encode_framing [255, 0, 0, 255]
    { width := 1, height := 1, channels := 4, colorspace := 0 } _ (by decide)).1

/-- C4. Size guard: a width of 0, a height of 0 or a product above 400,000,000
makes `SLO_encode` fail, and makes `SLO_decode` fail on every input whose
header carries that width and height. -/
theorem size_guard (w h : Nat) (hbad : w = 0 ∨ h = 0 ∨ w * h > 400000000) :
    (∀ (pixels : List Nat) (c cs : Nat),
        SLO_encode pixels { width := w, height := h, channels := c, colorspace := cs } = none) ∧
      (∀ (bytes : List Nat) (size channels : Int),
        SLO_read_32 bytes 4 = w → SLO_read_32 bytes 8 = h →
          SLO_decode bytes size channels = none) := by
  have key : w = 0 ∨ h = 0 ∨ h ≥ SLO_PIXELS_MAX / w := by
    unfold SLO_PIXELS_MAX
    rcases hbad with h0 | h0 | h0
    · exact Or.inl h0
    · exact Or.inr (Or.inl h0)
    · by_cases hw : w = 0
      · exact Or.inl hw
      · right; right
        by_contra hc
        have hlt : h < 400000000 / w := by omega
        have h8 := (Nat.le_div_iff_mul_le (Nat.pos_of_ne_zero hw)).1 hlt
        nlinarith
  constructor
  · intro pixels c cs
    unfold SLO_encode
    rw [if_pos]
    unfold encRejects
    rcases key with k | k | k
    · exact Or.inl k
    · exact Or.inr (Or.inl k)
    · exact Or.inr (Or.inr (Or.inr (Or.inr (Or.inr k))))
  · intro bytes size channels hw hh
    unfold SLO_decode
    split
    · rfl
    · rw [if_pos]
      simp only [decHeader, hw, hh]
      rcases key with k | k | k
      · exact Or.inl k
      · exact Or.inr (Or.inl k)
      · exact Or.inr (Or.inr (Or.inr (Or.inr (Or.inr (Or.inr k)))))

theorem size_guard_witness :
    SLO_encode [1, 2, 3] { width := 20001, height := 20000, channels := 3, colorspace := 0 } = none ∧
      SLO_decode [0x73, 0x6c, 0x6f, 0x66, 0, 0, 0x4e, 0x21, 0, 0, 0x4e, 0x20, 3, 0,
        0, 0, 0, 0, 0, 0, 0, 1] 22 0 = none :=
  ⟨(size_guard 20001 20000 (by decide)).1 _ _ _,
    (size_guard 20001 20000 (by decide)).2 _ _ _ (by decide) (by decide)⟩

/-- C5, counterexample: the descriptor 1 x 400,000,000 with 3 channels meets every
stated precondition (the product equals the guard exactly), yet `SLO_encode`
fails. -/
theorem encode_rejects_full_guard :
    (1 ≤ 1 ∧ 1 ≤ 400000000 ∧ 1 * 400000000 ≤ 400000000) ∧
      SLO_encode (List.replicate (1 * 400000000 * 3) 0)
        { width := 1, height := 400000000, channels := 3, colorspace := 0 } = none := by
  refine ⟨by decide, ?_⟩
  unfold SLO_encode
  rw [if_pos]
  unfold encRejects SLO_PIXELS_MAX
  decide

/-- C5, amended: `SLO_encode` succeeds exactly when width and height are at least 1,
channels is 3 or 4, colorspace is 0 or 1 and `height < 400,000,000 / width`
(integer division). -/
theorem encode_accepts_iff (pixels : List Nat) (desc : SLO_desc) :
    (SLO_encode pixels desc).isSome ↔
      (1 ≤ desc.width ∧ 1 ≤ desc.height ∧ (desc.channels = 3 ∨ desc.channels = 4) ∧
        (desc.colorspace = 0 ∨ desc.colorspace = 1) ∧
        desc.height < 400000000 / desc.width) := by
  unfold SLO_encode
  by_cases hr : encRejects desc
  · simp only [hr, if_true, Option.isSome_none, Bool.false_eq_true, false_iff]
    unfold encRejects SLO_PIXELS_MAX at hr
    omega
  · simp only [hr, if_false, Option.isSome_some, true_iff]
    unfold encRejects SLO_PIXELS_MAX at hr
    omega

theorem getD_lt (l : List Nat) (hb : ∀ x ∈ l, x < 256) (i : Nat) : l.getD i 0 < 256 := by
  by_cases hi : i < l.length
  · rw [List.getD_eq_getElem l 0 hi]
    exact hb _ (List.getElem_mem hi)
  · rw [List.getD_eq_default _ _ (by omega)]
    decide

/-- C6. Malformed input: `SLO_decode` fails when `size < 22`, when the requested
channel count is not 0, 3 or 4, when the first four bytes are not `slof`, when
header byte 12 is not 3 or 4, or when header byte 13 exceeds 1. -/
theorem decode_rejects_malformed (bytes : List Nat) (size channels : Int)
    (hb : ∀ x ∈ bytes, x < 256)
    (h : size < 22 ∨ (channels ≠ 0 ∧ channels ≠ 3 ∧ channels ≠ 4) ∨
      ¬ (bytes.getD 0 0 = 0x73 ∧ bytes.getD 1 0 = 0x6C ∧ bytes.getD 2 0 = 0x6F ∧
          bytes.getD 3 0 = 0x66) ∨
      (bytes.getD 12 0 ≠ 3 ∧ bytes.getD 12 0 ≠ 4) ∨ bytes.getD 13 0 > 1) :
    SLO_decode bytes size channels = none := by
  unfold SLO_decode
  split
  · rfl
  · rename_i g1
    rw [if_pos]
    simp only [SLO_HEADER_SIZE, SLO_padding, List.length_cons, List.length_nil, not_or] at g1
    have hm := read_32_val bytes 0 (getD_lt bytes hb _) (getD_lt bytes hb _) (getD_lt bytes hb _)
    have h0 := getD_lt bytes hb 0
    have h1 := getD_lt bytes hb 1
    have h2 := getD_lt bytes hb 2
    have h3 := getD_lt bytes hb 3
    simp only [Nat.zero_add] at hm
    rw [hm, magic_val]
    simp only [decHeader]
    rcases h with h | h | h | h | h
    · omega
    · exact absurd h g1.1
    · right; right; right; right; right; left
      intro hc
      apply h
      omega
    · right; right
      omega
    · right; right; right; right; left
      exact h

theorem decode_rejects_malformed_witness :
    SLO_decode [0x53, 0x4c, 0x4f, 0x66, 0, 0, 0, 1, 0, 0, 0, 1, 3, 0,
        0, 0, 0, 0, 0, 0, 0, 1] 22 0 = none :=
  decode_rejects_malformed _ 22 0 (by decide) (by decide)

/-! ## The loops as iterations -/

theorem decLoop_eq_flatMap (bytes : List Nat) (chunks_len : Int) (channels px_len : Nat)
    (hc : 0 < channels) (n : Nat) :
    ∀ (fuel px_pos : Nat) (s : DecState), n ≤ fuel → px_pos + n * channels = px_len →
      decLoop bytes chunks_len channels px_len fuel px_pos s
        = (decPxs bytes chunks_len n s).flatMap (decEmit channels) := by
  induction n with
  | zero =>
    intro fuel px_pos s _ hp
    cases fuel with
    | zero => simp [decLoop, decPxs]
    | succ f =>
      have : ¬ px_pos < px_len := by omega
      simp [decLoop, decPxs, this]
  | succ n ih =>
    intro fuel px_pos s hf hp
    cases fuel with
    | zero => omega
    | succ f =>
      have hlt : px_pos < px_len := by
        have : 0 < (n + 1) * channels := Nat.mul_pos (by omega) hc
        omega
      have hp2 : px_pos + channels + n * channels = px_len := by
        rw [Nat.succ_mul] at hp; omega
      simp only [decLoop, hlt, if_true, decPxs, List.flatMap_cons]
      rw [ih f (px_pos + channels) _ (by omega) hp2]

theorem decPxs_length (bytes : List Nat) (chunks_len : Int) (n : Nat) :
    ∀ s : DecState, (decPxs bytes chunks_len n s).length = n := by
  induction n with
  | zero => intro s; rfl
  | succ n ih => intro s; simp [decPxs, ih]

theorem decEmit_length (channels : Nat) (px : SLO_rgba_t) :
    (decEmit channels px).length = if channels = 4 then 4 else 3 := by
  unfold decEmit
  split <;> simp

theorem flatMap_decEmit_length (channels : Nat) (l : List SLO_rgba_t) :
    (l.flatMap (decEmit channels)).length = l.length * (if channels = 4 then 4 else 3) := by
  induction l with
  | nil => simp
  | cons q l ih =>
    rw [List.flatMap_cons, List.length_append, ih, decEmit_length, List.length_cons]
    ring

theorem dropAlpha_flatMap (l : List SLO_rgba_t) :
    dropAlpha (l.flatMap (decEmit 4)) = l.flatMap (decEmit 3) := by
  induction l with
  | nil => simp [dropAlpha]
  | cons q l ih =>
    have e4 : decEmit 4 q = [(q.r <<< 1) % 256, (q.g <<< 1) % 256, (q.b <<< 1) % 256, q.a] := by
      simp [decEmit]
    have e3 : decEmit 3 q = [(q.r <<< 1) % 256, (q.g <<< 1) % 256, (q.b <<< 1) % 256] := by
      simp [decEmit]
    rw [List.flatMap_cons, List.flatMap_cons, e4, e3]
    show dropAlpha (_ :: _ :: _ :: _ :: (l.flatMap (decEmit 4))) = _ :: _ :: _ :: _
    rw [dropAlpha, ih]
    rfl

theorem encPixel_eq3 (pixels : List Nat) (px_pos : Nat) (px : SLO_rgba_t) (r g b : Nat)
    (rest : List Nat) (h : pixels.drop px_pos = r :: g :: b :: rest) (ha : px.a = 255) :
    encPixel pixels 3 px_pos px = { r := r >>> 1, g := g >>> 1, b := b >>> 1, a := 255 } := by
  have e : ∀ i, pixels.getD (px_pos + i) 0 = (pixels.drop px_pos).getD i 0 := by
    intro i; simp [List.getD_eq_getElem?_getD, List.getElem?_drop]
  simp only [encPixel, e, h, ha]
  simp

theorem encPixel_eq4 (pixels : List Nat) (px_pos : Nat) (px : SLO_rgba_t) (r g b a : Nat)
    (rest : List Nat) (h : pixels.drop px_pos = r :: g :: b :: a :: rest) :
    encPixel pixels 4 px_pos px = { r := r >>> 1, g := g >>> 1, b := b >>> 1, a := a } := by
  have e : ∀ i, pixels.getD (px_pos + i) 0 = (pixels.drop px_pos).getD i 0 := by
    intro i; simp [List.getD_eq_getElem?_getD, List.getElem?_drop]
  simp only [encPixel, e, h]
  simp

theorem encChunk_px (last : Bool) (q : SLO_rgba_t) (s : EncState) :
    (encChunk last q s).state.px = q ∧ (encChunk last q s).state.px_prev = q := by
  simp only [encChunk]
  split_ifs <;> exact ⟨rfl, rfl⟩

theorem drop_three (l : List Nat) (pos : Nat) (h : pos + 3 ≤ l.length) :
    ∃ r g b, l.drop pos = r :: g :: b :: l.drop (pos + 3) := by
  have h0 : pos < l.length := by omega
  have h1 : pos + 1 < l.length := by omega
  have h2 : pos + 2 < l.length := by omega
  refine ⟨l[pos], l[pos + 1], l[pos + 2], ?_⟩
  rw [List.drop_eq_getElem_cons h0, List.drop_eq_getElem_cons h1, List.drop_eq_getElem_cons h2]

theorem drop_four (l : List Nat) (pos : Nat) (h : pos + 4 ≤ l.length) :
    ∃ r g b a, l.drop pos = r :: g :: b :: a :: l.drop (pos + 4) := by
  obtain ⟨r, g, b, h3⟩ := drop_three l pos (by omega)
  have h4 : pos + 3 < l.length := by omega
  refine ⟨r, g, b, l[pos + 3], ?_⟩
  rw [h3, List.drop_eq_getElem_cons h4]

/-- For a buffer of `n * channels` bytes the encoder's loop writes what `encList`
writes for the pixel sequence of the buffer. -/
theorem encLoop_eq_encList (pixels : List Nat) (channels : Nat)
    (hc : channels = 3 ∨ channels = 4) (px_end : Nat) (hend : px_end % channels = 0)
    (m : Nat) :
    ∀ (fuel px_pos : Nat) (s : EncState), m ≤ fuel → px_pos + m * channels = pixels.length →
      px_pos % channels = 0 → (channels = 3 → s.px.a = 255) →
      encLoop pixels channels pixels.length px_end fuel px_pos s
        = encList (quantPixels channels (pixels.drop px_pos)) s := by
  induction m with
  | zero =>
    intro fuel px_pos s _ hp _ _
    have hd : pixels.drop px_pos = [] := List.drop_eq_nil_of_le (by omega)
    have hq : quantPixels channels ([] : List Nat) = [] := by
      unfold quantPixels; split <;> rfl
    rw [hd, hq]
    cases fuel with
    | zero => rfl
    | succ f =>
      have : ¬ px_pos < pixels.length := by omega
      simp [encLoop, this, encList]
  | succ m ih =>
    intro fuel px_pos s hf hp hmod ha
    cases fuel with
    | zero => omega
    | succ f =>
      rw [Nat.succ_mul] at hp
      have hlt : px_pos < pixels.length := by omega
      have hlast : decide (px_pos = px_end + 1) = false := by
        rw [decide_eq_false_iff_not]
        rcases hc with h | h <;> subst h <;> omega
      have hmod2 : (px_pos + channels) % channels = 0 := by
        rcases hc with h | h <;> subst h <;> omega
      simp only [encLoop, hlt, if_true, encIter, hlast]
      rcases hc with h | h
      · subst h
        obtain ⟨r, g, b, hd⟩ := drop_three pixels px_pos (by omega)
        have hpx := encPixel_eq3 pixels px_pos s.px r g b _ hd (ha rfl)
        have hq : quantPixels 3 (pixels.drop px_pos)
            = { r := r >>> 1, g := g >>> 1, b := b >>> 1, a := 255 } ::
                quantPixels 3 (pixels.drop (px_pos + 3)) := by
          rw [hd]; simp [quantPixels, quantPixels3]
        rw [hq, hpx, encList]
        rw [ih f (px_pos + 3) _ (by omega) (by omega) hmod2
          (fun _ => by rw [(encChunk_px _ _ _).1])]
      · subst h
        obtain ⟨r, g, b, a, hd⟩ := drop_four pixels px_pos (by omega)
        have hpx := encPixel_eq4 pixels px_pos s.px r g b a _ hd
        have hq : quantPixels 4 (pixels.drop px_pos)
            = { r := r >>> 1, g := g >>> 1, b := b >>> 1, a := a } ::
                quantPixels 4 (pixels.drop (px_pos + 4)) := by
          rw [hd]; simp [quantPixels, quantPixels4]
        rw [hq, hpx, encList]
        rw [ih f (px_pos + 4) _ (by omega) (by omega) hmod2 (fun h => by omega)]

/-! ## The decoder's result -/

theorem decode_of_ok (bytes : List Nat) (size channels : Int)
    (hch : channels = 0 ∨ channels = 3 ∨ channels = 4) (hsize : 22 ≤ size)
    (hw : (decHeader bytes).width ≠ 0) (hh : (decHeader bytes).height ≠ 0)
    (hc : (decHeader bytes).channels = 3 ∨ (decHeader bytes).channels = 4)
    (hcs : (decHeader bytes).colorspace ≤ 1) (hm : SLO_read_32 bytes 0 = SLO_MAGIC)
    (hg : (decHeader bytes).height < SLO_PIXELS_MAX / (decHeader bytes).width) :
    SLO_decode bytes size channels = some (decHeader bytes,
      (decPxs bytes (size - 8) ((decHeader bytes).width * (decHeader bytes).height)
        decInit).flatMap
        (decEmit (if channels = 0 then (decHeader bytes).channels else channels.toNat))) := by
  unfold SLO_decode
  have g1 : ¬ ((channels ≠ 0 ∧ channels ≠ 3 ∧ channels ≠ 4) ∨
      size < (SLO_HEADER_SIZE : Int) + (SLO_padding.length : Int)) := by
    simp only [SLO_HEADER_SIZE, SLO_padding, List.length_cons, List.length_nil]
    omega
  rw [if_neg g1]
  have g2 : ¬ ((decHeader bytes).width = 0 ∨ (decHeader bytes).height = 0 ∨
      (decHeader bytes).channels < 3 ∨ (decHeader bytes).channels > 4 ∨
      (decHeader bytes).colorspace > 1 ∨ SLO_read_32 bytes 0 ≠ SLO_MAGIC ∨
      (decHeader bytes).height ≥ SLO_PIXELS_MAX / (decHeader bytes).width) := by
    rw [hm]; omega
  simp only [g2, if_false]
  have hpos : 0 < (if channels = 0 then (decHeader bytes).channels else channels.toNat) := by
    split
    · omega
    · omega
  rw [decLoop_eq_flatMap bytes _ _ _ hpos
    ((decHeader bytes).width * (decHeader bytes).height) _ 0 decInit
    (Nat.le_mul_of_pos_right _ hpos) (by simp)]
  simp [SLO_padding]

theorem decode_eq_some (bytes : List Nat) (size channels : Int) (d : SLO_desc)
    (out : List Nat) (h : SLO_decode bytes size channels = some (d, out)) :
    (channels = 0 ∨ channels = 3 ∨ channels = 4) ∧ 22 ≤ size ∧ d = decHeader bytes ∧
      d.width ≠ 0 ∧ d.height ≠ 0 ∧ (d.channels = 3 ∨ d.channels = 4) ∧ d.colorspace ≤ 1 ∧
      SLO_read_32 bytes 0 = SLO_MAGIC ∧ d.height < SLO_PIXELS_MAX / d.width ∧
      out = (decPxs bytes (size - 8) (d.width * d.height) decInit).flatMap
        (decEmit (if channels = 0 then d.channels else channels.toNat)) := by
  by_cases g1 : (channels ≠ 0 ∧ channels ≠ 3 ∧ channels ≠ 4) ∨
      size < (SLO_HEADER_SIZE : Int) + (SLO_padding.length : Int)
  · simp only [SLO_decode, g1, if_true] at h
    exact absurd h (by simp)
  · by_cases g2 : ((decHeader bytes).width = 0 ∨ (decHeader bytes).height = 0 ∨
        (decHeader bytes).channels < 3 ∨ (decHeader bytes).channels > 4 ∨
        (decHeader bytes).colorspace > 1 ∨ SLO_read_32 bytes 0 ≠ SLO_MAGIC ∨
        (decHeader bytes).height ≥ SLO_PIXELS_MAX / (decHeader bytes).width)
    · simp only [SLO_decode, g1, g2, if_true, if_false] at h
      exact absurd h (by simp)
    · simp only [SLO_HEADER_SIZE, SLO_padding, List.length_cons, List.length_nil, not_or] at g1
      simp only [not_or, not_lt, not_le, ge_iff_le, ne_eq, not_not] at g2
      obtain ⟨a1, a2, a3, a4, a5, a6, a7⟩ := g2
      have hch : channels = 0 ∨ channels = 3 ∨ channels = 4 := by omega
      have key := decode_of_ok bytes size channels hch (by omega) a1 a2 (by omega) a5 a6
        (by omega)
      rw [key] at h
      simp only [Option.some.injEq, Prod.mk.injEq] at h
      obtain ⟨e1, e2⟩ := h
      subst e1
      exact ⟨hch, by omega, rfl, a1, a2, by omega, a5, a6, by omega, e2.symm⟩

/-- C7. Channel coercion drops alpha: whenever `SLO_decode` succeeds with 3 requested
channels it succeeds with 4 requested channels and the same descriptor, the
3-channel result has `width * height * 3` bytes and equals the 4-channel result
with every fourth byte removed. -/
theorem decode_drops_alpha (bytes : List Nat) (size : Int) (d : SLO_desc) (out3 : List Nat)
    (h : SLO_decode bytes size 3 = some (d, out3)) :
    ∃ out4, SLO_decode bytes size 4 = some (d, out4) ∧
      out3.length = d.width * d.height * 3 ∧ out4.length = d.width * d.height * 4 ∧
      out3 = dropAlpha out4 := by
  obtain ⟨-, h2, h3, h4, h5, h6, h7, h8, h9, h10⟩ := decode_eq_some bytes size 3 d out3 h
  subst h3
  have key := decode_of_ok bytes size 4 (by omega) h2 h4 h5 h6 h7 h8 h9
  refine ⟨_, key, ?_, ?_, ?_⟩
  · rw [h10, flatMap_decEmit_length, decPxs_length]
    simp
  · rw [flatMap_decEmit_length, decPxs_length]
    simp
  · rw [h10]
    simp only [show ((4 : Int) = 0) = False by simp, show ((3 : Int) = 0) = False by simp,
      if_false]
    exact (dropAlpha_flatMap _).symm

theorem decode_drops_alpha_witness :
    ∃ out4, SLO_decode [115, 108, 111, 102, 0, 0, 0, 1, 0, 0, 0, 1, 4, 0, 255, 5, 6, 7, 9,
        0, 0, 0, 0, 0, 0, 0, 1] 27 4
        = some ({ width := 1, height := 1, channels := 4, colorspace := 0 }, out4) ∧
      [10, 12, 14].length = 1 * 1 * 3 ∧ out4.length = 1 * 1 * 4 ∧
      [10, 12, 14] = dropAlpha out4 :=
  decode_drops_alpha [115, 108, 111, 102, 0, 0, 0, 1, 0, 0, 0, 1, 4, 0, 255, 5, 6, 7, 9,
    0, 0, 0, 0, 0, 0, 0, 1] 27
    { width := 1, height := 1, channels := 4, colorspace := 0 } [10, 12, 14] (by decide)

/-! ## The run counter -/

theorem encChunk_run_le (last : Bool) (q : SLO_rgba_t) (s : EncState) (h : s.run ≤ 61) :
    (encChunk last q s).state.run ≤ 61 := by
  simp only [encChunk]
  split_ifs <;> simp <;> omega

theorem encStateFrom_run_le (pixels : List Nat) (channels px_end : Nat) (k : Nat) :
    ∀ (px_pos : Nat) (s : EncState), s.run ≤ 61 →
      (encStateFrom pixels channels px_end k px_pos s).run ≤ 61 := by
  induction k with
  | zero => intro _ s h; exact h
  | succ k ih =>
    intro px_pos s h
    exact ih _ _ (encChunk_run_le _ _ _ h)

theorem run_byte_val : ∀ n, n ≤ 61 →
    SLO_OP_RUN ||| n = 192 + n ∧ SLO_OP_RUN ||| n ≠ 0xFE ∧ SLO_OP_RUN ||| n ≠ 0xFF := by
  decide

theorem encChunk_runBytes (last : Bool) (q : SLO_rgba_t) (s : EncState) (h : s.run ≤ 61) :
    (encChunk last q s).runBytes = [] ∨
      ∃ n, n ≤ 61 ∧ (encChunk last q s).runBytes = [SLO_OP_RUN ||| n] := by
  simp only [encChunk]
  split_ifs
  · exact Or.inr ⟨s.run, h, by simp⟩
  · exact Or.inl rfl
  · exact Or.inr ⟨s.run - 1, by omega, rfl⟩
  · exact Or.inl rfl
  · exact Or.inr ⟨s.run - 1, by omega, rfl⟩
  · exact Or.inl rfl

/-- The bytes of the encoder's loop are the bytes of its passes, pass `j` being
run at offset `px_pos + j * channels` in the state `encStateFrom` gives. -/
theorem encLoop_eq_passes (pixels : List Nat) (channels px_len px_end : Nat)
    (hc : 0 < channels) (m : Nat) :
    ∀ (fuel px_pos : Nat) (s : EncState), m ≤ fuel → px_pos + m * channels = px_len →
      encLoop pixels channels px_len px_end fuel px_pos s
        = (List.range m).flatMap (fun j =>
            (encIter pixels channels px_end (px_pos + j * channels)
              (encStateFrom pixels channels px_end j px_pos s)).runBytes ++
            (encIter pixels channels px_end (px_pos + j * channels)
              (encStateFrom pixels channels px_end j px_pos s)).pxBytes) := by
  induction m with
  | zero =>
    intro fuel px_pos s _ hp
    cases fuel with
    | zero => simp [encLoop]
    | succ f =>
      have : ¬ px_pos < px_len := by omega
      simp [encLoop, this]
  | succ m ih =>
    intro fuel px_pos s hf hp
    cases fuel with
    | zero => omega
    | succ f =>
      rw [Nat.succ_mul] at hp
      have hlt : px_pos < px_len := by omega
      simp only [encLoop, hlt, if_true]
      rw [ih f (px_pos + channels) _ (by omega) (by omega), List.range_succ_eq_map,
        List.flatMap_cons, List.flatMap_map]
      simp only [encStateFrom, Nat.zero_mul, Nat.add_zero, List.append_assoc]
      have e : ∀ j, px_pos + channels + j * channels = px_pos + (j + 1) * channels := by
        intro j; rw [Nat.succ_mul]; omega
      simp only [e, Function.comp, Nat.succ_eq_add_one]

/-- C10. RUN-length bounds: at the head of every pass of the encoder's loop the run
counter is at most 61, so it never exceeds 62 inside the pass, and the byte a
RUN statement writes in the pass, if any, is `0xC0 | n` with `n <= 61`, which is
`192 + n` and so neither `0xFE` nor `0xFF`. -/
theorem run_length_bounds (pixels : List Nat) (channels px_end k : Nat) :
    (encStateFrom pixels channels px_end k 0 encInit).run + 1 ≤ 62 ∧
      ((encIter pixels channels px_end (k * channels)
          (encStateFrom pixels channels px_end k 0 encInit)).runBytes = [] ∨
        ∃ n, n ≤ 61 ∧
          (encIter pixels channels px_end (k * channels)
            (encStateFrom pixels channels px_end k 0 encInit)).runBytes = [SLO_OP_RUN ||| n] ∧
          SLO_OP_RUN ||| n = 192 + n ∧ SLO_OP_RUN ||| n ≠ 0xFE ∧ SLO_OP_RUN ||| n ≠ 0xFF) := by
  have hrun := encStateFrom_run_le pixels channels px_end k 0 encInit (by simp [encInit])
  refine ⟨by omega, ?_⟩
  rcases encChunk_runBytes (decide (k * channels = px_end + 1))
    (encPixel pixels channels (k * channels)
      (encStateFrom pixels channels px_end k 0 encInit).px) _ hrun with h | ⟨n, hn, h⟩
  · exact Or.inl h
  · exact Or.inr ⟨n, hn, h, run_byte_val n hn⟩

/-! ## How the decoder reads each chunk -/

theorem getD_of_drop (bytes : List Nat) (p : Nat) (l : List Nat) (h : bytes.drop p = l)
    (i : Nat) : bytes.getD (p + i) 0 = l.getD i 0 := by
  subst h
  simp [List.getD_eq_getElem?_getD, List.getElem?_drop]

theorem getD_of_drop_zero (bytes : List Nat) (p : Nat) (l : List Nat) (h : bytes.drop p = l) :
    bytes.getD p 0 = l.getD 0 0 := by
  have := getD_of_drop bytes p l h 0
  simpa using this

theorem index_byte_facts : ∀ h, h < 64 →
    SLO_OP_INDEX ||| h = h ∧ h ≠ SLO_OP_RGB ∧ h ≠ SLO_OP_RGBA ∧
      h &&& SLO_MASK_2 = SLO_OP_INDEX := by
  decide

theorem run_byte_facts : ∀ n, n ≤ 61 →
    SLO_OP_RUN ||| n ≠ SLO_OP_RGB ∧ SLO_OP_RUN ||| n ≠ SLO_OP_RGBA ∧
      (SLO_OP_RUN ||| n) &&& SLO_MASK_2 = SLO_OP_RUN ∧ (SLO_OP_RUN ||| n) &&& 0x3f = n := by
  decide

theorem diff_byte_facts : ∀ x, x < 4 → ∀ y, y < 4 → ∀ z, z < 4 →
    (((SLO_OP_DIFF ||| (x <<< 4)) ||| (y <<< 2)) ||| z) ≠ SLO_OP_RGB ∧
    (((SLO_OP_DIFF ||| (x <<< 4)) ||| (y <<< 2)) ||| z) ≠ SLO_OP_RGBA ∧
    (((SLO_OP_DIFF ||| (x <<< 4)) ||| (y <<< 2)) ||| z) &&& SLO_MASK_2 = SLO_OP_DIFF ∧
    ((((SLO_OP_DIFF ||| (x <<< 4)) ||| (y <<< 2)) ||| z) >>> 4) &&& 0x03 = x ∧
    ((((SLO_OP_DIFF ||| (x <<< 4)) ||| (y <<< 2)) ||| z) >>> 2) &&& 0x03 = y ∧
    (((SLO_OP_DIFF ||| (x <<< 4)) ||| (y <<< 2)) ||| z) &&& 0x03 = z := by
  decide

theorem luma_byte1_facts : ∀ g, g < 64 →
    SLO_OP_LUMA ||| g ≠ SLO_OP_RGB ∧ SLO_OP_LUMA ||| g ≠ SLO_OP_RGBA ∧
      (SLO_OP_LUMA ||| g) &&& SLO_MASK_2 = SLO_OP_LUMA ∧ (SLO_OP_LUMA ||| g) &&& 0x3f = g := by
  decide

theorem luma_byte2_facts : ∀ x, x < 16 → ∀ y, y < 16 →
    (((x <<< 4) ||| y) >>> 4) &&& 0x0f = x ∧ ((x <<< 4) ||| y) &&& 0x0f = y := by
  decide

/-- The decoder's read of an INDEX chunk. -/
theorem decRead_index (bytes : List Nat) (chunks_len : Int) (s : DecState) (h : Nat)
    (hrun : s.run = 0) (hp : (s.p : Int) < chunks_len) (hh : h < 64)
    (hb : bytes.getD s.p 0 = SLO_OP_INDEX ||| h) :
    decRead bytes chunks_len s = decStore (s.p + 1) 0 (s.index h) s.index := by
  obtain ⟨f0, f1, f2, f3⟩ := index_byte_facts h hh
  rw [f0] at hb
  simp only [decRead, hrun, Nat.lt_irrefl, if_false, hp, if_true, hb, f1, f2, f3]

/-- The decoder's read of a RUN chunk. -/
theorem decRead_run (bytes : List Nat) (chunks_len : Int) (s : DecState) (n : Nat)
    (hrun : s.run = 0) (hp : (s.p : Int) < chunks_len) (hn : n ≤ 61)
    (hb : bytes.getD s.p 0 = SLO_OP_RUN ||| n) :
    decRead bytes chunks_len s = decStore (s.p + 1) n s.px s.index := by
  obtain ⟨f1, f2, f3, f4⟩ := run_byte_facts n hn
  have g1 : SLO_OP_RUN ≠ SLO_OP_INDEX := by decide
  have g2 : SLO_OP_RUN ≠ SLO_OP_DIFF := by decide
  have g3 : SLO_OP_RUN ≠ SLO_OP_LUMA := by decide
  simp only [decRead, hrun, Nat.lt_irrefl, if_false, hp, if_true, hb, f1, f2, f3, f4, g1, g2, g3]

theorem s8_range (x : Int) : -128 ≤ s8 x ∧ s8 x < 128 := by
  unfold s8; omega

/-- The decoder's read of an RGBA chunk. -/
theorem decRead_rgba (bytes : List Nat) (chunks_len : Int) (s : DecState) (q : SLO_rgba_t)
    (rest : List Nat) (hrun : s.run = 0) (hp : (s.p : Int) < chunks_len)
    (hd : bytes.drop s.p = [SLO_OP_RGBA, q.r, q.g, q.b, q.a] ++ rest) :
    decRead bytes chunks_len s = decStore (s.p + 5) 0 q s.index := by
  have b0 := getD_of_drop_zero bytes s.p _ hd
  have b1 := getD_of_drop bytes s.p _ hd 1
  have b2 := getD_of_drop bytes s.p _ hd 2
  have b3 := getD_of_drop bytes s.p _ hd 3
  have b4 := getD_of_drop bytes s.p _ hd 4
  simp only [List.cons_append, List.getD_cons_zero, List.getD_cons_succ] at b0 b1 b2 b3 b4
  have g1 : SLO_OP_RGBA ≠ SLO_OP_RGB := by decide
  simp only [decRead, hrun, Nat.lt_irrefl, if_false, hp, if_true, b0, g1, Nat.add_assoc,
    Nat.reduceAdd, b1, b2, b3, b4]

/-- The decoder's read of an RGB chunk. -/
theorem decRead_rgb (bytes : List Nat) (chunks_len : Int) (s : DecState) (q : SLO_rgba_t)
    (rest : List Nat) (hrun : s.run = 0) (hp : (s.p : Int) < chunks_len)
    (hd : bytes.drop s.p = [SLO_OP_RGB, q.r, q.g, q.b] ++ rest) :
    decRead bytes chunks_len s
      = decStore (s.p + 4) 0 { r := q.r, g := q.g, b := q.b, a := s.px.a } s.index := by
  have b0 := getD_of_drop_zero bytes s.p _ hd
  have b1 := getD_of_drop bytes s.p _ hd 1
  have b2 := getD_of_drop bytes s.p _ hd 2
  have b3 := getD_of_drop bytes s.p _ hd 3
  simp only [List.cons_append, List.getD_cons_zero, List.getD_cons_succ] at b0 b1 b2 b3
  simp only [decRead, hrun, Nat.lt_irrefl, if_false, hp, if_true, b0, Nat.add_assoc,
    Nat.reduceAdd, b1, b2, b3]

/-- The decoder's read of a DIFF chunk. -/
theorem decRead_diff (bytes : List Nat) (chunks_len : Int) (s : DecState) (x y z : Nat)
    (hrun : s.run = 0) (hp : (s.p : Int) < chunks_len) (hx : x < 4) (hy : y < 4) (hz : z < 4)
    (hb : bytes.getD s.p 0 = ((SLO_OP_DIFF ||| (x <<< 4)) ||| (y <<< 2)) ||| z) :
    decRead bytes chunks_len s
      = decStore (s.p + 1) 0
          { r := u8 ((s.px.r : Int) + ((x : Int) - 2)), g := u8 ((s.px.g : Int) + ((y : Int) - 2)),
            b := u8 ((s.px.b : Int) + ((z : Int) - 2)), a := s.px.a } s.index := by
  obtain ⟨f1, f2, f3, f4, f5, f6⟩ := diff_byte_facts x hx y hy z hz
  have g1 : SLO_OP_DIFF ≠ SLO_OP_INDEX := by decide
  simp only [decRead, hrun, Nat.lt_irrefl, if_false, hp, if_true, hb, f1, f2, f3, f4, f5, f6, g1]

/-- The decoder's read of a LUMA chunk. -/
theorem decRead_luma (bytes : List Nat) (chunks_len : Int) (s : DecState) (g x y : Nat)
    (hrun : s.run = 0) (hp : (s.p : Int) < chunks_len) (hg : g < 64) (hx : x < 16)
    (hy : y < 16) (hb : bytes.getD s.p 0 = SLO_OP_LUMA ||| g)
    (hb2 : bytes.getD (s.p + 1) 0 = (x <<< 4) ||| y) :
    decRead bytes chunks_len s
      = decStore (s.p + 2) 0
          { r := u8 ((s.px.r : Int) + ((g : Int) - 32 - 8 + (x : Int))),
            g := u8 ((s.px.g : Int) + ((g : Int) - 32)),
            b := u8 ((s.px.b : Int) + ((g : Int) - 32 - 8 + (y : Int))), a := s.px.a }
          s.index := by
  obtain ⟨f1, f2, f3, f4⟩ := luma_byte1_facts g hg
  obtain ⟨e1, e2⟩ := luma_byte2_facts x hx y hy
  have g1 : SLO_OP_LUMA ≠ SLO_OP_INDEX := by decide
  have g2 : SLO_OP_LUMA ≠ SLO_OP_DIFF := by decide
  simp only [decRead, hrun, Nat.lt_irrefl, if_false, hp, if_true, hb, f1, f2, f3, f4, g1, g2,
    hb2, e1, e2, Nat.add_assoc, Nat.reduceAdd]

theorem rgba_ext (p q : SLO_rgba_t) (hr : p.r = q.r) (hg : p.g = q.g) (hb : p.b = q.b)
    (ha : p.a = q.a) : p = q := by
  cases p; cases q; simp_all

/-- The decoder's read of the chunk `encDelta q prev`: it consumes exactly the
chunk, and when its own pixel is `prev` it arrives at `q`. -/
theorem decRead_encDelta (bytes : List Nat) (chunks_len : Int) (s : DecState)
    (q prev : SLO_rgba_t) (rest : List Nat) (hrun : s.run = 0)
    (hp : (s.p : Int) < chunks_len) (hd : bytes.drop s.p = encDelta q prev ++ rest) :
    ∃ px, decRead bytes chunks_len s
        = decStore (s.p + (encDelta q prev).length) 0 px s.index ∧
      (s.px = prev → q.r < 256 → q.g < 256 → q.b < 256 →
        prev.r < 256 → prev.g < 256 → prev.b < 256 → px = q) := by
  unfold encDelta at hd ⊢
  by_cases ha : q.a = prev.a
  · simp only [ha, if_true] at hd ⊢
    have rr := s8_range ((q.r : Int) - (prev.r : Int))
    have rg := s8_range ((q.g : Int) - (prev.g : Int))
    have rb := s8_range ((q.b : Int) - (prev.b : Int))
    generalize hvr : s8 ((q.r : Int) - (prev.r : Int)) = vr at hd rr ⊢
    generalize hvg : s8 ((q.g : Int) - (prev.g : Int)) = vg at hd rg ⊢
    generalize hvb : s8 ((q.b : Int) - (prev.b : Int)) = vb at hd rb ⊢
    by_cases h1 : vr > -3 ∧ vr < 2 ∧ vg > -3 ∧ vg < 2 ∧ vb > -3 ∧ vb < 2
    · simp only [h1, and_self, if_true] at hd ⊢
      have b0 := getD_of_drop_zero bytes s.p _ hd
      simp only [List.cons_append, List.getD_cons_zero] at b0
      refine ⟨_, decRead_diff bytes chunks_len s _ _ _ hrun hp (by omega) (by omega) (by omega)
        b0, ?_⟩
      intro hs q1 q2 q3 p1 p2 p3
      subst hs
      unfold s8 at hvr hvg hvb
      apply rgba_ext
      · simp only [u8]; omega
      · simp only [u8]; omega
      · simp only [u8]; omega
      · exact ha.symm
    · simp only [h1, if_false] at hd ⊢
      have rgr := s8_range (vr - vg)
      have rgb := s8_range (vb - vg)
      generalize hvgr : s8 (vr - vg) = vgr at hd rgr ⊢
      generalize hvgb : s8 (vb - vg) = vgb at hd rgb ⊢
      by_cases h2 : vgr > -9 ∧ vgr < 8 ∧ vg > -33 ∧ vg < 32 ∧ vgb > -9 ∧ vgb < 8
      · simp only [h2, and_self, if_true] at hd ⊢
        have b0 := getD_of_drop_zero bytes s.p _ hd
        have b1 := getD_of_drop bytes s.p _ hd 1
        simp only [List.cons_append, List.getD_cons_zero, List.getD_cons_succ] at b0 b1
        refine ⟨_, decRead_luma bytes chunks_len s _ _ _ hrun hp (by omega) (by omega)
          (by omega) b0 b1, ?_⟩
        intro hs q1 q2 q3 p1 p2 p3
        subst hs
        unfold s8 at hvr hvg hvb hvgr hvgb
        apply rgba_ext
        · simp only [u8]; omega
        · simp only [u8]; omega
        · simp only [u8]; omega
        · exact ha.symm
      · simp only [h2, if_false] at hd ⊢
        refine ⟨_, decRead_rgb bytes chunks_len s q rest hrun hp hd, ?_⟩
        intro hs _ _ _ _ _ _
        subst hs
        apply rgba_ext <;> simp [ha]
  · simp only [ha, if_false] at hd ⊢
    exact ⟨_, decRead_rgba bytes chunks_len s q rest hrun hp hd, fun _ _ _ _ _ _ _ => rfl⟩

theorem encDelta_length_pos (q prev : SLO_rgba_t) : 0 < (encDelta q prev).length := by
  simp only [encDelta]
  split_ifs <;> simp

/-! ## Passes of the decoder's loop -/

theorem decStateN_add (bytes : List Nat) (cl : Int) (a b : Nat) :
    ∀ s : DecState, decStateN bytes cl (a + b) s = decStateN bytes cl b (decStateN bytes cl a s) := by
  induction a with
  | zero => intro s; simp [decStateN]
  | succ a ih =>
    intro s
    rw [Nat.succ_add]
    simp only [decStateN]
    exact ih _

theorem decPxs_add (bytes : List Nat) (cl : Int) (a b : Nat) :
    ∀ s : DecState, decPxs bytes cl (a + b) s
      = decPxs bytes cl a s ++ decPxs bytes cl b (decStateN bytes cl a s) := by
  induction a with
  | zero => intro s; simp [decStateN, decPxs]
  | succ a ih =>
    intro s
    rw [Nat.succ_add]
    simp only [decStateN, decPxs, List.cons_append]
    rw [ih]

theorem decFed_add (bytes : List Nat) (cl : Int) (a b : Nat) :
    ∀ s : DecState, decFed bytes cl (a + b) s
      ↔ decFed bytes cl a s ∧ decFed bytes cl b (decStateN bytes cl a s) := by
  induction a with
  | zero => intro s; simp [decStateN, decFed]
  | succ a ih =>
    intro s
    rw [Nat.succ_add]
    simp only [decStateN, decFed]
    rw [ih, and_assoc]

/-- A pass with nothing left to read leaves the loop variables alone. -/
theorem decRead_starved (bytes : List Nat) (cl : Int) (s : DecState) (hrun : s.run = 0)
    (hp : ¬ (s.p : Int) < cl) : decRead bytes cl s = s := by
  simp only [decRead, hrun, Nat.lt_irrefl, if_false, hp]

theorem decStateN_starved (bytes : List Nat) (cl : Int) (s : DecState) (hrun : s.run = 0)
    (hp : ¬ (s.p : Int) < cl) (n : Nat) :
    decStateN bytes cl n s = s ∧ decPxs bytes cl n s = List.replicate n s.px := by
  induction n with
  | zero => exact ⟨rfl, rfl⟩
  | succ n ih =>
    simp only [decStateN, decPxs, decRead_starved bytes cl s hrun hp, ih.1, ih.2,
      List.replicate_succ, and_self]

/-- While a run is pending the decoder repeats its pixel and reads nothing. -/
theorem decStateN_run (bytes : List Nat) (cl : Int) (n : Nat) :
    ∀ s : DecState, s.run = n →
      decStateN bytes cl n s = { s with run := 0 } ∧
      decPxs bytes cl n s = List.replicate n s.px ∧ decFed bytes cl n s := by
  induction n with
  | zero =>
    intro s h
    refine ⟨?_, rfl, trivial⟩
    cases s; simp_all [decStateN]
  | succ n ih =>
    intro s h
    have hr : decRead bytes cl s = { s with run := n } := by
      simp only [decRead, h, Nat.succ_pos, if_true, Nat.add_sub_cancel]
    obtain ⟨i1, i2, i3⟩ := ih { s with run := n } rfl
    simp only [decStateN, decPxs, decFed, hr, i1, i2, List.replicate_succ]
    exact ⟨trivial, trivial, Or.inl (by omega), i3⟩

/-- The decoder's passes over a RUN chunk carrying `n`: `n + 1` pixels, all equal
to the current one. -/
theorem decStateN_runChunk (bytes : List Nat) (cl : Int) (s : DecState) (n : Nat)
    (hrun : s.run = 0) (hp : (s.p : Int) < cl) (hn : n ≤ 61)
    (hb : bytes.getD s.p 0 = SLO_OP_RUN ||| n) :
    decStateN bytes cl (n + 1) s = decStore (s.p + 1) 0 s.px s.index ∧
      decPxs bytes cl (n + 1) s = List.replicate (n + 1) s.px ∧ decFed bytes cl (n + 1) s := by
  have hr := decRead_run bytes cl s n hrun hp hn hb
  obtain ⟨i1, i2, i3⟩ := decStateN_run bytes cl n (decStore (s.p + 1) n s.px s.index) rfl
  rw [Nat.add_comm n 1]
  refine ⟨?_, ?_, ?_⟩
  · rw [decStateN_add]; simp only [decStateN, hr, i1]; rfl
  · rw [decPxs_add]; simp only [decStateN, decPxs, hr, i2]
    rw [Nat.add_comm 1 n, List.replicate_succ]; rfl
  · rw [decFed_add]; simp only [decStateN, decFed, hr]
    exact ⟨⟨Or.inr hp, trivial⟩, i3⟩

/-! ## One pass of the encoder against the decoder -/

theorem encChunk_same_flush (q : SLO_rgba_t) (E : EncState) (hq : q = E.px_prev)
    (h : E.run + 1 = 62) :
    encChunk false q E =
      { state := { run := 0, px := q, px_prev := q, index := E.index },
        runBytes := [SLO_OP_RUN ||| 61], pxBytes := [] } := by
  have : E.run + 1 - 1 = 61 := by omega
  simp [encChunk, hq, h, this]

theorem encChunk_same_keep (q : SLO_rgba_t) (E : EncState) (hq : q = E.px_prev)
    (h : E.run + 1 ≠ 62) :
    encChunk false q E =
      { state := { run := E.run + 1, px := q, px_prev := q, index := E.index },
        runBytes := [], pxBytes := [] } := by
  simp [encChunk, hq, h]

theorem encChunk_index (q : SLO_rgba_t) (E : EncState) (hq : q ≠ E.px_prev)
    (hi : E.index (SLO_COLOR_HASH q % 64) = q ∨
      (E.index (SLO_COLOR_HASH q % 64)).a = q.a * 2 ∨
      (E.index (SLO_COLOR_HASH q % 64)).a = E.px_prev.a * 8) :
    encChunk false q E =
      { state := { run := if E.run > 1 then 0 else E.run, px := q, px_prev := q,
                   index := E.index },
        runBytes := if E.run > 1 then [SLO_OP_RUN ||| (E.run - 1)] else [],
        pxBytes := [SLO_OP_INDEX ||| (SLO_COLOR_HASH q % 64)] } := by
  simp only [encChunk, hq, if_false, hi, if_true]

theorem encChunk_delta (q : SLO_rgba_t) (E : EncState) (hq : q ≠ E.px_prev)
    (hi : ¬ (E.index (SLO_COLOR_HASH q % 64) = q ∨
      (E.index (SLO_COLOR_HASH q % 64)).a = q.a * 2 ∨
      (E.index (SLO_COLOR_HASH q % 64)).a = E.px_prev.a * 8)) :
    encChunk false q E =
      { state := { run := if E.run > 1 then 0 else E.run, px := q, px_prev := q,
                   index := setIndex E.index (SLO_COLOR_HASH q % 64) q },
        runBytes := if E.run > 1 then [SLO_OP_RUN ||| (E.run - 1)] else [],
        pxBytes := encDelta q E.px_prev } := by
  simp only [encChunk, hq, if_false, hi]

theorem drop_append_left (bytes : List Nat) (p : Nat) (a rest : List Nat)
    (h : bytes.drop p = a ++ rest) : bytes.drop (p + a.length) = rest := by
  rw [← List.drop_drop, h, List.drop_left]

/-- Storing the decoder's pixel in its index keeps the index relation of `Synced`. -/
theorem rel_store (E : EncState) (idx : Nat → SLO_rgba_t)
    (hrel : ∀ i, E.index i = zeroPixel ∨ idx i = E.index i)
    (hj : E.index (SLO_COLOR_HASH E.px_prev % 64) = E.px_prev ∨
      E.index (SLO_COLOR_HASH E.px_prev % 64) = zeroPixel) :
    ∀ i, E.index i = zeroPixel ∨
      setIndex idx (SLO_COLOR_HASH E.px_prev % 64) E.px_prev i = E.index i := by
  intro i
  unfold setIndex
  by_cases hi : i = SLO_COLOR_HASH E.px_prev % 64
  · subst hi
    rcases hj with h | h
    · right; simp [h]
    · left; exact h
  · simp only [hi, if_false]; exact hrel i

/-- The decoder's passes over the RUN byte the encoder writes before a pixel that
differs from `px_prev`. -/
theorem flush_sim (bytes : List Nat) (cl : Int) (E : EncState) (D : DecState)
    (rest : List Nat) (hE : E.run ≤ 61) (hD : D.run = 0)
    (hd : bytes.drop D.p = (if E.run > 1 then [SLO_OP_RUN ||| (E.run - 1)] else []) ++ rest)
    (hcl : (D.p : Int) < cl) :
    ∃ D1, decStateN bytes cl (if E.run > 1 then E.run else 0) D = D1 ∧
      D1.p = D.p + (if E.run > 1 then [SLO_OP_RUN ||| (E.run - 1)] else []).length ∧
      D1.run = 0 ∧ D1.px = D.px ∧ bytes.drop D1.p = rest ∧
      decFed bytes cl (if E.run > 1 then E.run else 0) D ∧
      decPxs bytes cl (if E.run > 1 then E.run else 0) D
        = (if E.run > 1 then List.replicate E.run D.px else []) ∧
      (D1.index = D.index ∨
        D1.index = setIndex D.index (SLO_COLOR_HASH D.px % 64) D.px) := by
  by_cases h : E.run > 1
  · simp only [h, if_true] at hd ⊢
    have hb := getD_of_drop_zero bytes D.p _ hd
    simp only [List.cons_append, List.getD_cons_zero] at hb
    obtain ⟨i1, i2, i3⟩ := decStateN_runChunk bytes cl D (E.run - 1) hD hcl (by omega) hb
    have e : E.run - 1 + 1 = E.run := by omega
    rw [e] at i1 i2 i3
    refine ⟨_, i1, rfl, rfl, rfl, ?_, i3, i2, Or.inr rfl⟩
    exact drop_append_left bytes D.p _ rest hd
  · simp only [h, if_false] at hd ⊢
    refine ⟨D, rfl, rfl, hD, rfl, ?_, trivial, rfl, Or.inl rfl⟩
    simpa using hd

theorem pixelOK_ne_zero (q : SLO_rgba_t) (h : PixelOK q) : q ≠ zeroPixel := by
  intro e
  have : q.a = 0 := by rw [e]; rfl
  unfold PixelOK at h
  omega

theorem hash_lt (q : SLO_rgba_t) : SLO_COLOR_HASH q % 64 < 64 := Nat.mod_lt _ (by decide)

/-- On `Synced` states and a `PixelOK` pixel the encoder's INDEX test succeeds only
through its first disjunct, equality of the slot with the pixel. -/
theorem index_hit_exact (q : SLO_rgba_t) (E : EncState) (D : DecState) (hs : Synced E D)
    (hq : PixelOK q)
    (hi : E.index (SLO_COLOR_HASH q % 64) = q ∨
      (E.index (SLO_COLOR_HASH q % 64)).a = q.a * 2 ∨
      (E.index (SLO_COLOR_HASH q % 64)).a = E.px_prev.a * 8) :
    E.index (SLO_COLOR_HASH q % 64) = q := by
  obtain ⟨-, hp, ha, -, -⟩ := hs
  have h1 := ha (SLO_COLOR_HASH q % 64)
  unfold PixelOK at hq hp
  rcases hi with h | h | h
  · exact h
  · omega
  · omega

/-- One pass of the encoder against the decoder: the decoder consumes exactly the
bytes of the pass in `(stepCovered q E).length` passes of its own, is never
without input, and on `Synced` states decodes exactly `stepCovered q E`. -/
theorem step_sim (bytes : List Nat) (cl : Int) (q : SLO_rgba_t) (E : EncState)
    (D : DecState) (rest : List Nat) (hE : E.run ≤ 61) (hD : D.run = 0)
    (hd : bytes.drop D.p
      = ((encChunk false q E).runBytes ++ (encChunk false q E).pxBytes) ++ rest)
    (hcl : ((D.p + ((encChunk false q E).runBytes ++ (encChunk false q E).pxBytes).length
      : Nat) : Int) ≤ cl) :
    ∃ D1, decStateN bytes cl (stepCovered q E).length D = D1 ∧
      D1.p = D.p + ((encChunk false q E).runBytes ++ (encChunk false q E).pxBytes).length ∧
      D1.run = 0 ∧ bytes.drop D1.p = rest ∧
      decFed bytes cl (stepCovered q E).length D ∧
      (Synced E D → PixelOK q →
        decPxs bytes cl (stepCovered q E).length D = stepCovered q E ∧
        Synced (encChunk false q E).state D1) := by
  by_cases hq : q = E.px_prev
  · by_cases h62 : E.run + 1 = 62
    · rw [encChunk_same_flush q E hq h62] at hd hcl ⊢
      have hc : stepCovered q E = List.replicate 62 E.px_prev := by
        simp [stepCovered, hq, h62]
      rw [hc, List.length_replicate]
      simp only [List.append_nil, List.length_cons, List.length_nil] at hd hcl ⊢
      have hb := getD_of_drop_zero bytes D.p _ hd
      simp only [List.cons_append, List.getD_cons_zero] at hb
      obtain ⟨i1, i2, i3⟩ := decStateN_runChunk bytes cl D 61 hD (by omega) (by omega) hb
      refine ⟨_, i1, rfl, rfl, drop_append_left bytes D.p _ rest hd, i3, ?_⟩
      intro hs hqok
      obtain ⟨s1, s2, s3, s4, s5⟩ := hs
      refine ⟨by rw [i2, s1], ?_⟩
      refine ⟨?_, hqok, s3, ?_, ?_⟩
      · show D.px = q
        rw [s1, hq]
      · show ∀ i, E.index i = zeroPixel ∨
          setIndex D.index (SLO_COLOR_HASH D.px % 64) D.px i = E.index i
        rw [s1]
        exact rel_store E D.index s4 s5
      · show E.index (SLO_COLOR_HASH q % 64) = q ∨ E.index (SLO_COLOR_HASH q % 64) = zeroPixel
        rw [hq]; exact s5
    · rw [encChunk_same_keep q E hq h62] at hd hcl ⊢
      have hc : stepCovered q E = [] := by
        simp [stepCovered, hq, h62]
      rw [hc]
      simp only [List.append_nil, List.length_nil, List.nil_append, Nat.add_zero] at hd hcl ⊢
      refine ⟨D, rfl, rfl, hD, hd, trivial, ?_⟩
      intro hs hqok
      obtain ⟨s1, s2, s3, s4, s5⟩ := hs
      refine ⟨rfl, ?_, hqok, s3, s4, ?_⟩
      · show D.px = q
        rw [s1, hq]
      · show E.index (SLO_COLOR_HASH q % 64) = q ∨ E.index (SLO_COLOR_HASH q % 64) = zeroPixel
        rw [hq]; exact s5
  · have hc : (stepCovered q E).length = (if E.run > 1 then E.run else 0) + 1 := by
      simp only [stepCovered, hq, if_false, List.length_append, List.length_cons,
        List.length_nil]
      split_ifs <;> simp
    have hcv : stepCovered q E
        = (if E.run > 1 then List.replicate E.run E.px_prev else []) ++ [q] := by
      simp only [stepCovered, hq, if_false]
    by_cases hi : E.index (SLO_COLOR_HASH q % 64) = q ∨
        (E.index (SLO_COLOR_HASH q % 64)).a = q.a * 2 ∨
        (E.index (SLO_COLOR_HASH q % 64)).a = E.px_prev.a * 8
    · rw [encChunk_index q E hq hi] at hd hcl ⊢
      simp only [List.append_assoc, List.length_append, List.length_cons, List.length_nil]
        at hd hcl ⊢
      obtain ⟨D1, f1, f2, f3, f4, f5, f6, f7, f8⟩ :=
        flush_sim bytes cl E D _ hE hD hd (by omega)
      have hb := getD_of_drop_zero bytes D1.p _ f5
      simp only [List.cons_append, List.getD_cons_zero] at hb
      have hr := decRead_index bytes cl D1 (SLO_COLOR_HASH q % 64) f3 (by omega) (hash_lt q) hb
      rw [hc, decStateN_add, decFed_add, f1]
      refine ⟨_, rfl, ?_, ?_, ?_, ⟨f6, ?_⟩, ?_⟩
      · simp only [decStateN, hr, decStore]; omega
      · simp only [decStateN, hr, decStore]
      · simp only [decStateN, hr, decStore]
        exact drop_append_left bytes D1.p _ rest f5
      · simp only [decFed, and_true]; right; omega
      · intro hs hqok
        have hex := index_hit_exact q E D hs hqok hi
        obtain ⟨s1, s2, s3, s4, s5⟩ := hs
        have hrel1 : ∀ i, E.index i = zeroPixel ∨ D1.index i = E.index i := by
          rcases f8 with h | h
          · rw [h]; exact s4
          · rw [h, s1]; exact rel_store E D.index s4 s5
        have hd1 : D1.index (SLO_COLOR_HASH q % 64) = q := by
          rcases hrel1 (SLO_COLOR_HASH q % 64) with h | h
          · rw [hex] at h; exact absurd h (pixelOK_ne_zero q hqok)
          · rw [h, hex]
        constructor
        · rw [decPxs_add, f1, f7, hcv, s1]
          simp only [decPxs, hr, decStore, hd1]
        · simp only [decStateN, hr, decStore, hd1]
          refine ⟨rfl, hqok, s3, ?_, Or.inl hex⟩
          intro i
          show E.index i = zeroPixel ∨ setIndex D1.index (SLO_COLOR_HASH q % 64) q i = E.index i
          unfold setIndex
          by_cases hii : i = SLO_COLOR_HASH q % 64
          · right; simp [hii, hex]
          · simp only [hii, if_false]; exact hrel1 i
    · rw [encChunk_delta q E hq hi] at hd hcl ⊢
      simp only [List.append_assoc, List.length_append] at hd hcl ⊢
      have hpos := encDelta_length_pos q E.px_prev
      obtain ⟨D1, f1, f2, f3, f4, f5, f6, f7, f8⟩ :=
        flush_sim bytes cl E D _ hE hD hd (by omega)
      obtain ⟨px, hr, hpx⟩ := decRead_encDelta bytes cl D1 q E.px_prev rest f3 (by omega) f5
      rw [hc, decStateN_add, decFed_add, f1]
      refine ⟨_, rfl, ?_, ?_, ?_, ⟨f6, ?_⟩, ?_⟩
      · simp only [decStateN, hr, decStore]; omega
      · simp only [decStateN, hr, decStore]
      · simp only [decStateN, hr, decStore]
        exact drop_append_left bytes D1.p _ rest f5
      · simp only [decFed, and_true]; right; omega
      · intro hs hqok
        obtain ⟨s1, s2, s3, s4, s5⟩ := hs
        have hrel1 : ∀ i, E.index i = zeroPixel ∨ D1.index i = E.index i := by
          rcases f8 with h | h
          · rw [h]; exact s4
          · rw [h, s1]; exact rel_store E D.index s4 s5
        have hpxq : px = q :=
          hpx (by rw [f4, s1]) hqok.1 hqok.2.1 hqok.2.2.1 s2.1 s2.2.1 s2.2.2.1
        subst hpxq
        constructor
        · rw [decPxs_add, f1, f7, hcv, s1]
          simp only [decPxs, hr, decStore]
        · simp only [decStateN, hr, decStore]
          refine ⟨rfl, hqok, ?_, ?_, ?_⟩
          · intro i
            show (setIndex E.index (SLO_COLOR_HASH px % 64) px i).a < 256
            unfold setIndex
            split
            · exact hqok.2.2.2.2
            · exact s3 i
          · intro i
            show setIndex E.index (SLO_COLOR_HASH px % 64) px i = zeroPixel ∨
              setIndex D1.index (SLO_COLOR_HASH px % 64) px i
                = setIndex E.index (SLO_COLOR_HASH px % 64) px i
            unfold setIndex
            by_cases hii : i = SLO_COLOR_HASH px % 64
            · right; simp [hii]
            · simp only [hii, if_false]; exact hrel1 i
          · left
            show setIndex E.index (SLO_COLOR_HASH px % 64) px (SLO_COLOR_HASH px % 64) = px
            simp [setIndex]

/-! ## The encoder's whole chunk stream against the decoder -/

/-- The decoder consumes the chunk stream `encList qs E` in
`(covered qs E).length` passes, and on `Synced` states decodes `covered qs E`. -/
theorem list_sim (bytes : List Nat) (cl : Int) (qs : List SLO_rgba_t) :
    ∀ (E : EncState) (D : DecState) (rest : List Nat), E.run ≤ 61 → D.run = 0 →
      bytes.drop D.p = encList qs E ++ rest →
      ((D.p + (encList qs E).length : Nat) : Int) ≤ cl →
      ∃ D1, decStateN bytes cl (covered qs E).length D = D1 ∧
        D1.p = D.p + (encList qs E).length ∧ D1.run = 0 ∧ bytes.drop D1.p = rest ∧
        decFed bytes cl (covered qs E).length D ∧
        (Synced E D → (∀ q ∈ qs, PixelOK q) →
          decPxs bytes cl (covered qs E).length D = covered qs E ∧
          Synced (encFinal qs E) D1) := by
  induction qs with
  | nil =>
    intro E D rest _ hD hd _
    refine ⟨D, rfl, rfl, hD, by simpa [encList] using hd, trivial, ?_⟩
    intro hs _
    exact ⟨rfl, hs⟩
  | cons q qs ih =>
    intro E D rest hE hD hd hcl
    simp only [encList, covered, List.length_append, encFinal] at hd hcl ⊢
    rw [List.append_assoc ((encChunk false q E).runBytes ++ (encChunk false q E).pxBytes)] at hd
    obtain ⟨D1, g1, g2, g3, g4, g5, g6⟩ :=
      step_sim bytes cl q E D _ hE hD hd (by simp only [List.length_append]; omega)
    simp only [List.length_append] at g2
    obtain ⟨D2, k1, k2, k3, k4, k5, k6⟩ :=
      ih (encChunk false q E).state D1 rest (encChunk_run_le _ _ _ hE) g3 g4 (by omega)
    refine ⟨D2, ?_, by omega, k3, k4, ?_, ?_⟩
    · rw [decStateN_add, g1, k1]
    · rw [decFed_add, g1]; exact ⟨g5, k5⟩
    · intro hs hq
      obtain ⟨m1, m2⟩ := g6 hs (hq q (List.mem_cons_self _ _))
      obtain ⟨n1, n2⟩ := k6 m2 (fun x hx => hq x (List.mem_cons_of_mem _ hx))
      exact ⟨by rw [decPxs_add, g1, m1, n1], n2⟩

theorem stepCovered_length (q : SLO_rgba_t) (E : EncState) :
    (stepCovered q E).length + (encChunk false q E).state.run = E.run + 1 := by
  by_cases hq : q = E.px_prev
  · by_cases h62 : E.run + 1 = 62
    · rw [encChunk_same_flush q E hq h62]
      simp [stepCovered, hq, h62]
    · rw [encChunk_same_keep q E hq h62]
      simp [stepCovered, hq, h62]
  · have hr : (encChunk false q E).state.run = if E.run > 1 then 0 else E.run := by
      simp only [encChunk, hq, if_false]
      split_ifs <;> rfl
    rw [hr]
    simp only [stepCovered, hq, if_false, List.length_append, List.length_cons,
      List.length_nil]
    split_ifs <;> simp
    all_goals omega

/-- The chunks written so far and the pending run together account for every
pixel the encoder has seen. -/
theorem covered_length (qs : List SLO_rgba_t) :
    ∀ E : EncState, (covered qs E).length + (encFinal qs E).run = E.run + qs.length := by
  induction qs with
  | nil => intro E; simp [covered, encFinal]
  | cons q qs ih =>
    intro E
    simp only [covered, encFinal, List.length_append, List.length_cons]
    have h1 := ih (encChunk false q E).state
    have h2 := stepCovered_length q E
    omega

/-- When the run counter is never 1 at a pixel that differs from its predecessor,
the chunks written and the pending run stand for the pixels seen, in order. -/
theorem covered_noStale (qs : List SLO_rgba_t) :
    ∀ E : EncState, encNoStale qs E →
      covered qs E ++ List.replicate (encFinal qs E).run (encFinal qs E).px_prev
        = List.replicate E.run E.px_prev ++ qs := by
  induction qs with
  | nil => intro E _; simp [covered, encFinal]
  | cons q qs ih =>
    intro E hns
    obtain ⟨h1, h2⟩ := hns
    simp only [covered, encFinal, List.append_assoc]
    rw [ih _ h2, (encChunk_px false q E).2]
    by_cases hq : q = E.px_prev
    · by_cases h62 : E.run + 1 = 62
      · rw [encChunk_same_flush q E hq h62]
        simp only [stepCovered, hq, h62, if_true, List.replicate_zero, List.nil_append]
        rw [← h62, List.replicate_succ', List.append_assoc]
        rfl
      · rw [encChunk_same_keep q E hq h62]
        simp only [stepCovered, hq, h62, if_true, if_false, List.nil_append]
        rw [List.replicate_succ', List.append_assoc]
        rfl
    · have hrun : E.run ≠ 1 := fun h => hq (h1 h)
      have hr : (encChunk false q E).state.run = 0 := by
        have := stepCovered_length q E
        simp only [stepCovered, hq, if_false, List.length_append, List.length_cons,
          List.length_nil] at this
        split_ifs at this
        · simp at this; omega
        · simp at this; omega
      rw [hr]
      simp only [stepCovered, hq, if_false, List.replicate_zero, List.nil_append,
        List.append_assoc, List.singleton_append]
      by_cases h : E.run > 1
      · simp [h]
      · have : E.run = 0 := by omega
        simp [this]

theorem covered_alpha (qs : List SLO_rgba_t) :
    ∀ E : EncState, E.px_prev.a = 255 → (∀ q ∈ qs, q.a = 255) →
      (∀ x ∈ covered qs E, x.a = 255) ∧ (encFinal qs E).px_prev.a = 255 := by
  induction qs with
  | nil => intro E h _; exact ⟨by simp [covered], h⟩
  | cons q qs ih =>
    intro E h hq
    have hqa := hq q (List.mem_cons_self _ _)
    obtain ⟨i1, i2⟩ := ih (encChunk false q E).state
      (by rw [(encChunk_px false q E).2]; exact hqa)
      (fun x hx => hq x (List.mem_cons_of_mem _ hx))
    refine ⟨?_, i2⟩
    intro x hx
    simp only [covered, List.mem_append] at hx
    rcases hx with hx | hx
    · simp only [stepCovered] at hx
      split_ifs at hx
      · rw [List.eq_of_mem_replicate hx]; exact h
      · simp at hx
      · simp only [List.mem_append, List.mem_singleton] at hx
        rcases hx with hx | hx
        · rw [List.eq_of_mem_replicate hx]; exact h
        · rw [hx]; exact hqa
      · simp only [List.nil_append, List.mem_singleton] at hx
        rw [hx]; exact hqa
    · exact i1 x hx

/-! ## The pixel sequence of a buffer -/

theorem shift_byte (x : Nat) (h : x < 256) :
    x >>> 1 < 128 ∧ ((x >>> 1) <<< 1) % 256 = (x >>> 1) <<< 1 := by
  rw [Nat.shiftRight_eq_div_pow, Nat.shiftLeft_eq]
  omega

theorem quantPixels3_spec (n : Nat) : ∀ (P : List Nat), P.length = n * 3 →
    (∀ x ∈ P, x < 256) →
    (quantPixels3 P).length = n ∧
      (∀ q ∈ quantPixels3 P, q.r < 128 ∧ q.g < 128 ∧ q.b < 128 ∧ q.a = 255) ∧
      (quantPixels3 P).flatMap (decEmit 3) = P.map (fun x => (x >>> 1) <<< 1) := by
  induction n with
  | zero =>
    intro P h _
    have : P = [] := List.length_eq_zero.1 (by omega)
    subst this
    simp [quantPixels3]
  | succ n ih =>
    intro P h hb
    match P, h, hb with
    | r :: g :: b :: rest, h, hb =>
      have hl : rest.length = n * 3 := by simp at h; omega
      obtain ⟨i1, i2, i3⟩ := ih rest hl (fun x hx => hb x (by simp [hx]))
      have hr := shift_byte r (hb r (by simp))
      have hg := shift_byte g (hb g (by simp))
      have hbb := shift_byte b (hb b (by simp))
      refine ⟨by simp [quantPixels3, i1], ?_, ?_⟩
      · intro q hq
        simp only [quantPixels3, List.mem_cons] at hq
        rcases hq with hq | hq
        · subst hq; exact ⟨hr.1, hg.1, hbb.1, rfl⟩
        · exact i2 q hq
      · simp only [quantPixels3, List.flatMap_cons, i3, decEmit, List.map_cons]
        simp [hr.2, hg.2, hbb.2]
    | [], h, _ => exact absurd h (by simp only [List.length_cons, List.length_nil]; omega)
    | [_], h, _ => exact absurd h (by simp only [List.length_cons, List.length_nil]; omega)
    | [_, _], h, _ => exact absurd h (by simp only [List.length_cons, List.length_nil]; omega)

theorem quantPixels4_spec (n : Nat) : ∀ (P : List Nat), P.length = n * 4 →
    (∀ x ∈ P, x < 256) →
    (quantPixels4 P).length = n ∧
      (∀ q ∈ quantPixels4 P, q.r < 128 ∧ q.g < 128 ∧ q.b < 128 ∧ q.a < 256) ∧
      (quantPixels4 P).flatMap (decEmit 4) = lossy4 P := by
  induction n with
  | zero =>
    intro P h _
    have : P = [] := List.length_eq_zero.1 (by omega)
    subst this
    simp [quantPixels4, lossy4]
  | succ n ih =>
    intro P h hb
    match P, h, hb with
    | r :: g :: b :: a :: rest, h, hb =>
      have hl : rest.length = n * 4 := by simp at h; omega
      obtain ⟨i1, i2, i3⟩ := ih rest hl (fun x hx => hb x (by simp [hx]))
      have hr := shift_byte r (hb r (by simp))
      have hg := shift_byte g (hb g (by simp))
      have hbb := shift_byte b (hb b (by simp))
      have ha := hb a (by simp)
      refine ⟨by simp [quantPixels4, i1], ?_, ?_⟩
      · intro q hq
        simp only [quantPixels4, List.mem_cons] at hq
        rcases hq with hq | hq
        · subst hq; exact ⟨hr.1, hg.1, hbb.1, ha⟩
        · exact i2 q hq
      · simp only [quantPixels4, List.flatMap_cons, i3, decEmit, lossy4]
        simp [hr.2, hg.2, hbb.2]
    | [], h, _ => exact absurd h (by simp only [List.length_cons, List.length_nil]; omega)
    | [_], h, _ => exact absurd h (by simp only [List.length_cons, List.length_nil]; omega)
    | [_, _], h, _ => exact absurd h (by simp only [List.length_cons, List.length_nil]; omega)
    | [_, _, _], h, _ => exact absurd h (by simp only [List.length_cons, List.length_nil]; omega)

/-- The pixel sequence of a well-sized byte buffer: its length, the range of its
fields, and the image the decoder's stores rebuild from it. -/
theorem quantPixels_spec (channels n : Nat) (hc : channels = 3 ∨ channels = 4)
    (P : List Nat) (h : P.length = n * channels) (hb : ∀ x ∈ P, x < 256) :
    (quantPixels channels P).length = n ∧
      (∀ q ∈ quantPixels channels P, q.r < 256 ∧ q.g < 256 ∧ q.b < 256 ∧ q.a < 256 ∧
        (channels = 3 → q.a = 255)) ∧
      (quantPixels channels P).flatMap (decEmit channels) = lossyImage channels P := by
  rcases hc with hc | hc
  · subst hc
    obtain ⟨i1, i2, i3⟩ := quantPixels3_spec n P h hb
    simp only [quantPixels, lossyImage, show ¬ (3 = 4) by decide, if_false]
    refine ⟨i1, ?_, i3⟩
    intro q hq
    obtain ⟨a, b, c, d⟩ := i2 q hq
    exact ⟨by omega, by omega, by omega, by omega, fun _ => d⟩
  · subst hc
    obtain ⟨i1, i2, i3⟩ := quantPixels4_spec n P h hb
    simp only [quantPixels, lossyImage, if_true]
    refine ⟨i1, ?_, i3⟩
    intro q hq
    obtain ⟨a, b, c, d⟩ := i2 q hq
    exact ⟨by omega, by omega, by omega, d, fun h => absurd h (by decide)⟩

theorem quantPixels_length (channels n : Nat) (hc : channels = 3 ∨ channels = 4) :
    ∀ (P : List Nat), P.length = n * channels → (quantPixels channels P).length = n := by
  induction n with
  | zero =>
    intro P h
    have : P = [] := List.length_eq_zero.1 (by omega)
    subst this
    rcases hc with hc | hc <;> subst hc <;> simp [quantPixels, quantPixels3, quantPixels4]
  | succ n ih =>
    intro P h
    rcases hc with hc | hc
    · subst hc
      match P, h with
      | r :: g :: b :: rest, h =>
        have hl : rest.length = n * 3 := by simp at h; omega
        have := ih rest hl
        simp only [quantPixels, show ¬ (3 = 4) by decide, if_false] at this ⊢
        simp [quantPixels3, this]
      | [], h => exact absurd h (by simp only [List.length_cons, List.length_nil]; omega)
      | [_], h => exact absurd h (by simp only [List.length_cons, List.length_nil]; omega)
      | [_, _], h => exact absurd h (by simp only [List.length_cons, List.length_nil]; omega)
    · subst hc
      match P, h with
      | r :: g :: b :: a :: rest, h =>
        have hl : rest.length = n * 4 := by simp at h; omega
        have := ih rest hl
        simp only [quantPixels, if_true] at this ⊢
        simp [quantPixels4, this]
      | [], h => exact absurd h (by simp only [List.length_cons, List.length_nil]; omega)
      | [_], h => exact absurd h (by simp only [List.length_cons, List.length_nil]; omega)
      | [_, _], h => exact absurd h (by simp only [List.length_cons, List.length_nil]; omega)
      | [_, _, _], h => exact absurd h (by simp only [List.length_cons, List.length_nil]; omega)

/-! ## Decoding an encoding -/

/-- An accepted encoding of a well-sized buffer: header, the chunks of the pixel
sequence, end marker. -/
theorem encode_form (pixels : List Nat) (desc : SLO_desc) (out : List Nat)
    (henc : SLO_encode pixels desc = some out)
    (hlen : pixels.length = desc.width * desc.height * desc.channels) :
    out = encHeader desc ++ encList (quantPixels desc.channels pixels) encInit ++ SLO_padding ∧
      (quantPixels desc.channels pixels).length = desc.width * desc.height := by
  obtain ⟨hacc, hout⟩ := encode_eq_some pixels desc out henc
  obtain ⟨h1, h2, h3, -⟩ := accepted_bounds desc hacc
  have hend : (desc.width * desc.height * desc.channels - desc.channels) % desc.channels = 0 := by
    generalize desc.width * desc.height = n
    rcases h3 with h | h <;> rw [h] <;> omega
  have key := encLoop_eq_encList pixels desc.channels h3 _ hend (desc.width * desc.height)
    pixels.length 0 encInit
    (by rw [hlen]; exact Nat.le_mul_of_pos_right _ (by omega)) (by omega) (by simp)
    (fun _ => rfl)
  rw [hlen, List.drop_zero] at key
  rw [key] at hout
  exact ⟨hout, quantPixels_length desc.channels _ h3 pixels hlen⟩

theorem synced_init : Synced encInit decInit := by
  refine ⟨rfl, ?_, ?_, ?_, ?_⟩
  · simp [PixelOK, encInit, startPixel]
  · intro i; simp [encInit, zeroIndex, zeroPixel]
  · intro i; left; rfl
  · right; rfl

/-- What the decoder's loop produces on `header ++ chunks ++ rest` for the chunks of
a pixel sequence `qs` of `PixelOK` pixels, when it may read up to the end of the
chunks: the pixels the chunks stand for, then the last pixel repeated. -/
theorem decode_pxs_synced (hdr rest : List Nat) (qs : List SLO_rgba_t)
    (hh : hdr.length = 14) (hq : ∀ q ∈ qs, PixelOK q) :
    decPxs (hdr ++ encList qs encInit ++ rest) ((14 + (encList qs encInit).length : Nat) : Int)
        qs.length decInit
      = covered qs encInit ++
          List.replicate (encFinal qs encInit).run (encFinal qs encInit).px_prev := by
  have hd : (hdr ++ encList qs encInit ++ rest).drop decInit.p
      = encList qs encInit ++ rest := by
    rw [List.append_assoc]
    have : decInit.p = hdr.length := by rw [hh]; rfl
    rw [this, List.drop_left]
  have hp : decInit.p = 14 := rfl
  obtain ⟨D1, g1, g2, g3, g4, g5, g6⟩ :=
    list_sim (hdr ++ encList qs encInit ++ rest) ((14 + (encList qs encInit).length : Nat) : Int)
      qs encInit decInit rest (by simp [encInit]) rfl hd (by rw [hp])
  obtain ⟨m1, m2⟩ := g6 synced_init hq
  have hcov := covered_length qs encInit
  have hn : qs.length = (covered qs encInit).length + (encFinal qs encInit).run := by
    rw [hcov]; simp [encInit]
  rw [hn, decPxs_add, g1, m1]
  have hst := (decStateN_starved (hdr ++ encList qs encInit ++ rest)
    ((14 + (encList qs encInit).length : Nat) : Int) D1 g3 (by rw [g2, hp]; omega)
    (encFinal qs encInit).run).2
  rw [hst, m2.1]

/-! ## The decoder reads nothing past its cursor -/

theorem decRead_p_le (bytes : List Nat) (cl : Int) (s : DecState) :
    s.p ≤ (decRead bytes cl s).p := by
  simp only [decRead, decStore]
  split_ifs <;> simp <;> omega

theorem decStateN_p_le (bytes : List Nat) (cl : Int) (n : Nat) :
    ∀ s : DecState, s.p ≤ (decStateN bytes cl n s).p := by
  induction n with
  | zero => intro s; exact Nat.le_refl _
  | succ n ih =>
    intro s
    exact Nat.le_trans (decRead_p_le bytes cl s) (ih _)

/-- One pass gives the same result on two inputs that agree below the cursor the
pass ends at, when the first input still has a chunk to read. -/
theorem decRead_congr (b1 b2 : List Nat) (cl1 cl2 : Int) (s : DecState)
    (hfed : 0 < s.run ∨ (s.p : Int) < cl1) (hcl : cl1 ≤ cl2)
    (hag : ∀ i, i < (decRead b1 cl1 s).p → b2.getD i 0 = b1.getD i 0) :
    decRead b2 cl2 s = decRead b1 cl1 s := by
  by_cases hrun : 0 < s.run
  · simp only [decRead, hrun, if_true]
  · have h0 : s.run = 0 := by omega
    have hp1 : (s.p : Int) < cl1 := by
      rcases hfed with h | h
      · exact absurd h hrun
      · exact h
    have hp2 : (s.p : Int) < cl2 := by omega
    have hlt : s.p < (decRead b1 cl1 s).p := by
      simp only [decRead, hrun, if_false, hp1, if_true, decStore]
      split_ifs <;> simp <;> omega
    have e0 := hag s.p hlt
    simp only [decRead, hrun, if_false, hp1, hp2, if_true, e0] at hag ⊢
    split_ifs at hag ⊢ with c1 c2 c3 c4 c5 c6
    · simp only [decStore] at hag
      rw [hag (s.p + 1) (by omega), hag (s.p + 1 + 1) (by omega), hag (s.p + 1 + 2) (by omega)]
    · simp only [decStore] at hag
      rw [hag (s.p + 1) (by omega), hag (s.p + 1 + 1) (by omega),
        hag (s.p + 1 + 2) (by omega), hag (s.p + 1 + 3) (by omega)]
    · rfl
    · rfl
    · simp only [decStore] at hag
      rw [hag (s.p + 1) (by omega)]
    · rfl
    · rfl

/-- The decoder's passes give the same result on two inputs that agree below `L`,
as long as the first input always has a chunk to read and the cursor stays
within `L`. -/
theorem decode_agree (b1 b2 : List Nat) (cl1 cl2 : Int) (L : Nat) (hcl : cl1 ≤ cl2)
    (hag : ∀ i, i < L → b2.getD i 0 = b1.getD i 0) (n : Nat) :
    ∀ s : DecState, decFed b1 cl1 n s → (decStateN b1 cl1 n s).p ≤ L →
      decPxs b2 cl2 n s = decPxs b1 cl1 n s := by
  induction n with
  | zero => intro s _ _; rfl
  | succ n ih =>
    intro s hfed hL
    obtain ⟨f1, f2⟩ := hfed
    simp only [decStateN] at hL
    have hp := decStateN_p_le b1 cl1 n (decRead b1 cl1 s)
    have e := decRead_congr b1 b2 cl1 cl2 s f1 hcl (fun i hi => hag i (by omega))
    simp only [decPxs, e]
    rw [ih _ f2 hL]

/-- `SLO_decode` on an input that starts with the header of an accepted
descriptor. -/
theorem decode_with_header (desc : SLO_desc) (hacc : ¬ encRejects desc) (rest : List Nat)
    (size channels : Int) (hch : channels = 0 ∨ channels = 3 ∨ channels = 4)
    (hsize : 22 ≤ size) :
    SLO_decode (encHeader desc ++ rest) size channels
      = some (desc,
          (decPxs (encHeader desc ++ rest) (size - 8) (desc.width * desc.height)
            decInit).flatMap
            (decEmit (if channels = 0 then desc.channels else channels.toNat))) := by
  obtain ⟨h1, h2, h3, h4, h5, h6, h7, h8⟩ := accepted_bounds desc hacc
  have hhdr : decHeader (encHeader desc ++ rest) = desc :=
    decHeader_encHeader desc (by omega) (by omega) _
  have hmagic := read_magic desc rest
  have key := decode_of_ok (encHeader desc ++ rest) size channels hch hsize
    (by rw [hhdr]; omega) (by rw [hhdr]; omega) (by rw [hhdr]; exact h3)
    (by rw [hhdr]; exact h4) hmagic (by rw [hhdr]; exact h5)
  rw [hhdr] at key
  exact key

/-! ## Round trip, alpha fill and trailing bytes -/

theorem padding_cast (n : Nat) :
    (((14 + n + 8 : Nat) : Int) - 8) = ((14 + n : Nat) : Int) := by
  push_cast; ring

/-- The pixels `SLO_decode` rebuilds from an accepted encoding of an image whose
pixels are all `PixelOK`. -/
theorem decode_encode_pxs (pixels : List Nat) (desc : SLO_desc) (out : List Nat)
    (channels : Int) (henc : SLO_encode pixels desc = some out)
    (hlen : pixels.length = desc.width * desc.height * desc.channels)
    (hch : channels = 0 ∨ channels = 3 ∨ channels = 4)
    (hq : ∀ q ∈ quantPixels desc.channels pixels, PixelOK q) :
    SLO_decode out (out.length : Int) channels
      = some (desc,
          (covered (quantPixels desc.channels pixels) encInit ++
            List.replicate (encFinal (quantPixels desc.channels pixels) encInit).run
              (encFinal (quantPixels desc.channels pixels) encInit).px_prev).flatMap
            (decEmit (if channels = 0 then desc.channels else channels.toNat))) := by
  obtain ⟨hacc, -⟩ := encode_eq_some pixels desc out henc
  obtain ⟨hout, hn⟩ := encode_form pixels desc out henc hlen
  have hsz : out.length = 14 + (encList (quantPixels desc.channels pixels) encInit).length + 8 := by
    rw [hout]; simp [encHeader_length, SLO_padding]; omega
  have key := decode_with_header desc hacc
    (encList (quantPixels desc.channels pixels) encInit ++ SLO_padding) (out.length : Int)
    channels hch (by rw [hsz]; push_cast; omega)
  rw [← List.append_assoc, ← hout] at key
  rw [key]
  have hp := decode_pxs_synced (encHeader desc) SLO_padding (quantPixels desc.channels pixels)
    (encHeader_length desc) hq
  rw [← hout, hn] at hp
  rw [hsz, padding_cast, hp]

/-- C1, counterexample: the 1 x 1 RGBA image `02 00 00 00` is valid, its pixel
`(1,0,0,0)` is chosen for INDEX because the empty slot 3 has alpha `0 = px.a * 2`,
and decoding the encoding gives `00 00 00 00`, not `02 00 00 00`; likewise the
3 x 1 RGB image `02 02 02  02 02 02  04 04 04` decodes to
`02 02 02  04 04 04  04 04 04`, not to the image with the low colour bits cleared
(which is the image itself). -/
theorem lossy_round_trip_fails :
    (SLO_encode [2, 0, 0, 0] { width := 1, height := 1, channels := 4, colorspace := 0 }
      = some [115, 108, 111, 102, 0, 0, 0, 1, 0, 0, 0, 1, 4, 0, 3, 0, 0, 0, 0, 0, 0, 0, 1] ∧
    SLO_decode [115, 108, 111, 102, 0, 0, 0, 1, 0, 0, 0, 1, 4, 0, 3, 0, 0, 0, 0, 0, 0, 0, 1]
        23 0
      = some ({ width := 1, height := 1, channels := 4, colorspace := 0 }, [0, 0, 0, 0]) ∧
    lossyImage 4 [2, 0, 0, 0] = [2, 0, 0, 0] ∧
    [0, 0, 0, 0] ≠ lossyImage 4 [2, 0, 0, 0]) ∧
    (SLO_encode [2, 2, 2, 2, 2, 2, 4, 4, 4]
        { width := 3, height := 1, channels := 3, colorspace := 0 }
      = some [115, 108, 111, 102, 0, 0, 0, 3, 0, 0, 0, 1, 3, 0, 127, 127,
          0, 0, 0, 0, 0, 0, 0, 1] ∧
    SLO_decode [115, 108, 111, 102, 0, 0, 0, 3, 0, 0, 0, 1, 3, 0, 127, 127,
          0, 0, 0, 0, 0, 0, 0, 1] 24 0
      = some ({ width := 3, height := 1, channels := 3, colorspace := 0 },
          [2, 2, 2, 4, 4, 4, 4, 4, 4]) ∧
    lossyImage 3 [2, 2, 2, 2, 2, 2, 4, 4, 4] = [2, 2, 2, 2, 2, 2, 4, 4, 4] ∧
    [2, 2, 2, 4, 4, 4, 4, 4, 4] ≠ lossyImage 3 [2, 2, 2, 2, 2, 2, 4, 4, 4]) := by
  decide

theorem alpha_at (L : List SLO_rgba_t) (h : ∀ q ∈ L, q.a = 255) :
    ∀ i, i < L.length → (L.flatMap (decEmit 4)).getD (4 * i + 3) 0 = 255 := by
  induction L with
  | nil => intro i hi; simp at hi
  | cons q L ih =>
    intro i hi
    have e4 : decEmit 4 q = [(q.r <<< 1) % 256, (q.g <<< 1) % 256, (q.b <<< 1) % 256, q.a] := by
      simp [decEmit]
    rw [List.flatMap_cons, e4]
    cases i with
    | zero =>
      simp only [Nat.mul_zero, Nat.zero_add, List.cons_append, List.getD_cons_succ,
        List.getD_cons_zero]
      exact h q (List.mem_cons_self _ _)
    | succ i =>
      have e : 4 * (i + 1) + 3 = (4 * i + 3) + 1 + 1 + 1 + 1 := by omega
      rw [e]
      simp only [List.cons_append, List.nil_append, List.getD_cons_succ]
      exact ih (fun x hx => h x (List.mem_cons_of_mem _ hx)) i (by simpa using hi)

/-- C8. Channel coercion fills alpha: for every valid 3-channel image, decoding its
encoding with 4 requested channels succeeds, returns `width * height * 4` bytes,
and the alpha byte of every pixel is 255. -/
theorem alpha_fill (pixels : List Nat) (desc : SLO_desc) (out : List Nat)
    (hc : desc.channels = 3) (henc : SLO_encode pixels desc = some out)
    (hlen : pixels.length = desc.width * desc.height * desc.channels)
    (hb : ∀ x ∈ pixels, x < 256) :
    ∃ px, SLO_decode out (out.length : Int) 4 = some (desc, px) ∧
      px.length = desc.width * desc.height * 4 ∧
      ∀ i, i < desc.width * desc.height → px.getD (4 * i + 3) 0 = 255 := by
  obtain ⟨hacc, -⟩ := encode_eq_some pixels desc out henc
  obtain ⟨-, -, h3, -⟩ := accepted_bounds desc hacc
  obtain ⟨s1, s2, s3⟩ := quantPixels_spec desc.channels _ h3 pixels hlen hb
  have ha : ∀ q ∈ quantPixels desc.channels pixels, q.a = 255 :=
    fun q hm => (s2 q hm).2.2.2.2 hc
  have hq : ∀ q ∈ quantPixels desc.channels pixels, PixelOK q := by
    intro q hm
    obtain ⟨a, b, c, d, -⟩ := s2 q hm
    exact ⟨a, b, c, by rw [ha q hm]; decide, d⟩
  have key := decode_encode_pxs pixels desc out 4 henc hlen (by omega) hq
  obtain ⟨c1, c2⟩ := covered_alpha (quantPixels desc.channels pixels) encInit rfl ha
  have hcl := covered_length (quantPixels desc.channels pixels) encInit
  have hall : ∀ q ∈ covered (quantPixels desc.channels pixels) encInit ++
      List.replicate (encFinal (quantPixels desc.channels pixels) encInit).run
        (encFinal (quantPixels desc.channels pixels) encInit).px_prev, q.a = 255 := by
    intro q hm
    rcases List.mem_append.1 hm with h | h
    · exact c1 q h
    · rw [List.eq_of_mem_replicate h]; exact c2
  have hlen2 : (covered (quantPixels desc.channels pixels) encInit ++
      List.replicate (encFinal (quantPixels desc.channels pixels) encInit).run
        (encFinal (quantPixels desc.channels pixels) encInit).px_prev).length
      = desc.width * desc.height := by
    rw [List.length_append, List.length_replicate, hcl, s1]
    simp [encInit]
  simp only [show ((4 : Int) = 0) = False by simp, if_false] at key
  refine ⟨_, key, ?_, ?_⟩
  · rw [flatMap_decEmit_length, hlen2]
    simp
  · intro i hi
    exact alpha_at _ hall i (by rw [hlen2]; exact hi)

theorem alpha_fill_witness :
    ∃ px, SLO_decode [115, 108, 111, 102, 0, 0, 0, 4, 0, 0, 0, 1, 3, 0, 127, 193, 127,
        0, 0, 0, 0, 0, 0, 0, 1] 25 4
        = some ({ width := 4, height := 1, channels := 3, colorspace := 0 }, px) ∧
      px.length = 4 * 1 * 4 ∧ ∀ i, i < 4 * 1 → px.getD (4 * i + 3) 0 = 255 :=
  alpha_fill [2, 2, 2, 2, 2, 2, 2, 2, 2, 4, 4, 4]
    { width := 4, height := 1, channels := 3, colorspace := 0 } _ rfl (by decide)
    (by decide) (by decide)

/-- C9, the code at the failing input: the 1 x 1 RGBA image `00 00 00 FF` equals the
starting pixel, so its run is pending when the loop ends and is never written: the
encoding is header and end marker only. Decoding it gives `00 00 00 FF`; decoding
it followed by the one byte `00` gives `00 00 00 00`, because the decoder still
needs a pixel and now reads the first byte of the end marker as an INDEX chunk. -/
theorem trailing_byte_changes_pixels :
    SLO_encode [0, 0, 0, 255] { width := 1, height := 1, channels := 4, colorspace := 0 }
      = some [115, 108, 111, 102, 0, 0, 0, 1, 0, 0, 0, 1, 4, 0, 0, 0, 0, 0, 0, 0, 0, 1] ∧
    SLO_decode [115, 108, 111, 102, 0, 0, 0, 1, 0, 0, 0, 1, 4, 0, 0, 0, 0, 0, 0, 0, 0, 1] 22 0
      = some ({ width := 1, height := 1, channels := 4, colorspace := 0 }, [0, 0, 0, 255]) ∧
    SLO_decode ([115, 108, 111, 102, 0, 0, 0, 1, 0, 0, 0, 1, 4, 0, 0, 0, 0, 0, 0, 0, 0, 1]
        ++ [0]) 23 0
      = some ({ width := 1, height := 1, channels := 4, colorspace := 0 }, [0, 0, 0, 0]) := by
  decide

/-- Trailing bytes are ignored when the chunks cover the image: for a valid image
after whose last pixel the encoder's run counter is 0 (no run is left unwritten, so
the chunks stand for all `width * height` pixels), decoding the encoding followed
by any bytes `T` gives the same result as decoding the encoding alone. -/
theorem trailing_bytes_ignored (pixels : List Nat) (desc : SLO_desc) (out T : List Nat)
    (channels : Int) (henc : SLO_encode pixels desc = some out)
    (hlen : pixels.length = desc.width * desc.height * desc.channels)
    (hch : channels = 0 ∨ channels = 3 ∨ channels = 4)
    (hfin : (encFinal (quantPixels desc.channels pixels) encInit).run = 0) :
    SLO_decode (out ++ T) ((out ++ T).length : Int) channels
      = SLO_decode out (out.length : Int) channels := by
  obtain ⟨hacc, -⟩ := encode_eq_some pixels desc out henc
  obtain ⟨hout, hn⟩ := encode_form pixels desc out henc hlen
  generalize hqs : quantPixels desc.channels pixels = qs at hout hn hfin
  have hsz : out.length = 14 + (encList qs encInit).length + 8 := by
    rw [hout]; simp [encHeader_length, SLO_padding]; omega
  have k1 := decode_with_header desc hacc (encList qs encInit ++ SLO_padding)
    (out.length : Int) channels hch (by rw [hsz]; push_cast; omega)
  have k2 := decode_with_header desc hacc (encList qs encInit ++ SLO_padding ++ T)
    ((out ++ T).length : Int) channels hch
    (by rw [List.length_append, hsz]; push_cast; omega)
  have e1 : encHeader desc ++ (encList qs encInit ++ SLO_padding) = out := by
    rw [hout, List.append_assoc]
  have e2 : encHeader desc ++ (encList qs encInit ++ SLO_padding ++ T) = out ++ T := by
    rw [hout]; simp only [List.append_assoc]
  rw [e1] at k1
  rw [e2] at k2
  rw [k1, k2]
  have hd : out.drop decInit.p = encList qs encInit ++ SLO_padding := by
    rw [hout, List.append_assoc]
    have : decInit.p = (encHeader desc).length := by rw [encHeader_length]; rfl
    rw [this, List.drop_left]
  have hp : decInit.p = 14 := rfl
  obtain ⟨D1, g1, g2, g3, -, g5, -⟩ :=
    list_sim out ((out.length : Int) - 8) qs encInit decInit SLO_padding
      (by simp [encInit]) rfl hd (by rw [hp, hsz]; push_cast; omega)
  have hcov := covered_length qs encInit
  have hk : (covered qs encInit).length = desc.width * desc.height := by
    rw [hfin, hn] at hcov
    simpa [encInit] using hcov
  rw [hk] at g1 g5
  have hag := decode_agree out (out ++ T) ((out.length : Int) - 8)
    (((out ++ T).length : Int) - 8) out.length
    (by rw [List.length_append]; push_cast; omega)
    (fun i hi => by rw [List.getD_append _ _ _ _ hi])
    (desc.width * desc.height) decInit g5 (by rw [g1, g2, hp, hsz]; omega)
  rw [hag]

theorem trailing_bytes_ignored_witness :
    SLO_decode ([115, 108, 111, 102, 0, 0, 0, 2, 0, 0, 0, 1, 4, 0, 254, 127, 0, 0,
        254, 0, 127, 0, 0, 0, 0, 0, 0, 0, 0, 1] ++ [9, 9, 9])
        (([115, 108, 111, 102, 0, 0, 0, 2, 0, 0, 0, 1, 4, 0, 254, 127, 0, 0,
        254, 0, 127, 0, 0, 0, 0, 0, 0, 0, 0, 1] ++ [9, 9, 9]).length : Int) 3
      = SLO_decode [115, 108, 111, 102, 0, 0, 0, 2, 0, 0, 0, 1, 4, 0, 254, 127, 0, 0,
        254, 0, 127, 0, 0, 0, 0, 0, 0, 0, 0, 1]
        (([115, 108, 111, 102, 0, 0, 0, 2, 0, 0, 0, 1, 4, 0, 254, 127, 0, 0,
        254, 0, 127, 0, 0, 0, 0, 0, 0, 0, 0, 1] : List Nat).length : Int) 3 :=
  trailing_bytes_ignored [255, 0, 0, 255, 0, 255, 0, 255]
    { width := 2, height := 1, channels := 4, colorspace := 0 } _ [9, 9, 9] 3
    (by decide) (by decide) (by decide) (by decide)

/-! ## Chunk alignment -/

/-- A pass that reads a chunk moves the cursor by the size of the chunk. -/
theorem decRead_p (bytes : List Nat) (cl : Int) (s : DecState) (hrun : s.run = 0)
    (hp : (s.p : Int) < cl) :
    (decRead bytes cl s).p = s.p + chunkSize (bytes.getD s.p 0) := by
  simp only [decRead, hrun, Nat.lt_irrefl, if_false, hp, if_true, decStore, chunkSize,
    SLO_OP_RGB, SLO_OP_RGBA, SLO_OP_INDEX, SLO_OP_DIFF, SLO_OP_LUMA, SLO_OP_RUN, SLO_MASK_2]
  split_ifs <;> simp_all

/-- A pass that reads no chunk leaves the cursor alone. -/
theorem decRead_p_idle (bytes : List Nat) (cl : Int) (s : DecState)
    (h : 0 < s.run ∨ ¬ (s.p : Int) < cl) : (decRead bytes cl s).p = s.p := by
  by_cases hrun : 0 < s.run
  · simp only [decRead, hrun, if_true]
  · rcases h with h | h
    · exact absurd h hrun
    · simp only [decRead, hrun, if_false, h]

/-- Every chunk the decoder reads has the size its first byte calls for, starts at
or after the cursor the passes began with and ends at or before the cursor they
end with. -/
theorem decChunks_mem (bytes : List Nat) (cl : Int) (n : Nat) :
    ∀ (s : DecState) (c : Nat × Nat), c ∈ decChunks bytes cl n s →
      c.2 = c.1 + chunkSize (bytes.getD c.1 0) ∧ s.p ≤ c.1 ∧
        c.2 ≤ (decStateN bytes cl n s).p := by
  induction n with
  | zero => intro s c hc; simp [decChunks] at hc
  | succ n ih =>
    intro s c hc
    simp only [decChunks, List.mem_append] at hc
    have hmono := decStateN_p_le bytes cl n (decRead bytes cl s)
    have hstep := decRead_p_le bytes cl s
    rcases hc with hc | hc
    · split_ifs at hc with h1 h2
      · simp at hc
      · simp only [List.mem_singleton] at hc
        subst hc
        have h0 : s.run = 0 := by omega
        exact ⟨decRead_p bytes cl s h0 h2, Nat.le_refl _, hmono⟩
      · simp at hc
    · obtain ⟨i1, i2, i3⟩ := ih _ c hc
      exact ⟨i1, by omega, i3⟩

/-- The sizes of the chunks read add up to the distance the cursor has moved. -/
theorem decChunks_sum (bytes : List Nat) (cl : Int) (n : Nat) :
    ∀ s : DecState,
      ((decChunks bytes cl n s).map (fun c => chunkSize (bytes.getD c.1 0))).sum + s.p
        = (decStateN bytes cl n s).p := by
  induction n with
  | zero => intro s; simp [decChunks, decStateN]
  | succ n ih =>
    intro s
    simp only [decChunks, decStateN, List.map_append, List.sum_append]
    have h := ih (decRead bytes cl s)
    by_cases h1 : s.run > 0
    · have := decRead_p_idle bytes cl s (Or.inl h1)
      simp only [h1, if_true, List.map_nil, List.sum_nil]
      omega
    · by_cases h2 : (s.p : Int) < cl
      · have := decRead_p bytes cl s (by omega) h2
        simp only [h1, if_false, h2, if_true, List.map_cons, List.map_nil, List.sum_cons,
          List.sum_nil]
        omega
      · have := decRead_p_idle bytes cl s (Or.inr h2)
        simp only [h1, if_false, h2, List.map_nil, List.sum_nil]
        omega

/-- The decoder's loop variables after all its passes over `header ++ chunks ++ rest`
for the chunks of a pixel sequence `qs`: the cursor stands at the end of the
chunks and no run is pending. -/
theorem decStateN_chunks (hdr rest : List Nat) (qs : List SLO_rgba_t)
    (hh : hdr.length = 14) :
    (decStateN (hdr ++ encList qs encInit ++ rest)
        ((14 + (encList qs encInit).length : Nat) : Int) qs.length decInit).p
      = 14 + (encList qs encInit).length ∧
    (decStateN (hdr ++ encList qs encInit ++ rest)
        ((14 + (encList qs encInit).length : Nat) : Int) qs.length decInit).run = 0 := by
  have hd : (hdr ++ encList qs encInit ++ rest).drop decInit.p
      = encList qs encInit ++ rest := by
    rw [List.append_assoc]
    have : decInit.p = hdr.length := by rw [hh]; rfl
    rw [this, List.drop_left]
  have hp : decInit.p = 14 := rfl
  obtain ⟨D1, g1, g2, g3, -, -, -⟩ :=
    list_sim (hdr ++ encList qs encInit ++ rest) ((14 + (encList qs encInit).length : Nat) : Int)
      qs encInit decInit rest (by simp [encInit]) rfl hd (by rw [hp])
  have hcov := covered_length qs encInit
  have hn : qs.length = (covered qs encInit).length + (encFinal qs encInit).run := by
    rw [hcov]; simp [encInit]
  have hst := (decStateN_starved (hdr ++ encList qs encInit ++ rest)
    ((14 + (encList qs encInit).length : Nat) : Int) D1 g3 (by rw [g2, hp]; omega)
    (encFinal qs encInit).run).1
  rw [hn, decStateN_add, g1, hst]
  exact ⟨by rw [g2, hp], g3⟩

/-- C11. Chunk alignment: for every valid image, the decoder's passes over the
encoding end with the read cursor at `length - 8`, every chunk the decoder reads
has the size its first byte calls for (`0xFF` 5, `0xFE` 4, tag `10` 2, otherwise 1)
and lies between the header and the end marker, and these sizes add up to
`length - 14 - 8`. -/
theorem chunk_alignment (pixels : List Nat) (desc : SLO_desc) (out : List Nat)
    (henc : SLO_encode pixels desc = some out)
    (hlen : pixels.length = desc.width * desc.height * desc.channels) :
    (decStateN out ((out.length : Int) - 8) (desc.width * desc.height) decInit).p
        = out.length - 8 ∧
      (∀ c ∈ decChunks out ((out.length : Int) - 8) (desc.width * desc.height) decInit,
        c.2 = c.1 + chunkSize (out.getD c.1 0) ∧ 14 ≤ c.1 ∧ c.2 ≤ out.length - 8) ∧
      ((decChunks out ((out.length : Int) - 8) (desc.width * desc.height) decInit).map
        (fun c => chunkSize (out.getD c.1 0))).sum = out.length - 14 - 8 := by
  obtain ⟨hout, hn⟩ := encode_form pixels desc out henc hlen
  generalize hqs : quantPixels desc.channels pixels = qs at hout hn
  have hsz : out.length = 14 + (encList qs encInit).length + 8 := by
    rw [hout]; simp [encHeader_length, SLO_padding]; omega
  have hcl : (out.length : Int) - 8 = ((14 + (encList qs encInit).length : Nat) : Int) := by
    rw [hsz]; push_cast; ring
  obtain ⟨k1, -⟩ := decStateN_chunks (encHeader desc) SLO_padding qs (encHeader_length desc)
  rw [← hout, hn, ← hcl] at k1
  have hs := decChunks_sum out ((out.length : Int) - 8) (desc.width * desc.height) decInit
  have hp : decInit.p = 14 := rfl
  refine ⟨by rw [k1, hsz]; omega, ?_, by rw [k1, hp] at hs; omega⟩
  intro c hc
  obtain ⟨i1, i2, i3⟩ := decChunks_mem out _ _ decInit c hc
  rw [k1] at i3
  exact ⟨i1, by rw [hp] at i2; exact i2, by omega⟩

theorem chunk_alignment_witness :
    (decStateN [115, 108, 111, 102, 0, 0, 0, 2, 0, 0, 0, 1, 4, 0, 254, 127, 0, 0,
        254, 0, 127, 0, 0, 0, 0, 0, 0, 0, 0, 1]
        ((([115, 108, 111, 102, 0, 0, 0, 2, 0, 0, 0, 1, 4, 0, 254, 127, 0, 0,
        254, 0, 127, 0, 0, 0, 0, 0, 0, 0, 0, 1] : List Nat).length : Int) - 8) (2 * 1) decInit).p
        = ([115, 108, 111, 102, 0, 0, 0, 2, 0, 0, 0, 1, 4, 0, 254, 127, 0, 0,
        254, 0, 127, 0, 0, 0, 0, 0, 0, 0, 0, 1] : List Nat).length - 8 :=
  (chunk_alignment [255, 0, 0, 255, 0, 255, 0, 255]
    { width := 2, height := 1, channels := 4, colorspace := 0 } _ (by decide) (by decide)).1

/-! ## Output capacity -/

theorem encDelta_length_le (px prev : SLO_rgba_t) :
    (encDelta px prev).length ≤ 5 ∧ (px.a = prev.a → (encDelta px prev).length ≤ 4) := by
  simp only [encDelta]
  split_ifs <;> simp_all

/-- One pass writes at most `c` bytes more than it is owed: a pass that writes a RUN
byte before a full chunk was preceded by passes that wrote nothing and left the
run counter above 1. Here `c` is 5, or 4 when alpha does not change. -/
theorem encChunk_length_le (c : Nat) (q : SLO_rgba_t) (E : EncState)
    (hc : c = 5 ∨ (c = 4 ∧ q.a = E.px_prev.a)) :
    ((encChunk false q E).runBytes ++ (encChunk false q E).pxBytes).length +
        (if (encChunk false q E).state.run > 1 then 1 else 0)
      ≤ c + (if E.run > 1 then 1 else 0) := by
  have hd := encDelta_length_le q E.px_prev
  by_cases hq : q = E.px_prev
  · by_cases h62 : E.run + 1 = 62
    · rw [encChunk_same_flush q E hq h62]
      simp only [List.length_append, List.length_cons, List.length_nil]
      split_ifs <;> omega
    · rw [encChunk_same_keep q E hq h62]
      simp only [List.length_append, List.length_nil]
      split_ifs <;> omega
  · by_cases hi : E.index (SLO_COLOR_HASH q % 64) = q ∨
        (E.index (SLO_COLOR_HASH q % 64)).a = q.a * 2 ∨
        (E.index (SLO_COLOR_HASH q % 64)).a = E.px_prev.a * 8
    · rw [encChunk_index q E hq hi]
      simp only [List.length_append, List.length_cons, List.length_nil]
      split_ifs <;> simp <;> omega
    · rw [encChunk_delta q E hq hi]
      simp only [List.length_append]
      rcases hc with hc | ⟨hc, ha⟩
      · split_ifs <;> simp <;> omega
      · have := hd.2 ha
        split_ifs <;> simp <;> omega

/-- The chunk stream of `qs` has at most `c` bytes per pixel. -/
theorem encList_length_le (c : Nat) (a0 : Nat) (qs : List SLO_rgba_t) :
    ∀ E : EncState, (c = 5 ∨ (c = 4 ∧ E.px_prev.a = a0 ∧ ∀ q ∈ qs, q.a = a0)) →
      (encList qs E).length + (if (encFinal qs E).run > 1 then 1 else 0)
        ≤ c * qs.length + (if E.run > 1 then 1 else 0) := by
  induction qs with
  | nil => intro E _; simp [encList, encFinal]
  | cons q qs ih =>
    intro E hc
    have h1 := encChunk_length_le c q E (by
      rcases hc with hc | ⟨hc, ha, hq⟩
      · exact Or.inl hc
      · exact Or.inr ⟨hc, by rw [ha]; exact hq q (List.mem_cons_self _ _)⟩)
    have h2 := ih (encChunk false q E).state (by
      rcases hc with hc | ⟨hc, ha, hq⟩
      · exact Or.inl hc
      · refine Or.inr ⟨hc, ?_, fun x hx => hq x (List.mem_cons_of_mem _ hx)⟩
        rw [(encChunk_px false q E).2]
        exact hq q (List.mem_cons_self _ _))
    simp only [encList, encFinal, List.length_append, List.length_cons] at h1 h2 ⊢
    rw [Nat.mul_succ]
    omega

theorem quantPixels3_alpha : ∀ (n : Nat) (P : List Nat), P.length ≤ n →
    ∀ q ∈ quantPixels3 P, q.a = 255 := by
  intro n
  induction n with
  | zero =>
    intro P h q hq
    have : P = [] := List.length_eq_zero.1 (by omega)
    subst this
    simp [quantPixels3] at hq
  | succ n ih =>
    intro P h q hq
    match P, h, hq with
    | r :: g :: b :: rest, h, hq =>
      simp only [quantPixels3, List.mem_cons] at hq
      rcases hq with hq | hq
      · subst hq; rfl
      · exact ih rest (by simp at h; omega) q hq
    | [], _, hq => simp [quantPixels3] at hq
    | [_], _, hq => simp [quantPixels3] at hq
    | [_, _], _, hq => simp [quantPixels3] at hq

/-- C12. Output capacity bound: for every input `SLO_encode` accepts, the returned
length is at most the allocated size `width * height * (channels + 1) + 14 + 8`,
and so is every position the write cursor takes (the length of every prefix of
the output). -/
theorem output_capacity (pixels : List Nat) (desc : SLO_desc) (out : List Nat)
    (henc : SLO_encode pixels desc = some out)
    (hlen : pixels.length = desc.width * desc.height * desc.channels) :
    out.length ≤ encMaxSize desc ∧
      encMaxSize desc = desc.width * desc.height * (desc.channels + 1) + 14 + 8 ∧
      ∀ pre suf : List Nat, out = pre ++ suf → pre.length ≤ encMaxSize desc := by
  obtain ⟨hacc, -⟩ := encode_eq_some pixels desc out henc
  obtain ⟨-, -, h3, -⟩ := accepted_bounds desc hacc
  obtain ⟨hout, hn⟩ := encode_form pixels desc out henc hlen
  have hsz : out.length = 14 + (encList (quantPixels desc.channels pixels) encInit).length + 8 := by
    rw [hout]; simp [encHeader_length, SLO_padding]; omega
  have hmax : encMaxSize desc = desc.width * desc.height * (desc.channels + 1) + 14 + 8 := rfl
  have key := encList_length_le (desc.channels + 1) 255 (quantPixels desc.channels pixels)
    encInit (by
      rcases h3 with h | h
      · refine Or.inr ⟨by omega, rfl, ?_⟩
        intro q hq
        simp only [quantPixels, h, show ¬ (3 = 4) by decide, if_false] at hq
        exact quantPixels3_alpha _ pixels (Nat.le_refl _) q hq
      · exact Or.inl (by omega))
  have h0 : encInit.run = 0 := rfl
  rw [hn, h0] at key
  simp only [show ¬ (0 > 1) by decide, if_false] at key
  have hle : out.length ≤ encMaxSize desc := by
    rw [hmax, hsz, Nat.mul_comm (desc.width * desc.height)]
    omega
  refine ⟨hle, hmax, ?_⟩
  intro pre suf h
  have : out.length = pre.length + suf.length := by rw [h, List.length_append]
  omega

theorem output_capacity_witness :
    ([115, 108, 111, 102, 0, 0, 0, 2, 0, 0, 0, 1, 4, 0, 254, 127, 0, 0,
        254, 0, 127, 0, 0, 0, 0, 0, 0, 0, 0, 1] : List Nat).length
      ≤ encMaxSize { width := 2, height := 1, channels := 4, colorspace := 0 } :=
  (output_capacity [255, 0, 0, 255, 0, 255, 0, 255]
    { width := 2, height := 1, channels := 4, colorspace := 0 } _ (by decide) (by decide)).1

/-! ## Runs at the end of the image and after a single repeat -/

/-- C13, the code at the failing input: for the 4 x 1 RGBA image `80 80 80 FF`
repeated four times the chunk stream is the RGB chunk `FE 40 40 40` of the first
pixel and nothing else; the run of the three pixels after it is still pending
(run counter 3) when the loop ends, and no RUN byte `C2` is written before the
end marker. -/
theorem final_run_not_flushed :
    SLO_encode [128, 128, 128, 255, 128, 128, 128, 255, 128, 128, 128, 255, 128, 128, 128, 255]
        { width := 4, height := 1, channels := 4, colorspace := 0 }
      = some (encHeader { width := 4, height := 1, channels := 4, colorspace := 0 } ++
          [0xfe, 0x40, 0x40, 0x40] ++ SLO_padding) ∧
    (encStateFrom
        [128, 128, 128, 255, 128, 128, 128, 255, 128, 128, 128, 255, 128, 128, 128, 255]
        4 12 4 0 encInit).run = 3 := by
  decide

/-- C14, the code at the failing input: in the 3 x 1 RGB image
`02 02 02  02 02 02  04 04 04` the third pixel differs from the second and the run
counter is 1 after it, not 0; and the 6 x 1 RGB image
`02 02 02  02 02 02  04 04 04  04 04 04  04 04 04  08 08 08` is encoded with the RUN
byte `C2` (stored value 2) although only two pixels before the flush equal their
predecessor in a row, so that it decodes to
`02 02 02  04 04 04  04 04 04  04 04 04  04 04 04  08 08 08`. -/
theorem stale_run_kept :
    (encStateFrom [2, 2, 2, 2, 2, 2, 4, 4, 4] 3 6 3 0 encInit).run = 1 ∧
    SLO_encode [2, 2, 2, 2, 2, 2, 4, 4, 4, 4, 4, 4, 4, 4, 4, 8, 8, 8]
        { width := 6, height := 1, channels := 3, colorspace := 0 }
      = some (encHeader { width := 6, height := 1, channels := 3, colorspace := 0 } ++
          [127, 127, 0xc2, 162, 136] ++ SLO_padding) ∧
    SLO_decode (encHeader { width := 6, height := 1, channels := 3, colorspace := 0 } ++
          [127, 127, 0xc2, 162, 136] ++ SLO_padding) 27 0
      = some ({ width := 6, height := 1, channels := 3, colorspace := 0 },
          [2, 2, 2, 4, 4, 4, 4, 4, 4, 4, 4, 4, 4, 4, 4, 8, 8, 8]) := by
  decide

/-! ## INDEX eligibility and chunk selection -/

theorem diff_byte_ge (a b c : Nat) : 64 ≤ ((SLO_OP_DIFF ||| a) ||| b) ||| c := by
  have h : (((SLO_OP_DIFF ||| a) ||| b) ||| c).testBit 6 = true := by
    have h0 : Nat.testBit 64 6 = true := by decide
    simp [Nat.testBit_or, SLO_OP_DIFF, h0]
  have := Nat.testBit_implies_ge h
  omega

/-- A DIFF, LUMA, RGB or RGBA chunk is never a single byte below 64. -/
theorem encDelta_ne_index (px prev : SLO_rgba_t) (h : Nat) (hh : h < 64) :
    encDelta px prev ≠ [h] := by
  simp only [encDelta]
  split_ifs
  · intro e
    have e1 := List.head_eq_of_cons_eq e
    have := diff_byte_ge
      ((s8 ((px.r : Int) - (prev.r : Int)) + 2).toNat <<< 4)
      ((s8 ((px.g : Int) - (prev.g : Int)) + 2).toNat <<< 2)
      (s8 ((px.b : Int) - (prev.b : Int)) + 2).toNat
    omega
  · intro e; simp at e
  · intro e; simp at e
  · intro e; simp at e

/-- C15, counterexample: in the 2 x 1 RGBA image `(10,10,10,255), (10,10,10,128)` the
second pixel `(5,5,5,128)` differs from the previous pixel and hashes to slot 11,
which is empty (alpha 0), so `index[11].a = (128 * 2) mod 256` holds; yet the
encoder writes the RGBA chunk `FF 05 05 05 80` for it, not the INDEX byte 11. -/
theorem index_mod_predicate_fails :
    SLO_COLOR_HASH { r := 5, g := 5, b := 5, a := 128 } % 64 = 11 ∧
    ((encStateFrom [10, 10, 10, 255, 10, 10, 10, 128] 4 4 1 0 encInit).index 11).a
      = (128 * 2) % 256 ∧
    (encIter [10, 10, 10, 255, 10, 10, 10, 128] 4 4 4
      (encStateFrom [10, 10, 10, 255, 10, 10, 10, 128] 4 4 1 0 encInit)).pxBytes
      = [0xff, 5, 5, 5, 128] ∧
    SLO_encode [10, 10, 10, 255, 10, 10, 10, 128]
        { width := 2, height := 1, channels := 4, colorspace := 0 }
      = some (encHeader { width := 2, height := 1, channels := 4, colorspace := 0 } ++
          [165, 136, 0xff, 5, 5, 5, 128] ++ SLO_padding) := by
  decide

/-- C15, amended. INDEX eligibility: for a pixel `px` that differs from the
previous pixel, with `h = (3r + 5g + 7b + 11a) mod 64`, the encoder writes the
single byte `h` for it if and only if `index[h]` equals `px`, or
`index[h].a = px.a * 2`, or `index[h].a = prev.a * 8`, the products being taken
over the integers and not reduced modulo 256; the second alternative can
therefore hold only for `px.a < 128` and the third only for `prev.a < 32`. -/
theorem index_eligibility (last : Bool) (px : SLO_rgba_t) (s : EncState)
    (hne : px ≠ s.px_prev) :
    ((encChunk last px s).pxBytes = [SLO_COLOR_HASH px % 64] ↔
      (s.index (SLO_COLOR_HASH px % 64) = px ∨
        (s.index (SLO_COLOR_HASH px % 64)).a = px.a * 2 ∨
        (s.index (SLO_COLOR_HASH px % 64)).a = s.px_prev.a * 8)) ∧
    ((s.index (SLO_COLOR_HASH px % 64)).a < 256 →
      ((s.index (SLO_COLOR_HASH px % 64)).a = px.a * 2 → px.a < 128) ∧
      ((s.index (SLO_COLOR_HASH px % 64)).a = s.px_prev.a * 8 → s.px_prev.a < 32)) := by
  refine ⟨?_, fun hb => ⟨fun h => by omega, fun h => by omega⟩⟩
  by_cases hi : s.index (SLO_COLOR_HASH px % 64) = px ∨
      (s.index (SLO_COLOR_HASH px % 64)).a = px.a * 2 ∨
      (s.index (SLO_COLOR_HASH px % 64)).a = s.px_prev.a * 8
  · have e : (encChunk last px s).pxBytes = [SLO_OP_INDEX ||| (SLO_COLOR_HASH px % 64)] := by
      simp only [encChunk, hne, if_false, hi, if_true]
    rw [e]
    simp [SLO_OP_INDEX, hi]
  · have e : (encChunk last px s).pxBytes = encDelta px s.px_prev := by
      simp only [encChunk, hne, if_false, hi]
    rw [e]
    constructor
    · intro h
      exact absurd h (encDelta_ne_index px s.px_prev _ (Nat.mod_lt _ (by decide)))
    · intro h
      exact absurd h hi

theorem index_eligibility_witness :
    ((encChunk false { r := 5, g := 5, b := 5, a := 128 }
        (encFinal [{ r := 5, g := 5, b := 5, a := 255 }] encInit)).pxBytes
        = [SLO_COLOR_HASH { r := 5, g := 5, b := 5, a := 128 } % 64] ↔
      ((encFinal [{ r := 5, g := 5, b := 5, a := 255 }] encInit).index
          (SLO_COLOR_HASH { r := 5, g := 5, b := 5, a := 128 } % 64)
          = { r := 5, g := 5, b := 5, a := 128 } ∨
        ((encFinal [{ r := 5, g := 5, b := 5, a := 255 }] encInit).index
          (SLO_COLOR_HASH { r := 5, g := 5, b := 5, a := 128 } % 64)).a = 128 * 2 ∨
        ((encFinal [{ r := 5, g := 5, b := 5, a := 255 }] encInit).index
          (SLO_COLOR_HASH { r := 5, g := 5, b := 5, a := 128 } % 64)).a
          = (encFinal [{ r := 5, g := 5, b := 5, a := 255 }] encInit).px_prev.a * 8)) :=
  (index_eligibility false { r := 5, g := 5, b := 5, a := 128 }
    (encFinal [{ r := 5, g := 5, b := 5, a := 255 }] encInit) (by decide)).1

/-- The chunk the encoder writes for a pixel that is not an index hit is the chunk
the selection rule names. -/
theorem encDelta_eq_ruleChunk (px prev : SLO_rgba_t) : encDelta px prev = ruleChunk px prev := by
  obtain ⟨r1, r2⟩ := s8_range ((px.r : Int) - (prev.r : Int))
  obtain ⟨g1, g2⟩ := s8_range ((px.g : Int) - (prev.g : Int))
  obtain ⟨b1, b2⟩ := s8_range ((px.b : Int) - (prev.b : Int))
  simp only [encDelta, ruleChunk, SLO_OP_DIFF, SLO_OP_LUMA, SLO_OP_RGB, SLO_OP_RGBA]
  generalize s8 ((px.r : Int) - (prev.r : Int)) = dr at r1 r2 ⊢
  generalize s8 ((px.g : Int) - (prev.g : Int)) = dg at g1 g2 ⊢
  generalize s8 ((px.b : Int) - (prev.b : Int)) = db at b1 b2 ⊢
  by_cases ha : px.a = prev.a
  · simp only [ha, true_and, if_true]
    by_cases hd : dr > -3 ∧ dr < 2 ∧ dg > -3 ∧ dg < 2 ∧ db > -3 ∧ db < 2
    · have hd2 : (-2 ≤ dr ∧ dr ≤ 1) ∧ (-2 ≤ dg ∧ dg ≤ 1) ∧ (-2 ≤ db ∧ db ≤ 1) := by omega
      simp only [hd, hd2, and_self, if_true]
    · have hd2 : ¬ ((-2 ≤ dr ∧ dr ≤ 1) ∧ (-2 ≤ dg ∧ dg ≤ 1) ∧ (-2 ≤ db ∧ db ≤ 1)) := by omega
      simp only [hd, hd2, if_false]
      by_cases hl : (-32 ≤ dg ∧ dg ≤ 31) ∧ (-8 ≤ dr - dg ∧ dr - dg ≤ 7) ∧
          (-8 ≤ db - dg ∧ db - dg ≤ 7)
      · have e1 : s8 (dr - dg) = dr - dg := by unfold s8; omega
        have e2 : s8 (db - dg) = db - dg := by unfold s8; omega
        have hl2 : dr - dg > -9 ∧ dr - dg < 8 ∧ dg > -33 ∧ dg < 32 ∧ db - dg > -9 ∧
            db - dg < 8 := by omega
        simp only [e1, e2, hl, hl2, and_self, if_true]
      · have hl2 : ¬ (s8 (dr - dg) > -9 ∧ s8 (dr - dg) < 8 ∧ dg > -33 ∧ dg < 32 ∧
            s8 (db - dg) > -9 ∧ s8 (db - dg) < 8) := by unfold s8; omega
        simp only [hl, hl2, if_false]
  · simp only [ha, false_and, if_false]

/-- C16. Chunk selection priority: when a pixel `px` differs from the previous pixel
and no INDEX predicate holds, the encoder stores `px` in `index[h]` and writes for
it exactly the chunk of the selection rule: DIFF, else LUMA, else RGB when alpha is
unchanged, else RGBA, with the bytes the rule gives. -/
theorem chunk_selection (last : Bool) (px : SLO_rgba_t) (s : EncState)
    (hne : px ≠ s.px_prev)
    (hi : ¬ (s.index (SLO_COLOR_HASH px % 64) = px ∨
      (s.index (SLO_COLOR_HASH px % 64)).a = px.a * 2 ∨
      (s.index (SLO_COLOR_HASH px % 64)).a = s.px_prev.a * 8)) :
    (encChunk last px s).state.index = setIndex s.index (SLO_COLOR_HASH px % 64) px ∧
      (encChunk last px s).state.index (SLO_COLOR_HASH px % 64) = px ∧
      (encChunk last px s).pxBytes = ruleChunk px s.px_prev := by
  have e : (encChunk last px s).state.index = setIndex s.index (SLO_COLOR_HASH px % 64) px := by
    simp only [encChunk, hne, if_false, hi]
  have e2 : (encChunk last px s).pxBytes = encDelta px s.px_prev := by
    simp only [encChunk, hne, if_false, hi]
  refine ⟨e, ?_, ?_⟩
  · rw [e]; simp [setIndex]
  · rw [e2, encDelta_eq_ruleChunk]

theorem chunk_selection_witness :
    (encChunk false { r := 5, g := 5, b := 5, a := 128 }
        (encFinal [{ r := 5, g := 5, b := 5, a := 255 }] encInit)).pxBytes
      = ruleChunk { r := 5, g := 5, b := 5, a := 128 }
          (encFinal [{ r := 5, g := 5, b := 5, a := 255 }] encInit).px_prev :=
  (chunk_selection false { r := 5, g := 5, b := 5, a := 128 }
    (encFinal [{ r := 5, g := 5, b := 5, a := 255 }] encInit) (by decide) (by decide)).2.2

/-! ## The 1 x 1 opaque red image -/

/-- C17, counterexample: the chunk stream of the 1 x 1 RGBA image `FF 00 00 FF` is not
the RGBA chunk `FF 7F 00 00 FF`. -/
theorem opaque_red_not_rgba :
    SLO_encode [0xff, 0x00, 0x00, 0xff]
        { width := 1, height := 1, channels := 4, colorspace := 0 }
      ≠ some (encHeader { width := 1, height := 1, channels := 4, colorspace := 0 } ++
          [0xff, 0x7f, 0x00, 0x00, 0xff] ++ SLO_padding) := by
  decide

/-- C17, amended. Scenario 1 x 1 opaque red: for the 1 x 1 RGBA image `FF 00 00 FF`
the chunk stream between the 14-byte header and the end marker is a single RGB
chunk, the four bytes `FE 7F 00 00` (alpha equals the starting alpha 255). -/
theorem opaque_red_chunks :
    SLO_encode [0xff, 0x00, 0x00, 0xff]
        { width := 1, height := 1, channels := 4, colorspace := 0 }
      = some (encHeader { width := 1, height := 1, channels := 4, colorspace := 0 } ++
          [0xfe, 0x7f, 0x00, 0x00] ++ SLO_padding) := by
  decide

/-! ## The index between two occurrences of a pixel -/

/-- C19, the code at the failing input: the 2 x 1 RGBA image `00 00 00 00  80 00 00 00`
is encoded with the chunk stream `00 00`, two consecutive INDEX chunks to index 0
(the second pixel `(64,0,0,0)` differs from the first, hashes to slot 0 as well and
is chosen for INDEX because `index[0].a = px.a * 2 = 0`). -/
theorem repeated_index_chunks :
    SLO_encode [0, 0, 0, 0, 128, 0, 0, 0]
        { width := 2, height := 1, channels := 4, colorspace := 0 }
      = some (encHeader { width := 2, height := 1, channels := 4, colorspace := 0 } ++
          [0x00, 0x00] ++ SLO_padding) ∧
    (encIter [0, 0, 0, 0, 128, 0, 0, 0] 4 4 0 encInit).pxBytes = [SLO_OP_INDEX ||| 0] ∧
    (encIter [0, 0, 0, 0, 128, 0, 0, 0] 4 4 4
      (encStateFrom [0, 0, 0, 0, 128, 0, 0, 0] 4 4 1 0 encInit)).pxBytes
      = [SLO_OP_INDEX ||| 0] := by
  decide

/-! ## Truncated chunk streams -/

/-- With nothing left to read and no run pending the decoder reads no chunk. -/
theorem decChunks_starved (bytes : List Nat) (cl : Int) (s : DecState) (hrun : s.run = 0)
    (hp : ¬ (s.p : Int) < cl) (n : Nat) : decChunks bytes cl n s = [] := by
  induction n with
  | zero => rfl
  | succ n ih =>
    simp only [decChunks, decRead_starved bytes cl s hrun hp, ih, hrun, Nat.lt_irrefl, hp,
      if_false, List.append_nil, gt_iff_lt]

theorem flatMap_start (n : Nat) :
    (List.replicate n startPixel).flatMap (decEmit 4)
      = (List.replicate n [0, 0, 0, 255]).flatten := by
  induction n with
  | zero => rfl
  | succ n ih =>
    rw [List.replicate_succ, List.replicate_succ, List.flatMap_cons, List.flatten_cons, ih]
    rfl

/-- C20. Truncation tolerance: for every input that passes the checks of
`SLO_decode` the call does not fail, and once the read cursor has reached
`size - 8` with no run pending (after `k` passes, `j` passes remaining), the loop
variables no longer change, no further chunk is read, and every remaining output
pixel is the last computed pixel; in particular an accepted input of exactly
22 bytes decodes to `width * height` copies of the starting pixel, which are
`00 00 00 FF` each when 4 channels are output. -/
theorem truncation_tolerance (bytes : List Nat) (size channels : Int)
    (hch : channels = 0 ∨ channels = 3 ∨ channels = 4) (hsize : 22 ≤ size)
    (hw : (decHeader bytes).width ≠ 0) (hh : (decHeader bytes).height ≠ 0)
    (hc : (decHeader bytes).channels = 3 ∨ (decHeader bytes).channels = 4)
    (hcs : (decHeader bytes).colorspace ≤ 1) (hm : SLO_read_32 bytes 0 = SLO_MAGIC)
    (hg : (decHeader bytes).height < SLO_PIXELS_MAX / (decHeader bytes).width) :
    ∃ px, SLO_decode bytes size channels = some (decHeader bytes, px) ∧
      (∀ k j : Nat, k + j = (decHeader bytes).width * (decHeader bytes).height →
        (decStateN bytes (size - 8) k decInit).run = 0 →
        size - 8 ≤ ((decStateN bytes (size - 8) k decInit).p : Int) →
        (∀ i, decStateN bytes (size - 8) (k + i) decInit
            = decStateN bytes (size - 8) k decInit) ∧
          decChunks bytes (size - 8) j (decStateN bytes (size - 8) k decInit) = [] ∧
          px = (decPxs bytes (size - 8) k decInit).flatMap
                (decEmit (if channels = 0 then (decHeader bytes).channels
                  else channels.toNat)) ++
              (List.replicate j (decStateN bytes (size - 8) k decInit).px).flatMap
                (decEmit (if channels = 0 then (decHeader bytes).channels
                  else channels.toNat))) ∧
      (size = 22 →
        px = (List.replicate ((decHeader bytes).width * (decHeader bytes).height)
              startPixel).flatMap
              (decEmit (if channels = 0 then (decHeader bytes).channels
                else channels.toNat)) ∧
          ((if channels = 0 then (decHeader bytes).channels else channels.toNat) = 4 →
            px = (List.replicate ((decHeader bytes).width * (decHeader bytes).height)
              [0, 0, 0, 255]).flatten)) := by
  refine ⟨_, decode_of_ok bytes size channels hch hsize hw hh hc hcs hm hg, ?_⟩
  generalize (if channels = 0 then (decHeader bytes).channels else channels.toNat) = ch
  generalize (decHeader bytes).width * (decHeader bytes).height = n
  have main : ∀ k j : Nat, k + j = n →
      (decStateN bytes (size - 8) k decInit).run = 0 →
      size - 8 ≤ ((decStateN bytes (size - 8) k decInit).p : Int) →
      (∀ i, decStateN bytes (size - 8) (k + i) decInit
          = decStateN bytes (size - 8) k decInit) ∧
        decChunks bytes (size - 8) j (decStateN bytes (size - 8) k decInit) = [] ∧
        (decPxs bytes (size - 8) n decInit).flatMap (decEmit ch)
          = (decPxs bytes (size - 8) k decInit).flatMap (decEmit ch) ++
            (List.replicate j (decStateN bytes (size - 8) k decInit).px).flatMap
              (decEmit ch) := by
    intro k j hkj hrun hp
    have hp2 : ¬ ((decStateN bytes (size - 8) k decInit).p : Int) < size - 8 := by omega
    refine ⟨fun i => ?_, decChunks_starved bytes _ _ hrun hp2 j, ?_⟩
    · rw [decStateN_add]
      exact (decStateN_starved bytes _ _ hrun hp2 i).1
    · rw [← hkj, decPxs_add, List.flatMap_append,
        (decStateN_starved bytes _ _ hrun hp2 j).2]
  refine ⟨main, fun h22 => ?_⟩
  have h0 := (main 0 n (by omega) rfl
    (by subst h22; simp [decStateN, decInit, SLO_HEADER_SIZE])).2.2
  simp only [decPxs, decStateN, List.flatMap_nil, List.nil_append] at h0
  have hs : decInit.px = startPixel := rfl
  rw [hs] at h0
  refine ⟨h0, fun h4 => ?_⟩
  rw [h0, h4, flatMap_start]

theorem truncation_tolerance_witness :
    ∃ px, SLO_decode
        [115, 108, 111, 102, 0, 0, 0, 2, 0, 0, 0, 1, 4, 0, 0, 0, 0, 0, 0, 0, 0, 1] 22 0
        = some (decHeader
            [115, 108, 111, 102, 0, 0, 0, 2, 0, 0, 0, 1, 4, 0, 0, 0, 0, 0, 0, 0, 0, 1], px) ∧
      px = [0, 0, 0, 255, 0, 0, 0, 255] := by
  obtain ⟨px, h1, -, h3⟩ := truncation_tolerance
    [115, 108, 111, 102, 0, 0, 0, 2, 0, 0, 0, 1, 4, 0, 0, 0, 0, 0, 0, 0, 0, 1] 22 0
    (by decide) (by decide) (by decide) (by decide) (by decide) (by decide) (by decide)
    (by decide)
  exact ⟨px, h1, (h3 rfl).2 (by decide)⟩

/-! ## Read safety of the decoder -/

set_option maxRecDepth 8000 in
theorem index_byte_lt : ∀ b, b < 256 → b &&& SLO_MASK_2 = SLO_OP_INDEX → b < 64 := by
  decide

/-- A pass of the decoder depends on the input only through the bytes at
`decReadOffsets`. -/
theorem decRead_reads_only (b1 b2 : List Nat) (cl : Int) (s : DecState)
    (hag : ∀ o ∈ decReadOffsets b1 cl s, b2.getD o 0 = b1.getD o 0) :
    decRead b2 cl s = decRead b1 cl s := by
  by_cases hrun : 0 < s.run
  · simp only [decRead, hrun, if_true]
  · by_cases hp : (s.p : Int) < cl
    · have e0 : b2.getD s.p 0 = b1.getD s.p 0 := by
        apply hag
        simp only [decReadOffsets, hrun, if_false, hp, if_true]
        split_ifs <;> simp
      simp only [decReadOffsets, hrun, if_false, hp, if_true] at hag
      simp only [decRead, hrun, if_false, hp, if_true, e0]
      split_ifs at hag ⊢ with c1 c2 c3 c4 c5 c6
      · rw [hag (s.p + 1) (by simp), hag (s.p + 2) (by simp), hag (s.p + 3) (by simp)]
      · rw [hag (s.p + 1) (by simp), hag (s.p + 2) (by simp), hag (s.p + 3) (by simp),
          hag (s.p + 4) (by simp)]
      · rfl
      · rfl
      · rw [hag (s.p + 1) (by simp)]
      · rfl
      · rfl
    · simp only [decRead, hrun, if_false, hp]

/-- The bytes a pass reads are the bytes of the chunk it consumes. -/
theorem decReadOffsets_range (bytes : List Nat) (cl : Int) (s : DecState) :
    ∀ o ∈ decReadOffsets bytes cl s,
      s.run = 0 ∧ (s.p : Int) < cl ∧ s.p ≤ o ∧ o < (decRead bytes cl s).p ∧
        (decRead bytes cl s).p ≤ s.p + 5 := by
  intro o ho
  by_cases hrun : 0 < s.run
  · simp [decReadOffsets, hrun] at ho
  · by_cases hp : (s.p : Int) < cl
    · have h0 : s.run = 0 := by omega
      have hsz := decRead_p bytes cl s h0 hp
      simp only [decReadOffsets, hrun, if_false, hp, if_true] at ho
      simp only [chunkSize, SLO_OP_RGB, SLO_OP_RGBA, SLO_OP_INDEX, SLO_OP_DIFF, SLO_OP_LUMA,
        SLO_MASK_2] at hsz ho
      refine ⟨h0, hp, ?_⟩
      split_ifs at hsz ho <;> simp at ho <;> omega
    · simp [decReadOffsets, hrun, hp] at ho

/-- C21. Decoder read safety: for every byte sequence of length `size`, whatever
its content, in every pass of the decoder's loop each input byte read lies at an
offset below `size` (a chunk starts at an offset below `size - 8` and is at most
5 bytes long), and each access to the index array uses a slot in `0..63`. -/
theorem decoder_read_safety (bytes : List Nat) (size : Int)
    (hlen : (bytes.length : Int) = size) (hb : ∀ x ∈ bytes, x < 256) (k : Nat) :
    (∀ o ∈ decReadOffsets bytes (size - 8) (decStateN bytes (size - 8) k decInit),
      o < bytes.length ∧
        ((decStateN bytes (size - 8) k decInit).p : Int) < size - 8 ∧
        (decStateN bytes (size - 8) k decInit).p ≤ o ∧
        o < (decStateN bytes (size - 8) k decInit).p + 5) ∧
    (∀ i ∈ decIndexSlots bytes (size - 8) (decStateN bytes (size - 8) k decInit),
      i < 64) := by
  generalize decStateN bytes (size - 8) k decInit = s
  constructor
  · intro o ho
    obtain ⟨-, h2, h3, h4, h5⟩ := decReadOffsets_range bytes (size - 8) s o ho
    exact ⟨by omega, h2, h3, by omega⟩
  · intro i hi
    by_cases hrun : 0 < s.run
    · simp [decIndexSlots, hrun] at hi
    · by_cases hp : (s.p : Int) < size - 8
      · simp only [decIndexSlots, hrun, if_false, hp, if_true, List.mem_append,
          List.mem_singleton] at hi
        rcases hi with hi | hi
        · have hin : s.p < bytes.length := by omega
          have hbyte : bytes.getD s.p 0 < 256 := by
            rw [List.getD_eq_getElem _ _ hin]
            exact hb _ (List.getElem_mem _)
          split_ifs at hi with c1 c2 c3
          · simp at hi
          · simp at hi
          · simp only [List.mem_singleton] at hi
            rw [hi]
            exact index_byte_lt _ hbyte c3
          · simp at hi
        · rw [hi]; exact Nat.mod_lt _ (by decide)
      · simp [decIndexSlots, hrun, hp] at hi

theorem decoder_read_safety_witness :
    (∀ o ∈ decReadOffsets [115, 108, 111, 102, 0, 0, 0, 1, 0, 0, 0, 1, 4, 0, 255, 5, 6, 7, 9,
          0, 0, 0, 0, 0, 0, 0, 1] (27 - 8)
        (decStateN [115, 108, 111, 102, 0, 0, 0, 1, 0, 0, 0, 1, 4, 0, 255, 5, 6, 7, 9,
          0, 0, 0, 0, 0, 0, 0, 1] (27 - 8) 0 decInit),
      o < ([115, 108, 111, 102, 0, 0, 0, 1, 0, 0, 0, 1, 4, 0, 255, 5, 6, 7, 9,
          0, 0, 0, 0, 0, 0, 0, 1] : List Nat).length ∧
        ((decStateN [115, 108, 111, 102, 0, 0, 0, 1, 0, 0, 0, 1, 4, 0, 255, 5, 6, 7, 9,
          0, 0, 0, 0, 0, 0, 0, 1] (27 - 8) 0 decInit).p : Int) < 27 - 8 ∧
        (decStateN [115, 108, 111, 102, 0, 0, 0, 1, 0, 0, 0, 1, 4, 0, 255, 5, 6, 7, 9,
          0, 0, 0, 0, 0, 0, 0, 1] (27 - 8) 0 decInit).p ≤ o ∧
        o < (decStateN [115, 108, 111, 102, 0, 0, 0, 1, 0, 0, 0, 1, 4, 0, 255, 5, 6, 7, 9,
          0, 0, 0, 0, 0, 0, 0, 1] (27 - 8) 0 decInit).p + 5) ∧
    (∀ i ∈ decIndexSlots [115, 108, 111, 102, 0, 0, 0, 1, 0, 0, 0, 1, 4, 0, 255, 5, 6, 7, 9,
          0, 0, 0, 0, 0, 0, 0, 1] (27 - 8)
        (decStateN [115, 108, 111, 102, 0, 0, 0, 1, 0, 0, 0, 1, 4, 0, 255, 5, 6, 7, 9,
          0, 0, 0, 0, 0, 0, 0, 1] (27 - 8) 0 decInit),
      i < 64) :=
  decoder_read_safety [115, 108, 111, 102, 0, 0, 0, 1, 0, 0, 0, 1, 4, 0, 255, 5, 6, 7, 9,
    0, 0, 0, 0, 0, 0, 0, 1] 27 (by decide) (by decide) 0

/-! ## The round trip without runs -/

theorem setIndex_same (idx : Nat → SLO_rgba_t) (i : Nat) (v : SLO_rgba_t) (h : idx i = v) :
    setIndex idx i v = idx := by
  funext j
  unfold setIndex
  by_cases hj : j = i
  · simp [hj, h]
  · simp [hj]

/-- When the colour changes at every pixel the run counter stays 0. -/
theorem noStale_of_changes (qs : List SLO_rgba_t) :
    ∀ E : EncState, E.run = 0 → colourChanges E.px_prev qs → encNoStale qs E := by
  induction qs with
  | nil => intro E _ _; trivial
  | cons q qs ih =>
    intro E hrun hc
    obtain ⟨h1, h2⟩ := hc
    have hq : q ≠ E.px_prev := fun e => h1 (by rw [e]; exact ⟨rfl, rfl, rfl⟩)
    refine ⟨fun h => by omega, ih _ ?_ ?_⟩
    · have := stepCovered_length q E
      simp only [stepCovered, hq, if_false, hrun, List.length_append, List.length_cons,
        List.length_nil] at this
      simp at this
      omega
    · rw [(encChunk_px false q E).2]; exact h2

/-- One pass of the encoder for an opaque pixel that differs from the previous
pixel, no run pending, against one pass of the decoder whose pixel and index equal
the encoder's previous pixel and index: the decoder consumes exactly the chunk and
arrives at the encoder's new previous pixel and index. -/
theorem step_agree (bytes : List Nat) (cl : Int) (q : SLO_rgba_t) (E : EncState)
    (D : DecState) (rest : List Nat) (hE : E.run = 0) (hD : D.run = 0)
    (hpx : D.px = E.px_prev) (hidx : D.index = E.index)
    (hprev : E.px_prev.r < 256 ∧ E.px_prev.g < 256 ∧ E.px_prev.b < 256 ∧ E.px_prev.a = 255)
    (hslot : ∀ i, (E.index i).a < 256)
    (hq : q.r < 256 ∧ q.g < 256 ∧ q.b < 256 ∧ q.a = 255) (hne : q ≠ E.px_prev)
    (hd : bytes.drop D.p
      = ((encChunk false q E).runBytes ++ (encChunk false q E).pxBytes) ++ rest)
    (hcl : ((D.p + ((encChunk false q E).runBytes ++ (encChunk false q E).pxBytes).length
      : Nat) : Int) ≤ cl) :
    (encChunk false q E).state.run = 0 ∧
      (decRead bytes cl D).run = 0 ∧
      (decRead bytes cl D).p
        = D.p + ((encChunk false q E).runBytes ++ (encChunk false q E).pxBytes).length ∧
      bytes.drop (decRead bytes cl D).p = rest ∧
      (decRead bytes cl D).px = q ∧
      (decRead bytes cl D).index = (encChunk false q E).state.index ∧
      (∀ i, ((encChunk false q E).state.index i).a < 256) := by
  have h0 : ¬ (E.run > 1) := by omega
  by_cases hi : E.index (SLO_COLOR_HASH q % 64) = q ∨
      (E.index (SLO_COLOR_HASH q % 64)).a = q.a * 2 ∨
      (E.index (SLO_COLOR_HASH q % 64)).a = E.px_prev.a * 8
  · have hex : E.index (SLO_COLOR_HASH q % 64) = q := by
      have h1 := hslot (SLO_COLOR_HASH q % 64)
      rcases hi with h | h | h
      · exact h
      · omega
      · omega
    rw [encChunk_index q E hne hi] at hd hcl ⊢
    simp only [h0, if_false, List.nil_append, List.length_cons, List.length_nil] at hd hcl ⊢
    have hb := getD_of_drop_zero bytes D.p _ hd
    simp only [List.cons_append, List.getD_cons_zero] at hb
    have hr := decRead_index bytes cl D (SLO_COLOR_HASH q % 64) hD (by omega) (hash_lt q) hb
    have hdq : D.index (SLO_COLOR_HASH q % 64) = q := by rw [hidx, hex]
    rw [hr, hdq]
    refine ⟨hE, rfl, rfl, ?_, rfl, ?_, hslot⟩
    · exact drop_append_left bytes D.p _ rest hd
    · show setIndex D.index (SLO_COLOR_HASH q % 64) q = E.index
      rw [setIndex_same D.index _ q hdq, hidx]
  · rw [encChunk_delta q E hne hi] at hd hcl ⊢
    simp only [h0, if_false, List.nil_append] at hd hcl ⊢
    have hpos := encDelta_length_pos q E.px_prev
    obtain ⟨px, hr, hpxq⟩ := decRead_encDelta bytes cl D q E.px_prev rest hD (by omega) hd
    have e : px = q := hpxq hpx hq.1 hq.2.1 hq.2.2.1 hprev.1 hprev.2.1 hprev.2.2.1
    subst e
    rw [hr]
    refine ⟨hE, rfl, rfl, ?_, rfl, ?_, ?_⟩
    · exact drop_append_left bytes D.p _ rest hd
    · show setIndex D.index (SLO_COLOR_HASH px % 64) px
        = setIndex E.index (SLO_COLOR_HASH px % 64) px
      rw [hidx]
    · intro i
      show (setIndex E.index (SLO_COLOR_HASH px % 64) px i).a < 256
      unfold setIndex
      split
      · omega
      · exact hslot i

/-- The encoder's chunk stream for opaque pixels whose colour changes at every
pixel, against the decoder: after every pass the decoder has consumed the chunks of
the pixels so far and its pixel and index equal the encoder's previous pixel and
index. -/
theorem list_agree (bytes : List Nat) (cl : Int) (qs : List SLO_rgba_t) :
    ∀ (E : EncState) (D : DecState) (rest : List Nat), E.run = 0 → D.run = 0 →
      D.px = E.px_prev → D.index = E.index →
      (E.px_prev.r < 256 ∧ E.px_prev.g < 256 ∧ E.px_prev.b < 256 ∧ E.px_prev.a = 255) →
      (∀ i, (E.index i).a < 256) →
      (∀ q ∈ qs, q.r < 256 ∧ q.g < 256 ∧ q.b < 256 ∧ q.a = 255) →
      colourChanges E.px_prev qs →
      bytes.drop D.p = encList qs E ++ rest →
      ((D.p + (encList qs E).length : Nat) : Int) ≤ cl →
      ∀ k, k ≤ qs.length →
        (decStateN bytes cl k D).p = D.p + (encList (qs.take k) E).length ∧
          (decStateN bytes cl k D).px = (encFinal (qs.take k) E).px_prev ∧
          (decStateN bytes cl k D).index = (encFinal (qs.take k) E).index := by
  induction qs with
  | nil =>
    intro E D rest _ _ hpx hidx _ _ _ _ _ _ k hk
    have : k = 0 := by simpa using hk
    subst this
    exact ⟨rfl, hpx, hidx⟩
  | cons q qs ih =>
    intro E D rest hE hD hpx hidx hprev hslot hq hc hd hcl k hk
    cases k with
    | zero => exact ⟨rfl, hpx, hidx⟩
    | succ k =>
      obtain ⟨c1, c2⟩ := hc
      have hne : q ≠ E.px_prev := fun e => c1 (by rw [e]; exact ⟨rfl, rfl, rfl⟩)
      simp only [encList, List.length_append] at hd hcl
      rw [List.append_assoc ((encChunk false q E).runBytes ++ (encChunk false q E).pxBytes)]
        at hd
      obtain ⟨g1, g2, g3, g4, g5, g6, g7⟩ :=
        step_agree bytes cl q E D _ hE hD hpx hidx hprev hslot
          (hq q (List.mem_cons_self _ _)) hne hd
          (by simp only [List.length_append]; omega)
      simp only [List.length_append] at g3
      have hprev2 := (encChunk_px false q E).2
      obtain ⟨i1, i2, i3⟩ := ih (encChunk false q E).state (decRead bytes cl D) rest g1 g2
        (by rw [g5, hprev2]) g6 (by rw [hprev2]; exact hq q (List.mem_cons_self _ _)) g7
        (fun x hx => hq x (List.mem_cons_of_mem _ hx)) (by rw [hprev2]; exact c2) g4
        (by omega) k (by simpa using hk)
      simp only [decStateN, List.take_succ_cons, encList, encFinal, List.length_append]
      exact ⟨by omega, i2, i3⟩

/-- C22. Restricted round trip: for every valid image, 3-channel or 4-channel with
every alpha byte 255, in which the quantized colour of every pixel differs from
that of the pixel before it and that of the first pixel from `(0, 0, 0)`, decoding
the encoding with `channels = 0` returns the image with the low bit of every
colour byte cleared (alpha unchanged); and after every pass the decoder has
consumed the chunks written so far and its pixel and index array equal the
encoder's previous pixel and index array. -/
theorem restricted_round_trip (pixels : List Nat) (desc : SLO_desc) (out : List Nat)
    (henc : SLO_encode pixels desc = some out)
    (hlen : pixels.length = desc.width * desc.height * desc.channels)
    (hb : ∀ x ∈ pixels, x < 256)
    (halpha : desc.channels = 4 → ∀ q ∈ quantPixels desc.channels pixels, q.a = 255)
    (hcol : colourChanges startPixel (quantPixels desc.channels pixels)) :
    SLO_decode out (out.length : Int) 0 = some (desc, lossyImage desc.channels pixels) ∧
      ∀ k, k ≤ desc.width * desc.height →
        (decStateN out ((out.length : Int) - 8) k decInit).p
            = 14 + (encList ((quantPixels desc.channels pixels).take k) encInit).length ∧
          (decStateN out ((out.length : Int) - 8) k decInit).px
            = (encFinal ((quantPixels desc.channels pixels).take k) encInit).px_prev ∧
          (decStateN out ((out.length : Int) - 8) k decInit).index
            = (encFinal ((quantPixels desc.channels pixels).take k) encInit).index := by
  obtain ⟨hacc, -⟩ := encode_eq_some pixels desc out henc
  obtain ⟨-, -, h3, -⟩ := accepted_bounds desc hacc
  obtain ⟨s1, s2, s3⟩ := quantPixels_spec desc.channels _ h3 pixels hlen hb
  obtain ⟨hout, hn⟩ := encode_form pixels desc out henc hlen
  have ha : ∀ q ∈ quantPixels desc.channels pixels, q.a = 255 := by
    intro q hm
    rcases h3 with h | h
    · exact (s2 q hm).2.2.2.2 h
    · exact halpha h q hm
  have hq : ∀ q ∈ quantPixels desc.channels pixels, PixelOK q := by
    intro q hm
    obtain ⟨a, b, c, d, -⟩ := s2 q hm
    exact ⟨a, b, c, by rw [ha q hm]; decide, d⟩
  have hq2 : ∀ q ∈ quantPixels desc.channels pixels,
      q.r < 256 ∧ q.g < 256 ∧ q.b < 256 ∧ q.a = 255 := by
    intro q hm
    obtain ⟨a, b, c, -, -⟩ := s2 q hm
    exact ⟨a, b, c, ha q hm⟩
  have hruns := noStale_of_changes (quantPixels desc.channels pixels) encInit rfl hcol
  constructor
  · rw [decode_encode_pxs pixels desc out 0 henc hlen (Or.inl rfl) hq,
      covered_noStale _ encInit hruns]
    simp only [if_true]
    have : encInit.run = 0 := rfl
    rw [this, List.replicate_zero, List.nil_append, s3]
  · generalize hqs : quantPixels desc.channels pixels = qs at hout hn hq2 hcol
    have hsz : out.length = 14 + (encList qs encInit).length + 8 := by
      rw [hout]; simp [encHeader_length, SLO_padding]; omega
    have hd : out.drop decInit.p = encList qs encInit ++ SLO_padding := by
      rw [hout, List.append_assoc]
      have : decInit.p = (encHeader desc).length := by rw [encHeader_length]; rfl
      rw [this, List.drop_left]
    have hp : decInit.p = 14 := rfl
    intro k hk
    have key := list_agree out ((out.length : Int) - 8) qs encInit decInit SLO_padding rfl rfl
      rfl rfl (by simp [encInit, startPixel]) (by intro i; simp [encInit, zeroIndex, zeroPixel])
      hq2 hcol hd (by rw [hp, hsz]; push_cast; omega) k (by rw [hn]; exact hk)
    rw [hp] at key
    exact key

theorem restricted_round_trip_witness :
    SLO_decode [115, 108, 111, 102, 0, 0, 0, 2, 0, 0, 0, 1, 4, 0, 254, 127, 0, 0,
        254, 0, 127, 0, 0, 0, 0, 0, 0, 0, 0, 1]
        (([115, 108, 111, 102, 0, 0, 0, 2, 0, 0, 0, 1, 4, 0, 254, 127, 0, 0,
        254, 0, 127, 0, 0, 0, 0, 0, 0, 0, 0, 1] : List Nat).length : Int) 0
      = some ({ width := 2, height := 1, channels := 4, colorspace := 0 },
          lossyImage 4 [255, 0, 0, 255, 0, 255, 0, 255]) :=
  (restricted_round_trip [255, 0, 0, 255, 0, 255, 0, 255]
    { width := 2, height := 1, channels := 4, colorspace := 0 } _
    (by decide) (by decide) (by decide) (by decide) (by decide)).1

/-! ## The round trip when INDEX is chosen by equality only -/

/-- Storing the decoder's pixel in its index keeps the index relation of
`SyncedExact`. -/
theorem rel_store_exact (E : EncState) (idx : Nat → SLO_rgba_t)
    (hrel : ∀ i, idx i = E.index i ∨
      (i = SLO_COLOR_HASH startPixel % 64 ∧ E.index i = zeroPixel))
    (hj : E.index (SLO_COLOR_HASH E.px_prev % 64) = E.px_prev ∨
      (E.px_prev = startPixel ∧ E.index (SLO_COLOR_HASH startPixel % 64) = zeroPixel)) :
    ∀ i, setIndex idx (SLO_COLOR_HASH E.px_prev % 64) E.px_prev i = E.index i ∨
      (i = SLO_COLOR_HASH startPixel % 64 ∧ E.index i = zeroPixel) := by
  intro i
  unfold setIndex
  by_cases hi : i = SLO_COLOR_HASH E.px_prev % 64
  · subst hi
    rcases hj with h | ⟨h1, h2⟩
    · left; simp [h]
    · right; rw [h1]; exact ⟨rfl, h2⟩
  · simp only [hi, if_false]; exact hrel i

/-- One pass of the encoder against the decoder on `SyncedExact` states, for a
pixel that is not chosen for INDEX through an alpha predicate alone: the decoder
decodes exactly `stepCovered q E` and the states stay `SyncedExact`. -/
theorem step_sync (bytes : List Nat) (cl : Int) (q : SLO_rgba_t) (E : EncState)
    (D : DecState) (rest : List Nat) (hE : E.run ≤ 61) (hD : D.run = 0)
    (hd : bytes.drop D.p
      = ((encChunk false q E).runBytes ++ (encChunk false q E).pxBytes) ++ rest)
    (hcl : ((D.p + ((encChunk false q E).runBytes ++ (encChunk false q E).pxBytes).length
      : Nat) : Int) ≤ cl)
    (hs : SyncedExact E D) (hqb : q.r < 256 ∧ q.g < 256 ∧ q.b < 256)
    (hex : q ≠ E.px_prev →
      ((E.index (SLO_COLOR_HASH q % 64)).a = q.a * 2 ∨
        (E.index (SLO_COLOR_HASH q % 64)).a = E.px_prev.a * 8) →
      E.index (SLO_COLOR_HASH q % 64) = q) :
    decPxs bytes cl (stepCovered q E).length D = stepCovered q E ∧
      SyncedExact (encChunk false q E).state
        (decStateN bytes cl (stepCovered q E).length D) := by
  obtain ⟨s1, s2, s4, s5⟩ := hs
  by_cases hq : q = E.px_prev
  · by_cases h62 : E.run + 1 = 62
    · rw [encChunk_same_flush q E hq h62] at hd hcl ⊢
      have hc : stepCovered q E = List.replicate 62 E.px_prev := by
        simp [stepCovered, hq, h62]
      rw [hc, List.length_replicate]
      simp only [List.append_nil, List.length_cons, List.length_nil] at hd hcl ⊢
      have hb := getD_of_drop_zero bytes D.p _ hd
      simp only [List.cons_append, List.getD_cons_zero] at hb
      obtain ⟨i1, i2, -⟩ := decStateN_runChunk bytes cl D 61 hD (by omega) (by omega) hb
      rw [i1]
      refine ⟨by rw [i2, s1], ?_, ?_, ?_, ?_⟩
      · show D.px = q
        rw [s1, hq]
      · show q.r < 256 ∧ q.g < 256 ∧ q.b < 256
        exact hqb
      · show ∀ i, setIndex D.index (SLO_COLOR_HASH D.px % 64) D.px i = E.index i ∨
          (i = SLO_COLOR_HASH startPixel % 64 ∧ E.index i = zeroPixel)
        rw [s1]
        exact rel_store_exact E D.index s4 s5
      · show E.index (SLO_COLOR_HASH q % 64) = q ∨
          (q = startPixel ∧ E.index (SLO_COLOR_HASH startPixel % 64) = zeroPixel)
        rw [hq]; exact s5
    · rw [encChunk_same_keep q E hq h62]
      have hc : stepCovered q E = [] := by
        simp [stepCovered, hq, h62]
      rw [hc]
      refine ⟨rfl, ?_, hqb, s4, ?_⟩
      · show D.px = q
        rw [s1, hq]
      · show E.index (SLO_COLOR_HASH q % 64) = q ∨
          (q = startPixel ∧ E.index (SLO_COLOR_HASH startPixel % 64) = zeroPixel)
        rw [hq]; exact s5
  · have hc : (stepCovered q E).length = (if E.run > 1 then E.run else 0) + 1 := by
      simp only [stepCovered, hq, if_false, List.length_append, List.length_cons,
        List.length_nil]
      split_ifs <;> simp
    have hcv : stepCovered q E
        = (if E.run > 1 then List.replicate E.run E.px_prev else []) ++ [q] := by
      simp only [stepCovered, hq, if_false]
    by_cases hi : E.index (SLO_COLOR_HASH q % 64) = q ∨
        (E.index (SLO_COLOR_HASH q % 64)).a = q.a * 2 ∨
        (E.index (SLO_COLOR_HASH q % 64)).a = E.px_prev.a * 8
    · have hexact : E.index (SLO_COLOR_HASH q % 64) = q := by
        rcases hi with h | h
        · exact h
        · exact hex hq h
      rw [encChunk_index q E hq hi] at hd hcl ⊢
      simp only [List.append_assoc, List.length_append, List.length_cons, List.length_nil]
        at hd hcl
      obtain ⟨D1, f1, f2, f3, f4, f5, f6, f7, f8⟩ :=
        flush_sim bytes cl E D _ hE hD hd (by omega)
      have hb := getD_of_drop_zero bytes D1.p _ f5
      simp only [List.cons_append, List.getD_cons_zero] at hb
      have hr := decRead_index bytes cl D1 (SLO_COLOR_HASH q % 64) f3 (by omega) (hash_lt q) hb
      have hrel1 : ∀ i, D1.index i = E.index i ∨
          (i = SLO_COLOR_HASH startPixel % 64 ∧ E.index i = zeroPixel) := by
        rcases f8 with h | h
        · rw [h]; exact s4
        · rw [h, s1]; exact rel_store_exact E D.index s4 s5
      have hd1 : D1.index (SLO_COLOR_HASH q % 64) = q := by
        rcases hrel1 (SLO_COLOR_HASH q % 64) with h | ⟨h1, h2⟩
        · rw [h, hexact]
        · exfalso
          have hz : q = zeroPixel := by rw [← hexact, h2]
          rw [hz] at h1
          exact absurd h1 (by decide)
      rw [hc, decStateN_add, decPxs_add, f1, f7, hcv, s1]
      simp only [decStateN, decPxs, hr, decStore, hd1]
      refine ⟨trivial, rfl, hqb, ?_, Or.inl hexact⟩
      intro i
      show setIndex D1.index (SLO_COLOR_HASH q % 64) q i = E.index i ∨
        (i = SLO_COLOR_HASH startPixel % 64 ∧ E.index i = zeroPixel)
      unfold setIndex
      by_cases hii : i = SLO_COLOR_HASH q % 64
      · left; simp [hii, hexact]
      · simp only [hii, if_false]; exact hrel1 i
    · rw [encChunk_delta q E hq hi] at hd hcl ⊢
      simp only [List.append_assoc, List.length_append] at hd hcl
      have hpos := encDelta_length_pos q E.px_prev
      obtain ⟨D1, f1, f2, f3, f4, f5, f6, f7, f8⟩ :=
        flush_sim bytes cl E D _ hE hD hd (by omega)
      obtain ⟨px, hr, hpx⟩ := decRead_encDelta bytes cl D1 q E.px_prev rest f3 (by omega) f5
      have hrel1 : ∀ i, D1.index i = E.index i ∨
          (i = SLO_COLOR_HASH startPixel % 64 ∧ E.index i = zeroPixel) := by
        rcases f8 with h | h
        · rw [h]; exact s4
        · rw [h, s1]; exact rel_store_exact E D.index s4 s5
      have hpxq : px = q := hpx (by rw [f4, s1]) hqb.1 hqb.2.1 hqb.2.2 s2.1 s2.2.1 s2.2.2
      subst hpxq
      rw [hc, decStateN_add, decPxs_add, f1, f7, hcv, s1]
      simp only [decStateN, decPxs, hr, decStore]
      refine ⟨trivial, rfl, hqb, ?_, ?_⟩
      · intro i
        show setIndex D1.index (SLO_COLOR_HASH px % 64) px i
            = setIndex E.index (SLO_COLOR_HASH px % 64) px i ∨
          (i = SLO_COLOR_HASH startPixel % 64 ∧
            setIndex E.index (SLO_COLOR_HASH px % 64) px i = zeroPixel)
        unfold setIndex
        by_cases hii : i = SLO_COLOR_HASH px % 64
        · left; simp [hii]
        · simp only [hii, if_false]; exact hrel1 i
      · left
        show setIndex E.index (SLO_COLOR_HASH px % 64) px (SLO_COLOR_HASH px % 64) = px
        simp [setIndex]

/-- The encoder's whole chunk stream against the decoder on `SyncedExact` states,
when no pixel is chosen for INDEX through an alpha predicate alone: the decoder
decodes exactly `covered qs E`. -/
theorem list_sync (bytes : List Nat) (cl : Int) (qs : List SLO_rgba_t) :
    ∀ (E : EncState) (D : DecState) (rest : List Nat), E.run ≤ 61 → D.run = 0 →
      bytes.drop D.p = encList qs E ++ rest →
      ((D.p + (encList qs E).length : Nat) : Int) ≤ cl →
      SyncedExact E D → (∀ q ∈ qs, q.r < 256 ∧ q.g < 256 ∧ q.b < 256) →
      encIndexExact qs E →
      decPxs bytes cl (covered qs E).length D = covered qs E ∧
        SyncedExact (encFinal qs E) (decStateN bytes cl (covered qs E).length D) := by
  induction qs with
  | nil =>
    intro E D rest _ _ _ _ hs _ _
    exact ⟨rfl, hs⟩
  | cons q qs ih =>
    intro E D rest hE hD hd hcl hs hq hx
    obtain ⟨x1, x2⟩ := hx
    simp only [encList, covered, List.length_append, encFinal] at hd hcl ⊢
    rw [List.append_assoc ((encChunk false q E).runBytes ++ (encChunk false q E).pxBytes)] at hd
    obtain ⟨D1, g1, g2, g3, g4, -, -⟩ :=
      step_sim bytes cl q E D _ hE hD hd (by simp only [List.length_append]; omega)
    simp only [List.length_append] at g2
    obtain ⟨m1, m2⟩ := step_sync bytes cl q E D _ hE hD hd
      (by simp only [List.length_append]; omega) hs (hq q (List.mem_cons_self _ _)) x1
    rw [g1] at m2
    obtain ⟨n1, n2⟩ := ih (encChunk false q E).state D1 rest (encChunk_run_le _ _ _ hE) g3 g4
      (by omega) m2 (fun x hx => hq x (List.mem_cons_of_mem _ hx)) x2
    exact ⟨by rw [decPxs_add, g1, m1, n1], by rw [decStateN_add, g1]; exact n2⟩

theorem syncedExact_init : SyncedExact encInit decInit := by
  refine ⟨rfl, ?_, ?_, ?_⟩
  · simp [encInit, startPixel]
  · intro i; left; rfl
  · right; exact ⟨rfl, rfl⟩

/-- The pixels `SLO_decode` rebuilds from an accepted encoding of an image in which
no pixel is chosen for INDEX through an alpha predicate alone. -/
theorem decode_encode_exact (pixels : List Nat) (desc : SLO_desc) (out : List Nat)
    (channels : Int) (henc : SLO_encode pixels desc = some out)
    (hlen : pixels.length = desc.width * desc.height * desc.channels)
    (hch : channels = 0 ∨ channels = 3 ∨ channels = 4)
    (hb : ∀ x ∈ pixels, x < 256)
    (hidx : encIndexExact (quantPixels desc.channels pixels) encInit) :
    SLO_decode out (out.length : Int) channels
      = some (desc,
          (covered (quantPixels desc.channels pixels) encInit ++
            List.replicate (encFinal (quantPixels desc.channels pixels) encInit).run
              (encFinal (quantPixels desc.channels pixels) encInit).px_prev).flatMap
            (decEmit (if channels = 0 then desc.channels else channels.toNat))) := by
  obtain ⟨hacc, -⟩ := encode_eq_some pixels desc out henc
  obtain ⟨-, -, h3, -⟩ := accepted_bounds desc hacc
  obtain ⟨-, s2, -⟩ := quantPixels_spec desc.channels _ h3 pixels hlen hb
  obtain ⟨hout, hn⟩ := encode_form pixels desc out henc hlen
  generalize hqs : quantPixels desc.channels pixels = qs at hout hn s2 hidx ⊢
  have hq : ∀ q ∈ qs, q.r < 256 ∧ q.g < 256 ∧ q.b < 256 := by
    intro q hm
    obtain ⟨a, b, c, -⟩ := s2 q hm
    exact ⟨a, b, c⟩
  have hsz : out.length = 14 + (encList qs encInit).length + 8 := by
    rw [hout]; simp [encHeader_length, SLO_padding]; omega
  have key := decode_with_header desc hacc (encList qs encInit ++ SLO_padding)
    (out.length : Int) channels hch (by rw [hsz]; push_cast; omega)
  rw [← List.append_assoc, ← hout] at key
  rw [key]
  have hd : out.drop decInit.p = encList qs encInit ++ SLO_padding := by
    rw [hout, List.append_assoc]
    have : decInit.p = (encHeader desc).length := by rw [encHeader_length]; rfl
    rw [this, List.drop_left]
  have hp : decInit.p = 14 := rfl
  have hcl : ((decInit.p + (encList qs encInit).length : Nat) : Int) ≤ (out.length : Int) - 8 := by
    rw [hp, hsz]; push_cast; omega
  obtain ⟨D1, g1, g2, g3, -, -, -⟩ :=
    list_sim out ((out.length : Int) - 8) qs encInit decInit SLO_padding
      (by simp [encInit]) rfl hd hcl
  obtain ⟨m1, m2⟩ := list_sync out ((out.length : Int) - 8) qs encInit decInit SLO_padding
    (by simp [encInit]) rfl hd hcl syncedExact_init hq hidx
  rw [g1] at m2
  have hcov := covered_length qs encInit
  have hnn : desc.width * desc.height
      = (covered qs encInit).length + (encFinal qs encInit).run := by
    rw [hcov, hn]; simp [encInit]
  have hst := (decStateN_starved out ((out.length : Int) - 8) D1 g3
    (by rw [g2, hp, hsz]; push_cast; omega) (encFinal qs encInit).run).2
  rw [hnn, decPxs_add, g1, m1, hst, m2.1]

/-- C1, amended. Lossy round trip: for a valid descriptor and a buffer of
`width * height * channels` bytes in which no pixel is chosen for INDEX through an
alpha predicate alone (whenever `index[h].a == px.a * 2` or
`index[h].a == prev.a * 8` holds for a pixel that differs from its predecessor,
`index[h] == px` holds as well) and in which the encoder's run counter is never
exactly 1 when it meets a pixel that differs from its predecessor, decoding the
encoding with `channels = 0` returns the buffer with every colour byte `x`
replaced by `(x >> 1) << 1` and every alpha byte unchanged. -/
theorem lossy_round_trip (pixels : List Nat) (desc : SLO_desc) (out : List Nat)
    (henc : SLO_encode pixels desc = some out)
    (hlen : pixels.length = desc.width * desc.height * desc.channels)
    (hb : ∀ x ∈ pixels, x < 256)
    (hidx : encIndexExact (quantPixels desc.channels pixels) encInit)
    (hruns : encNoStale (quantPixels desc.channels pixels) encInit) :
    SLO_decode out (out.length : Int) 0 = some (desc, lossyImage desc.channels pixels) := by
  obtain ⟨hacc, -⟩ := encode_eq_some pixels desc out henc
  obtain ⟨-, -, h3, -⟩ := accepted_bounds desc hacc
  obtain ⟨-, -, s3⟩ := quantPixels_spec desc.channels _ h3 pixels hlen hb
  rw [decode_encode_exact pixels desc out 0 henc hlen (Or.inl rfl) hb hidx,
    covered_noStale _ encInit hruns]
  simp only [if_true]
  have : encInit.run = 0 := rfl
  rw [this, List.replicate_zero, List.nil_append, s3]

theorem lossy_round_trip_witness :
    SLO_decode [115, 108, 111, 102, 0, 0, 0, 2, 0, 0, 0, 2, 4, 0,
        255, 1, 0, 0, 100, 255, 2, 3, 4, 7, 255, 5, 10, 15, 33, 15,
        0, 0, 0, 0, 0, 0, 0, 1] 38 0
      = some ({ width := 2, height := 2, channels := 4, colorspace := 0 },
          lossyImage 4 [2, 0, 0, 100, 4, 6, 8, 7, 10, 20, 30, 33, 2, 0, 0, 100]) :=
  lossy_round_trip [2, 0, 0, 100, 4, 6, 8, 7, 10, 20, 30, 33, 2, 0, 0, 100]
    { width := 2, height := 2, channels := 4, colorspace := 0 } _
    (by decide) (by decide) (by decide) (by decide) (by decide)

end Slo
